import Mathlib

/-
Verification of the symbolic core of the biodivine logical-model toolkit.

The engine represents state sets of a multi-valued logical network as BDDs.
The BDD library itself (biodivine-lib-bdd) is an external collaborator that is
assumed to provide Boolean operations, existential quantification, variable
renaming, satisfying-assignment enumeration and cardinality; we therefore embed
a BDD shallowly as the Boolean function it denotes.

The construction in `update/update_fn.rs` allocates, for every system variable
in sorted name order, one block of "unprimed" bits followed by one block of
"primed" bits (`SmartSystemUpdateFn::from_update_fns`).  A total valuation of
the BDD variable set is therefore modelled as a list, aligned with the sorted
variable list, of pairs of bit blocks: `(unprimed bits, primed bits)`.  The
eager variant (`SystemUpdateFn`) allocates only the unprimed blocks, so its
valuations are lists of single blocks.  All BDD operations used by the source
(and, or, not, xor, imp, iff, and_not, exists over a block of variables,
select on a block, renaming a primed bit onto its unprimed partner, conjunctive
clauses, cardinality) act position-independently, so this structured view is an
exact relabelling of the flat variable indexing used by the library.
-/

set_option maxRecDepth 20000

/-- The contents of the BDD variables of one symbolic domain, in the fixed
allocation order (`raw_bdd_variables`). -/
abbrev Block := List Bool

/-- All bit blocks of a given width, i.e. all total valuations of one
domain's BDD variables. -/
def allBlocks : Nat → List Block
  | 0 => [[]]
  | n + 1 => (allBlocks n).flatMap (fun bs => [false :: bs, true :: bs])

theorem length_allBlocks (n : Nat) : (allBlocks n).length = 2 ^ n := by
  induction n with
  | zero => rfl
  | succ n ih =>
    have h : ∀ l : List Block,
        (l.flatMap (fun bs => [false :: bs, true :: bs])).length = 2 * l.length := by
      intro l
      induction l with
      | nil => rfl
      | cons x xs ihx => simp only [List.flatMap_cons, List.length_append, ihx,
          List.length_cons, List.length_nil, List.length_cons]; omega
    rw [allBlocks, h, ih, Nat.pow_succ]
    omega

theorem mem_allBlocks {n : Nat} {bs : Block} : bs ∈ allBlocks n ↔ bs.length = n := by
  induction n generalizing bs with
  | zero => cases bs <;> simp [allBlocks]
  | succ n ih =>
    cases bs with
    | nil =>
      simp only [allBlocks, List.mem_flatMap, List.mem_cons, List.not_mem_nil,
        or_false]
      constructor
      · rintro ⟨cs, _, h | h⟩ <;> cases h
      · intro h; cases h
    | cons b rest =>
      simp only [allBlocks, List.mem_flatMap, List.mem_cons, List.not_mem_nil,
        or_false]
      constructor
      · rintro ⟨cs, hcs, h | h⟩ <;>
          (cases h; simp [ih.mp hcs])
      · intro h
        refine ⟨rest, ih.mpr (by simpa using h), ?_⟩
        cases b
        · exact Or.inl rfl
        · exact Or.inr rfl

theorem nodup_allBlocks (n : Nat) : (allBlocks n).Nodup := by
  induction n with
  | zero => simp [allBlocks]
  | succ n ih =>
    rw [allBlocks, List.nodup_flatMap]
    refine ⟨fun bs _ => by simp, ih.pairwise_of_forall_ne ?_⟩
    intro xs _ ys _ hne
    simp only [Function.onFun, List.disjoint_left]
    intro zs hz hz'
    simp only [List.mem_cons, List.not_mem_nil, or_false] at hz hz'
    rcases hz with rfl | rfl <;> rcases hz' with h' | h' <;> simp_all

/--
A symbolic integer encoding: the capability set of §4.1 restricted to the
operations the core uses, expressed at the level of one domain's bit block.
`width m` is the number of BDD variables used by a domain with maximum value
`m` (`symbolic_size`), `enc m v` the bit pattern written by `encode_bits`
(also `raw_bdd_variables_encode`), `dec m` the reading of `decode_bits`,
`validB m` the characteristic function of the domain's unit collection, and
`ltB / leB / gtB / geB` the range predicates used to compile propositions.
-/
structure EncImpl where
  width : Nat → Nat
  enc : Nat → Nat → Block
  dec : Nat → Block → Nat
  validB : Nat → Block → Bool
  ltB : Nat → Nat → Block → Bool
  leB : Nat → Nat → Block → Bool
  gtB : Nat → Nat → Block → Bool
  geB : Nat → Nat → Block → Bool

/--
The properties §3 demands of every symbolic domain: on the declared domain
`{0..m}`, `enc` produces valid blocks of the right width and `dec` inverts it;
every valid block of the right width is the encoding of a value in the domain;
and the range predicates agree with the total order on decoded values.
-/
structure GoodEnc (E : EncImpl) : Prop where
  enc_len : ∀ m v, v ≤ m → (E.enc m v).length = E.width m
  enc_valid : ∀ m v, v ≤ m → E.validB m (E.enc m v) = true
  dec_enc : ∀ m v, v ≤ m → E.dec m (E.enc m v) = v
  dec_le : ∀ m bs, bs.length = E.width m → E.validB m bs = true → E.dec m bs ≤ m
  enc_dec : ∀ m bs, bs.length = E.width m → E.validB m bs = true →
    E.enc m (E.dec m bs) = bs
  lt_sem : ∀ m k bs, bs.length = E.width m → E.validB m bs = true →
    E.ltB m k bs = decide (E.dec m bs < k)
  le_sem : ∀ m k bs, bs.length = E.width m → E.validB m bs = true →
    E.leB m k bs = decide (E.dec m bs ≤ k)
  gt_sem : ∀ m k bs, bs.length = E.width m → E.validB m bs = true →
    E.gtB m k bs = decide (k < E.dec m bs)
  ge_sem : ∀ m k bs, bs.length = E.width m → E.validB m bs = true →
    E.geB m k bs = decide (k ≤ E.dec m bs)

/- ----------------------------------------------------------------------
Unary encoding (`UnaryIntegerDomain`, src/symbolic_domain.rs).
A domain with maximum value `m` uses `m` bits; value `v` sets the first `v`
bits to `true` (`encode_bits`: bit `i` holds the value of `i < v`).
---------------------------------------------------------------------- -/

/-- `UnaryIntegerDomain::encode_bits`: bit `i` is set to `i < value`. -/
def unary_encode_bits (m v : Nat) : Block :=
  (List.range m).map (fun i => decide (i < v))

/-- `UnaryIntegerDomain::decode_bits`: scan the bits in order and return the
index of the first `false` bit; if all bits are `true`, return the bit count.
No validity check is performed. -/
def unary_decode_bits : Block → Nat
  | [] => 0
  | b :: rest => if b then unary_decode_bits rest + 1 else 0

/-- `UnaryIntegerDomain::unit_collection`: the conjunction, over `1 ≤ k` below
the bit count, of the implications `bit k ⇒ bit (k-1)`. -/
def unary_valid (bs : Block) : Bool :=
  (List.range bs.length).all fun k =>
    k == 0 || (!(bs.getD k false) || bs.getD (k - 1) false)

/-- Modelled from the spec: `encode_le(k) = (x_{k+1} = 0)`, or true when
`k ≥ max` (§4.1); the concrete ordered-domain module with the range encoders
is not part of the provided sources. -/
def unary_le (m k : Nat) (bs : Block) : Bool :=
  if m ≤ k then true else !(bs.getD k false)

/-- Modelled from the spec: a strict lower-bound test derived from
`encode_le`, false for `k = 0` (§3 requires consistency with the order). -/
def unary_lt (m k : Nat) (bs : Block) : Bool :=
  if k = 0 then false else unary_le m (k - 1) bs

/-- Modelled from the spec: the complement of `encode_le`, as in the
prototype compiler (src/prototype/update_fn_bdd.rs). -/
def unary_gt (m k : Nat) (bs : Block) : Bool := !(unary_le m k bs)

/-- Modelled from the spec: the complement of `encode_lt`, as in the
prototype compiler (src/prototype/update_fn_bdd.rs). -/
def unary_ge (m k : Nat) (bs : Block) : Bool := !(unary_lt m k bs)

/-- The unary symbolic domain packaged as an `EncImpl`. -/
def unaryEnc : EncImpl where
  width m := m
  enc := unary_encode_bits
  dec _ := unary_decode_bits
  validB _ := unary_valid
  ltB := unary_lt
  leB := unary_le
  gtB := unary_gt
  geB := unary_ge

theorem unary_decode_le_length (bs : Block) : unary_decode_bits bs ≤ bs.length := by
  induction bs with
  | nil => simp [unary_decode_bits]
  | cons b rest ih =>
    by_cases hb : b = true <;> simp [unary_decode_bits, hb] <;> omega

theorem length_unary_encode (m v : Nat) : (unary_encode_bits m v).length = m := by
  simp [unary_encode_bits]

theorem getD_unary_encode (m v k : Nat) (hk : k < m) :
    (unary_encode_bits m v).getD k false = decide (k < v) := by
  unfold unary_encode_bits
  rw [List.getD_eq_getElem _ _ (by simpa using hk)]
  simp

/-- The unit-collection check spelled out: every set bit forces its
predecessor bit. -/
theorem unary_valid_iff {bs : Block} :
    unary_valid bs = true ↔
      ∀ k, k + 1 < bs.length → bs.getD (k + 1) false = true →
        bs.getD k false = true := by
  unfold unary_valid
  rw [List.all_eq_true]
  constructor
  · intro h k hk hget
    have hmem : k + 1 ∈ List.range bs.length := by
      simp only [List.mem_range]; omega
    have := h (k + 1) hmem
    simp only [Nat.add_sub_cancel, Bool.or_eq_true, beq_iff_eq] at this
    rcases this with h' | h' | h'
    · omega
    · rw [hget] at h'; cases h'
    · exact h'
  · intro h k hmem
    cases k with
    | zero => simp
    | succ j =>
      simp only [List.mem_range] at hmem
      simp only [Nat.add_sub_cancel, Bool.or_eq_true, beq_iff_eq]
      by_cases hg : bs.getD (j + 1) false = true
      · exact Or.inr (Or.inr (h j hmem hg))
      · simp only [Bool.not_eq_true] at hg
        exact Or.inr (Or.inl (by rw [hg]; rfl))

theorem unary_valid_tail {a : Bool} {rest : Block}
    (h : unary_valid (a :: rest) = true) : unary_valid rest = true := by
  rw [unary_valid_iff] at h ⊢
  intro k hk hget
  have := h (k + 1) (by simpa using by omega)
  simpa using this (by simpa using hget)

theorem unary_valid_head {a : Bool} {rest : Block}
    (h : unary_valid (a :: rest) = true) (h0 : rest.getD 0 false = true) :
    a = true := by
  rw [unary_valid_iff] at h
  have hlen : 0 < rest.length := by
    by_contra hl
    have : rest = [] := List.eq_nil_of_length_eq_zero (by omega)
    rw [this] at h0
    cases h0
  have := h 0 (by simpa using by omega) (by simpa using h0)
  simpa using this

/-- In a valid unary block, bit `k` holds exactly when `k` is below the
decoded value. -/
theorem unary_get_eq {bs : Block} (h : unary_valid bs = true) :
    ∀ k, bs.getD k false = decide (k < unary_decode_bits bs) := by
  induction bs with
  | nil => intro k; simp [unary_decode_bits]
  | cons b rest ih =>
    intro k
    have htail := unary_valid_tail h
    have ihr := ih htail
    cases k with
    | zero =>
      cases hb : b <;> simp [unary_decode_bits, hb]
    | succ j =>
      cases hb : b with
      | true =>
        simp only [unary_decode_bits, hb, if_true, List.getD_cons_succ, ihr j]
        simp only [decide_eq_decide]
        omega
      | false =>
        simp only [unary_decode_bits, hb, if_false, List.getD_cons_succ]
        have hdec0 : unary_decode_bits rest = 0 := by
          by_contra hd
          have : rest.getD 0 false = true := by
            rw [ihr 0]
            simp only [decide_eq_true_eq]
            omega
          have := unary_valid_head h this
          rw [this] at hb
          cases hb
        rw [ihr j, hdec0]
        simp

theorem unary_enc_valid (m v : Nat) :
    unary_valid (unary_encode_bits m v) = true := by
  rw [unary_valid_iff]
  intro k hk hget
  rw [length_unary_encode] at hk
  rw [getD_unary_encode m v (k + 1) hk] at hget
  rw [getD_unary_encode m v k (by omega)]
  simp only [decide_eq_true_eq] at hget ⊢
  omega

theorem unary_dec_enc {m v : Nat} (hvm : v ≤ m) :
    unary_decode_bits (unary_encode_bits m v) = v := by
  have hlen := length_unary_encode m v
  have hd : unary_decode_bits (unary_encode_bits m v) ≤ m := by
    have := unary_decode_le_length (unary_encode_bits m v)
    omega
  have hget := unary_get_eq (unary_enc_valid m v)
  by_contra hne
  rcases Nat.lt_or_ge (unary_decode_bits (unary_encode_bits m v)) v with hlt | hge
  · have := hget (unary_decode_bits (unary_encode_bits m v))
    rw [getD_unary_encode m v _ (by omega)] at this
    simp [hlt] at this
  · have hvlt : v < unary_decode_bits (unary_encode_bits m v) := by omega
    have := hget v
    rw [getD_unary_encode m v v (by omega)] at this
    simp [hvlt] at this

theorem unary_enc_dec {m : Nat} {bs : Block} (hl : bs.length = m)
    (hv : unary_valid bs = true) :
    unary_encode_bits m (unary_decode_bits bs) = bs := by
  apply List.ext_getElem
  · simp [length_unary_encode, hl]
  · intro i hi hib
    have hget := unary_get_eq hv i
    rw [length_unary_encode] at hi
    have := getD_unary_encode m (unary_decode_bits bs) i hi
    rw [List.getD_eq_getElem _ _ (by simp [length_unary_encode, hi])] at this
    rw [List.getD_eq_getElem _ _ hib] at hget
    rw [this, hget]

/-- The unary encoding satisfies the domain contract of §3. -/
theorem unaryGood : GoodEnc unaryEnc := by
  have hw : ∀ m (bs : Block), bs.length = unaryEnc.width m → bs.length = m := by
    intro m bs h; exact h
  constructor
  · intro m v _
    exact length_unary_encode m v
  · intro m v _
    exact unary_enc_valid m v
  · intro m v hv
    exact unary_dec_enc hv
  · intro m bs hlen _
    have := unary_decode_le_length bs
    have := hw m bs hlen
    simp only [unaryEnc]
    omega
  · intro m bs hlen hv
    exact unary_enc_dec (hw m bs hlen) hv
  · intro m k bs hlen hv
    have hlen' := hw m bs hlen
    simp only [unaryEnc, unary_lt, unary_le]
    have hget := unary_get_eq hv
    have hdle : unary_decode_bits bs ≤ m := by
      have := unary_decode_le_length bs; omega
    rcases Nat.eq_zero_or_pos k with hk | hk
    · simp [hk]
    · have hkne : k ≠ 0 := by omega
      simp only [hkne, if_false]
      by_cases hmk : m ≤ k - 1
      · have : unary_decode_bits bs < k := by omega
        simp [hmk, this]
      · simp only [hmk, if_false, hget (k - 1)]
        by_cases h : unary_decode_bits bs < k
        · have : ¬ (k - 1 < unary_decode_bits bs) := by omega
          simp [h, this]
        · have : k - 1 < unary_decode_bits bs := by omega
          simp [h, this]
  · intro m k bs hlen hv
    have hlen' := hw m bs hlen
    simp only [unaryEnc, unary_le]
    have hget := unary_get_eq hv
    have hdle : unary_decode_bits bs ≤ m := by
      have := unary_decode_le_length bs; omega
    by_cases hmk : m ≤ k
    · have : unary_decode_bits bs ≤ k := by omega
      simp [hmk, this]
    · simp only [hmk, if_false, hget k]
      by_cases h : unary_decode_bits bs ≤ k
      · have : ¬ (k < unary_decode_bits bs) := by omega
        simp [h, this]
      · have : k < unary_decode_bits bs := by omega
        simp [h, this]
  · intro m k bs hlen hv
    have hlen' := hw m bs hlen
    simp only [unaryEnc, unary_gt, unary_le]
    have hget := unary_get_eq hv
    have hdle : unary_decode_bits bs ≤ m := by
      have := unary_decode_le_length bs; omega
    by_cases hmk : m ≤ k
    · have : ¬ (k < unary_decode_bits bs) := by omega
      simp [hmk, this]
    · simp only [hmk, if_false, hget k]
      by_cases h : k < unary_decode_bits bs <;> simp [h] <;> omega
  · intro m k bs hlen hv
    have hlen' := hw m bs hlen
    simp only [unaryEnc, unary_ge, unary_lt, unary_le]
    have hget := unary_get_eq hv
    have hdle : unary_decode_bits bs ≤ m := by
      have := unary_decode_le_length bs; omega
    rcases Nat.eq_zero_or_pos k with hk | hk
    · simp [hk]
    · have hkne : k ≠ 0 := by omega
      simp only [hkne, if_false]
      by_cases hmk : m ≤ k - 1
      · have : ¬ (k ≤ unary_decode_bits bs) := by omega
        simp [hmk, this]
      · simp only [hmk, if_false, hget (k - 1)]
        by_cases h : k ≤ unary_decode_bits bs
        · have : (k - 1 < unary_decode_bits bs) := by omega
          simp [h, this]
        · have : ¬ (k - 1 < unary_decode_bits bs) := by omega
          simp [h, this]

/- ----------------------------------------------------------------------
Binary, Gray-code and one-hot (Petri-net) encodings.  The concrete module
`symbolic_domains::symbolic_domain` with `BinaryIntegerDomain`,
`GrayCodeIntegerDomain` and `PetriNetIntegerDomain` is not among the
provided sources; the three encodings below are modelled from the spec
(§4.1 "Concrete encodings").
---------------------------------------------------------------------- -/

/-- Little-endian positional encoding of `v` on `w` bits. -/
def natToBits : Nat → Nat → Block
  | 0, _ => []
  | w + 1, v => (v % 2 == 1) :: natToBits w (v / 2)

/-- Value of a little-endian bit pattern. -/
def bitsToNat : Block → Nat
  | [] => 0
  | b :: rest => (if b then 1 else 0) + 2 * bitsToNat rest

theorem length_natToBits (w v : Nat) : (natToBits w v).length = w := by
  induction w generalizing v with
  | zero => rfl
  | succ w ih => simp [natToBits, ih]

theorem bitsToNat_natToBits {w v : Nat} (h : v < 2 ^ w) :
    bitsToNat (natToBits w v) = v := by
  induction w generalizing v with
  | zero =>
    have : v = 0 := by simpa using h
    simp [natToBits, bitsToNat, this]
  | succ w ih =>
    have hv2 : v / 2 < 2 ^ w := by
      rw [Nat.pow_succ] at h
      omega
    simp only [natToBits, bitsToNat, ih hv2]
    have := Nat.mod_two_eq_zero_or_one v
    rcases this with h2 | h2 <;> simp [h2] <;> omega

theorem natToBits_bitsToNat {bs : Block} : natToBits bs.length (bitsToNat bs) = bs := by
  induction bs with
  | nil => rfl
  | cons b rest ih =>
    simp only [List.length_cons, natToBits, bitsToNat]
    have h1 : ((if b = true then 1 else 0) + 2 * bitsToNat rest) % 2 =
        if b = true then 1 else 0 := by
      cases b <;> simp <;> omega
    have h2 : ((if b = true then 1 else 0) + 2 * bitsToNat rest) / 2 =
        bitsToNat rest := by
      cases b <;> simp <;> omega
    rw [h1, h2, ih]
    cases b <;> simp

theorem bitsToNat_lt (bs : Block) : bitsToNat bs < 2 ^ bs.length := by
  induction bs with
  | nil => simp [bitsToNat]
  | cons b rest ih =>
    simp only [bitsToNat, List.length_cons, Nat.pow_succ]
    cases b <;> simp <;> omega

/-- Range predicate built as an explicit disjunction of the encodings of the
in-range values, as the spec prescribes for encodings whose range tests are
not single-bit operations (§4.1). -/
def cmpDisj (encf : Nat → Block) (m : Nat) (p : Nat → Bool) (bs : Block) : Bool :=
  (List.range (m + 1)).any fun v => p v && bs == encf v

theorem cmpDisj_sem {encf : Nat → Block} {decf : Block → Nat} {m : Nat}
    (hdec : ∀ v, v ≤ m → decf (encf v) = v) {bs : Block}
    (hbs : encf (decf bs) = bs) (hle : decf bs ≤ m) (p : Nat → Bool) :
    cmpDisj encf m p bs = p (decf bs) := by
  unfold cmpDisj
  cases hp : p (decf bs) with
  | true =>
    rw [List.any_eq_true]
    exact ⟨decf bs, by simp only [List.mem_range]; omega,
      by simp [hp, hbs]⟩
  | false =>
    rw [List.any_eq_false]
    intro v hv
    simp only [List.mem_range] at hv
    cases hbeq : (bs == encf v) with
    | false => simp [hbeq]
    | true =>
      have hbv : bs = encf v := eq_of_beq hbeq
      have hdv : decf bs = v := by rw [hbv, hdec v (by omega)]
      have hpf : p v = false := by rw [← hdv]; exact hp
      simp [hpf]

/-- Modelled from the spec: binary positional encoding on
`⌈log₂(max+1)⌉` bits; the unit collection excludes the bit patterns whose
value exceeds `max` (§4.1). -/
def binaryEnc : EncImpl where
  width m := Nat.size m
  enc m v := natToBits (Nat.size m) v
  dec _ bs := bitsToNat bs
  validB m bs := decide (bitsToNat bs ≤ m)
  ltB m k := cmpDisj (fun v => natToBits (Nat.size m) v) m (fun v => decide (v < k))
  leB m k := cmpDisj (fun v => natToBits (Nat.size m) v) m (fun v => decide (v ≤ k))
  gtB m k := cmpDisj (fun v => natToBits (Nat.size m) v) m (fun v => decide (k < v))
  geB m k := cmpDisj (fun v => natToBits (Nat.size m) v) m (fun v => decide (k ≤ v))

theorem binary_roundtrip {m v : Nat} (h : v ≤ m) :
    bitsToNat (natToBits (Nat.size m) v) = v :=
  bitsToNat_natToBits (lt_of_le_of_lt h (Nat.lt_size_self m))

/-- The binary encoding satisfies the domain contract of §3. -/
theorem binaryGood : GoodEnc binaryEnc := by
  have hdec : ∀ m bs, bs.length = Nat.size m → decide (bitsToNat bs ≤ m) = true →
      bitsToNat bs ≤ m := by
    intro m bs _ h
    simpa using h
  have hencdec : ∀ m (bs : Block), bs.length = Nat.size m →
      decide (bitsToNat bs ≤ m) = true → natToBits (Nat.size m) (bitsToNat bs) = bs := by
    intro m bs hl _
    rw [← hl]
    exact natToBits_bitsToNat
  constructor
  · intro m v _
    exact length_natToBits _ v
  · intro m v hv
    simp only [binaryEnc, binary_roundtrip hv, decide_eq_true_eq]
    exact hv
  · intro m v hv
    exact binary_roundtrip hv
  · intro m bs hl h
    exact hdec m bs hl h
  · intro m bs hl h
    exact hencdec m bs hl h
  all_goals
    intro m k bs hl h
    exact cmpDisj_sem (fun v hv => binary_roundtrip hv) (hencdec m bs hl h)
      (hdec m bs hl h) _

/-- Reflected-Gray encoding of a natural number: `v ^^^ (v >> 1)`. -/
def grayOf (v : Nat) : Nat := v ^^^ (v / 2)

/-- Inverse of the reflected-Gray encoding: prefix xor of the bits,
computed as `g ^^^ grayInv (g >> 1)`. -/
def grayInv (g : Nat) : Nat :=
  if h : g = 0 then 0 else g ^^^ grayInv (g / 2)
decreasing_by exact Nat.div_lt_self (Nat.pos_of_ne_zero h) one_lt_two

theorem grayInv_eq (g : Nat) : grayInv g = g ^^^ grayInv (g / 2) := by
  rw [grayInv]
  by_cases h : g = 0
  · simp [h, grayInv]
  · simp [h]

theorem div_two_xor (x y : Nat) : (x ^^^ y) / 2 = x / 2 ^^^ y / 2 := by
  apply Nat.eq_of_testBit_eq
  intro i
  simp [Nat.testBit_div_two, Nat.testBit_xor]

theorem grayOf_div_two (v : Nat) : grayOf v / 2 = grayOf (v / 2) := by
  unfold grayOf
  rw [div_two_xor, Nat.div_div_eq_div_mul]

theorem grayInv_grayOf (v : Nat) : grayInv (grayOf v) = v := by
  induction v using Nat.strong_induction_on with
  | _ v ih =>
    rcases Nat.eq_zero_or_pos v with hv | hv
    · simp [hv, grayOf, grayInv]
    · rw [grayInv_eq, grayOf_div_two, ih (v / 2) (Nat.div_lt_self hv one_lt_two)]
      unfold grayOf
      rw [Nat.xor_assoc, Nat.xor_self, Nat.xor_zero]

theorem grayOf_grayInv (g : Nat) : grayOf (grayInv g) = g := by
  induction g using Nat.strong_induction_on with
  | _ g ih =>
    rcases Nat.eq_zero_or_pos g with hg | hg
    · simp [hg, grayOf, grayInv]
    · have ihg := ih (g / 2) (Nat.div_lt_self hg one_lt_two)
      unfold grayOf at ihg ⊢
      rw [grayInv_eq g, div_two_xor]
      -- (g ^^^ I) ^^^ (g/2 ^^^ I/2) = g  where  I = grayInv (g/2), I ^^^ I/2 = g/2
      rw [Nat.xor_comm (g / 2) (grayInv (g / 2) / 2)]
      rw [Nat.xor_assoc g (grayInv (g / 2))]
      rw [← Nat.xor_assoc (grayInv (g / 2)) (grayInv (g / 2) / 2)]
      rw [ihg, Nat.xor_self, Nat.xor_zero]

theorem grayOf_lt {v w : Nat} (h : v < 2 ^ w) : grayOf v < 2 ^ w :=
  Nat.xor_lt_two_pow h (lt_of_le_of_lt (Nat.div_le_self v 2) h)

theorem grayInv_lt {g w : Nat} (h : g < 2 ^ w) : grayInv g < 2 ^ w := by
  induction g using Nat.strong_induction_on with
  | _ g ih =>
    rcases Nat.eq_zero_or_pos g with hg | hg
    · simpa [hg, grayInv] using Nat.pos_pow_of_pos w (by omega)
    · rw [grayInv_eq]
      exact Nat.xor_lt_two_pow h
        (ih (g / 2) (Nat.div_lt_self hg one_lt_two)
          (lt_of_le_of_lt (Nat.div_le_self g 2) h))

/-- Modelled from the spec: reflected-Gray encoding of `0..max` on the same
width as binary; the unit collection keeps the patterns decoding into the
domain, and range predicates are explicit disjunctions over the in-range
values (§4.1). -/
def grayEnc : EncImpl where
  width m := Nat.size m
  enc m v := natToBits (Nat.size m) (grayOf v)
  dec _ bs := grayInv (bitsToNat bs)
  validB m bs := decide (grayInv (bitsToNat bs) ≤ m)
  ltB m k := cmpDisj (fun v => natToBits (Nat.size m) (grayOf v)) m (fun v => decide (v < k))
  leB m k := cmpDisj (fun v => natToBits (Nat.size m) (grayOf v)) m (fun v => decide (v ≤ k))
  gtB m k := cmpDisj (fun v => natToBits (Nat.size m) (grayOf v)) m (fun v => decide (k < v))
  geB m k := cmpDisj (fun v => natToBits (Nat.size m) (grayOf v)) m (fun v => decide (k ≤ v))

theorem gray_roundtrip {m v : Nat} (h : v ≤ m) :
    grayInv (bitsToNat (natToBits (Nat.size m) (grayOf v))) = v := by
  rw [bitsToNat_natToBits (grayOf_lt (lt_of_le_of_lt h (Nat.lt_size_self m)))]
  exact grayInv_grayOf v

/-- The Gray-code encoding satisfies the domain contract of §3. -/
theorem grayGood : GoodEnc grayEnc := by
  have hdec : ∀ m (bs : Block), decide (grayInv (bitsToNat bs) ≤ m) = true →
      grayInv (bitsToNat bs) ≤ m := by
    intro m bs h
    simpa using h
  have hencdec : ∀ m (bs : Block), bs.length = Nat.size m →
      decide (grayInv (bitsToNat bs) ≤ m) = true →
      natToBits (Nat.size m) (grayOf (grayInv (bitsToNat bs))) = bs := by
    intro m bs hl _
    rw [grayOf_grayInv, ← hl]
    exact natToBits_bitsToNat
  constructor
  · intro m v _
    exact length_natToBits _ _
  · intro m v hv
    simp only [grayEnc, gray_roundtrip hv, decide_eq_true_eq]
    exact hv
  · intro m v hv
    exact gray_roundtrip hv
  · intro m bs _ h
    exact hdec m bs h
  · intro m bs hl h
    exact hencdec m bs hl h
  all_goals
    intro m k bs hl h
    exact cmpDisj_sem (fun v hv => gray_roundtrip hv) (hencdec m bs hl h)
      (hdec m bs h) _

/-- Modelled from the spec: one-hot (Petri-net) encoding on `max+1` bits,
bit `v` set for value `v`; the unit collection demands exactly one set bit
(§4.1). -/
def petri_encode_bits (m v : Nat) : Block :=
  (List.range (m + 1)).map (fun i => i == v)

/-- Modelled from the spec: decoding reads the index of the set bit. -/
def petri_decode_bits (bs : Block) : Nat := bs.findIdx (fun b => b)

/-- Modelled from the spec: exactly one set bit. -/
def petri_valid (bs : Block) : Bool := bs.count true == 1

/-- The one-hot (Petri-net) symbolic domain packaged as an `EncImpl`. -/
def petriEnc : EncImpl where
  width m := m + 1
  enc := petri_encode_bits
  dec _ := petri_decode_bits
  validB _ := petri_valid
  ltB m k := cmpDisj (petri_encode_bits m) m (fun v => decide (v < k))
  leB m k := cmpDisj (petri_encode_bits m) m (fun v => decide (v ≤ k))
  gtB m k := cmpDisj (petri_encode_bits m) m (fun v => decide (k < v))
  geB m k := cmpDisj (petri_encode_bits m) m (fun v => decide (k ≤ v))

theorem length_petri_encode (m v : Nat) : (petri_encode_bits m v).length = m + 1 := by
  simp [petri_encode_bits]

theorem getD_petri_encode (m v k : Nat) (hk : k < m + 1) :
    (petri_encode_bits m v).getD k false = (k == v) := by
  unfold petri_encode_bits
  rw [List.getD_eq_getElem _ _ (by simpa using hk)]
  simp

theorem petri_findIdx_encode {m v : Nat} (hv : v ≤ m) :
    petri_decode_bits (petri_encode_bits m v) = v := by
  unfold petri_decode_bits petri_encode_bits
  have main : ∀ n w, w < n →
      (((List.range n).map (fun i => i == w)).findIdx (fun b => b)) = w := by
    intro n
    induction n with
    | zero => intro w hw; omega
    | succ n ih =>
      intro w hw
      rw [List.range_succ_eq_map, List.map_cons, List.map_map]
      cases w with
      | zero => simp [List.findIdx_cons]
      | succ u =>
        have hne : ((0 : Nat) == u + 1) = false := by simp
        rw [List.findIdx_cons]
        simp only [hne, cond_false]
        have hmap : (List.map ((fun i => i == u + 1) ∘ Nat.succ) (List.range n)) =
            (List.range n).map (fun i => i == u) := by
          apply List.map_congr_left
          intro i _
          simp [Function.comp]
        rw [hmap, ih u (by omega)]
  exact main (m + 1) v (by omega)

theorem petri_count_encode (m v : Nat) (hv : v ≤ m) :
    (petri_encode_bits m v).count true = 1 := by
  unfold petri_encode_bits
  have main : ∀ n w, w < n →
      ((List.range n).map (fun i => i == w)).count true = 1 := by
    intro n
    induction n with
    | zero => intro w hw; omega
    | succ n ih =>
      intro w hw
      rw [List.range_succ_eq_map, List.map_cons, List.map_map]
      cases w with
      | zero =>
        simp only [Nat.zero_eq, beq_self_eq_true, List.count_cons]
        have hmap : (List.map ((fun i => i == 0) ∘ Nat.succ) (List.range n)) =
            (List.range n).map (fun _ => false) := by
          apply List.map_congr_left
          intro i _
          simp [Function.comp]
        rw [hmap]
        have hzero : ((List.range n).map (fun _ => false)).count true = 0 := by
          rw [List.count_eq_zero]
          simp
        rw [hzero]
        simp
      | succ u =>
        have hmap : (List.map ((fun i => i == u + 1) ∘ Nat.succ) (List.range n)) =
            (List.range n).map (fun i => i == u) := by
          apply List.map_congr_left
          intro i _
          simp [Function.comp]
        simp only [List.count_cons, hmap, ih u (by omega)]
        simp
  exact main (m + 1) v (by omega)

/-- In a block with exactly one set bit, the scan finds that bit: it is in
range, set, and every other position is clear. -/
theorem petri_valid_spec {bs : Block} (h : bs.count true = 1) :
    bs.findIdx (fun b => b) < bs.length ∧
      (∀ j, j < bs.length → (bs.getD j false = (j == bs.findIdx (fun b => b)))) := by
  induction bs with
  | nil => simp at h
  | cons b rest ih =>
    cases hb : b with
    | true =>
      subst hb
      have hrest : rest.count true = 0 := by
        simp [List.count_cons] at h
        omega
      have hall : ∀ j, j < rest.length → rest.getD j false = false := by
        intro j hj
        rw [List.count_eq_zero] at hrest
        rw [List.getD_eq_getElem _ _ hj]
        by_contra hc
        simp only [Bool.not_eq_false] at hc
        exact hrest (hc ▸ List.getElem_mem hj)
      constructor
      · simp [List.findIdx_cons]
      · intro j hj
        rw [List.findIdx_cons]
        simp only [cond_true]
        cases j with
        | zero => simp
        | succ i =>
          simp only [List.getD_cons_succ]
          rw [hall i (by simpa using hj)]
          simp
    | false =>
      subst hb
      have hrest : rest.count true = 1 := by
        simpa [List.count_cons] using h
      obtain ⟨ih1, ih2⟩ := ih hrest
      constructor
      · simp only [List.findIdx_cons, cond_false, List.length_cons]
        omega
      · intro j hj
        rw [List.findIdx_cons]
        simp only [cond_false]
        cases j with
        | zero => simp
        | succ i =>
          simp only [List.getD_cons_succ]
          rw [ih2 i (by simpa using hj)]
          simp

/-- The one-hot encoding satisfies the domain contract of §3. -/
theorem petriGood : GoodEnc petriEnc := by
  have hvalid : ∀ (bs : Block), petri_valid bs = true → bs.count true = 1 := by
    intro bs h
    simpa [petri_valid] using h
  have hdec_lt : ∀ m (bs : Block), bs.length = m + 1 → petri_valid bs = true →
      petri_decode_bits bs ≤ m := by
    intro m bs hl h
    have := (petri_valid_spec (hvalid bs h)).1
    unfold petri_decode_bits
    omega
  have hencdec : ∀ m (bs : Block), bs.length = m + 1 → petri_valid bs = true →
      petri_encode_bits m (petri_decode_bits bs) = bs := by
    intro m bs hl h
    obtain ⟨h1, h2⟩ := petri_valid_spec (hvalid bs h)
    apply List.ext_getElem
    · simp [length_petri_encode, hl]
    · intro i hi hib
      rw [length_petri_encode] at hi
      have hg := getD_petri_encode m (petri_decode_bits bs) i hi
      rw [List.getD_eq_getElem _ _ (by simp [length_petri_encode, hi])] at hg
      have hb := h2 i (by omega)
      rw [List.getD_eq_getElem _ _ hib] at hb
      rw [hg, hb]
      rfl
  constructor
  · intro m v _
    exact length_petri_encode m v
  · intro m v hv
    simp only [petriEnc, petri_valid, petri_count_encode m v hv]
    rfl
  · intro m v hv
    exact petri_findIdx_encode hv
  · intro m bs hl h
    exact hdec_lt m bs hl h
  · intro m bs hl h
    exact hencdec m bs hl h
  all_goals
    intro m k bs hl h
    exact cmpDisj_sem (fun v hv => petri_findIdx_encode hv) (hencdec m bs hl h)
      (hdec_lt m bs hl h) _

/- ----------------------------------------------------------------------
Model syntax (§3, `expression_components` shapes as used by
src/update/update_fn.rs): expressions over propositions comparing a named
variable against a literal, and prioritized update tables.
---------------------------------------------------------------------- -/

/-- Comparison operators of a proposition (`ComparisonOperator`). -/
inductive CmpOp where
  | eq | neq | lt | leq | gt | geq
deriving DecidableEq, Repr

/-- A proposition `V ∘ k`: a named variable compared against a literal. -/
structure Propn where
  var : String
  cmp : CmpOp
  value : Nat
deriving DecidableEq, Repr

/-- Guard expressions (`Expression`): terminal propositions, negation,
n-ary conjunction and disjunction, xor and implication. -/
inductive Expr where
  | terminal (p : Propn)
  | not (e : Expr)
  | and (clauses : List Expr)
  | or (clauses : List Expr)
  | xor (lhs rhs : Expr)
  | implies (lhs rhs : Expr)

/-- An unprocessed update function (`UnprocessedVariableUpdateFn`): an
ordered list of `(output value, guard)` terms and a default value. -/
structure UnprocessedVariableUpdateFn where
  terms : List (Nat × Expr)
  default : Nat

/-- An input model: named update functions, one per variable (the map that
`from_update_fns` receives). -/
abbrev Model := List (String × UnprocessedVariableUpdateFn)

/-- An abstract state: one value per variable, aligned with the sorted
variable list of the constructed system. -/
abbrev AbState := List Nat

/-- Index of a variable name in the sorted name list. -/
def varIdx (names : List String) (nm : String) : Nat :=
  names.findIdx (fun x => x == nm)

/-- Reference semantics of a proposition at an abstract state (§3): compare
the value of the named variable against the literal. -/
def evalProp (names : List String) (s : AbState) (p : Propn) : Bool :=
  let x := s.getD (varIdx names p.var) 0
  match p.cmp with
  | .eq => x == p.value
  | .neq => !(x == p.value)
  | .lt => decide (x < p.value)
  | .leq => decide (x ≤ p.value)
  | .gt => decide (p.value < x)
  | .geq => decide (p.value ≤ x)

mutual

/-- Reference semantics of a guard expression at an abstract state (§3). -/
def evalExpr (names : List String) (s : AbState) : Expr → Bool
  | .terminal p => evalProp names s p
  | .not e => !(evalExpr names s e)
  | .and cs => evalAll names s cs
  | .or cs => evalAny names s cs
  | .xor l r => (evalExpr names s l) != (evalExpr names s r)
  | .implies l r => !(evalExpr names s l) || (evalExpr names s r)

/-- Conjunction of the clause list. -/
def evalAll (names : List String) (s : AbState) : List Expr → Bool
  | [] => true
  | e :: rest => evalExpr names s e && evalAll names s rest

/-- Disjunction of the clause list. -/
def evalAny (names : List String) (s : AbState) : List Expr → Bool
  | [] => false
  | e :: rest => evalExpr names s e || evalAny names s rest

end

/-- Priority-ordered matching (§3): the next value of a variable is the
output of the earliest term whose guard holds, else the default. -/
def firstMatch (names : List String) (s : AbState) :
    List (Nat × Expr) → Nat → Nat
  | [], d => d
  | (val, g) :: rest, d =>
    if evalExpr names s g then val else firstMatch names s rest d

mutual

/-- All propositions of an expression, in evaluation order. -/
def propsOf : Expr → List Propn
  | .terminal p => [p]
  | .not e => propsOf e
  | .and cs => propsOfList cs
  | .or cs => propsOfList cs
  | .xor l r => propsOf l ++ propsOf r
  | .implies l r => propsOf l ++ propsOf r

def propsOfList : List Expr → List Propn
  | [] => []
  | e :: rest => propsOf e ++ propsOfList rest

end

/- ----------------------------------------------------------------------
Max discovery (`find_max_values`, src/update/update_fn.rs).  The HashMap of
discovered maxima is modelled as an association list; `entry / and_modify /
or_insert` become an in-place update-or-append.
---------------------------------------------------------------------- -/

/-- Lookup in the association list modelling the HashMap. -/
def assocGet (acc : List (String × Nat)) (nm : String) : Option Nat :=
  (acc.find? (fun e => e.1 == nm)).map Prod.snd

/-- `update_from_proposition`: raise the recorded maximum of the
proposition's variable to the compared literal, inserting the entry if the
variable has not been seen yet (`entry ... and_modify ... or_insert`). -/
def update_from_proposition (acc : List (String × Nat)) (p : Propn) :
    List (String × Nat) :=
  if acc.any (fun e => e.1 == p.var) then
    acc.map (fun e =>
      if e.1 == p.var then (e.1, if e.2 < p.value then p.value else e.2) else e)
  else
    acc ++ [(p.var, p.value)]

mutual

/-- `update_max`: fold `update_from_proposition` over every proposition of
an expression. -/
def update_max (acc : List (String × Nat)) : Expr → List (String × Nat)
  | .terminal p => update_from_proposition acc p
  | .not e => update_max acc e
  | .and cs => update_max_list acc cs
  | .or cs => update_max_list acc cs
  | .xor l r => update_max (update_max acc l) r
  | .implies l r => update_max (update_max acc l) r

/-- Clause-list traversal of `update_max` (the `for_each` over clauses). -/
def update_max_list (acc : List (String × Nat)) : List Expr → List (String × Nat)
  | [] => acc
  | e :: rest => update_max_list (update_max acc e) rest

end

/-- `find_max_values`: first record, for every variable, the maximum of its
own output values and its default; then widen by every literal compared
against it in any guard of the model. -/
def find_max_values (fns : Model) : List (String × Nat) :=
  let max_outputs := fns.map (fun nf =>
    (nf.1, (nf.2.terms.map Prod.fst).foldl Nat.max nf.2.default))
  (fns.flatMap (fun nf => nf.2.terms.map Prod.snd)).foldl update_max max_outputs

theorem assocGet_map_update (acc : List (String × Nat)) (V W : String)
    (f : Nat → Nat) :
    assocGet (acc.map (fun e => if e.1 == W then (e.1, f e.2) else e)) V =
      if V == W then (assocGet acc V).map f else assocGet acc V := by
  induction acc with
  | nil => cases h : (V == W) <;> simp [assocGet, h]
  | cons e rest ih =>
    unfold assocGet at ih ⊢
    rw [List.map_cons]
    have hkey : (if (e.1 == W) = true then (e.1, f e.2) else e).1 = e.1 := by
      cases h : (e.1 == W) <;> simp
    cases heV : (e.1 == V) with
    | true =>
      rw [List.find?_cons_of_pos _ (by rw [hkey]; exact heV),
        @List.find?_cons_of_pos _ (fun q => q.1 == V) e rest heV]
      have heV' : e.1 = V := eq_of_beq heV
      cases hVW : (V == W) with
      | true =>
        have hW : (e.1 == W) = true := by rw [heV']; exact hVW
        simp [hW, hVW]
      | false =>
        have hW : (e.1 == W) = false := by rw [heV']; exact hVW
        simp [hW, hVW]
    | false =>
      rw [List.find?_cons_of_neg _ (by
          intro hcontra
          have h1 : ((if (e.1 == W) = true then (e.1, f e.2) else e).1 == V) =
              true := hcontra
          rw [hkey, heV] at h1
          exact Bool.false_ne_true h1),
        @List.find?_cons_of_neg _ (fun q => q.1 == V) e rest (by
          intro hcontra
          have h1 : (e.1 == V) = true := hcontra
          rw [heV] at h1
          exact Bool.false_ne_true h1)]
      exact ih

theorem assocGet_append_of_some {acc : List (String × Nat)} {V : String} {x : Nat}
    (h : assocGet acc V = some x) (l : List (String × Nat)) :
    assocGet (acc ++ l) V = some x := by
  unfold assocGet at h ⊢
  rw [List.find?_append]
  cases hf : acc.find? (fun e => e.1 == V) with
  | none => rw [hf] at h; cases h
  | some e => rw [hf] at h; simp_all

theorem assocGet_isSome_iff_any (acc : List (String × Nat)) (V : String) :
    acc.any (fun e => e.1 == V) = (assocGet acc V).isSome := by
  unfold assocGet
  induction acc with
  | nil => simp
  | cons e rest ih =>
    cases h : (e.1 == V) <;> simp [List.find?_cons, h, ih]

/-- Effect of one `update_from_proposition` step on the recorded maximum of a
variable that is already present. -/
theorem assocGet_update_from_proposition {acc : List (String × Nat)} {V : String}
    {x : Nat} (h : assocGet acc V = some x) (p : Propn) :
    assocGet (update_from_proposition acc p) V =
      some (if p.var == V then Nat.max x p.value else x) := by
  unfold update_from_proposition
  by_cases hvar : p.var = V
  · subst hvar
    have hany : acc.any (fun e => e.1 == p.var) = true := by
      rw [assocGet_isSome_iff_any, h]
      rfl
    rw [if_pos hany]
    rw [assocGet_map_update acc p.var p.var
      (fun y => if y < p.value then p.value else y)]
    have hself : (p.var == p.var) = true := by simp
    rw [if_pos hself, if_pos hself, h]
    show some (if x < p.value then p.value else x) = some (Nat.max x p.value)
    have hmax : (if x < p.value then p.value else x) = Nat.max x p.value := by
      by_cases hc : x < p.value
      · rw [if_pos hc]
        exact (Nat.max_eq_right (by omega)).symm
      · rw [if_neg hc]
        exact (Nat.max_eq_left (by omega)).symm
    rw [hmax]
  · have hpV : (p.var == V) = false := by simp [hvar]
    have hVp : (V == p.var) = false := by
      simp only [beq_eq_false_iff_ne, ne_eq]
      intro hh
      exact hvar hh.symm
    cases hany : acc.any (fun e => e.1 == p.var) with
    | true =>
      rw [if_pos rfl, assocGet_map_update acc V p.var
        (fun y => if y < p.value then p.value else y)]
      rw [hVp, if_neg Bool.false_ne_true, h, hpV, if_neg Bool.false_ne_true]
    | false =>
      rw [if_neg Bool.false_ne_true, assocGet_append_of_some h, hpV,
        if_neg Bool.false_ne_true]

/-- Folding `update_from_proposition` over a proposition list raises the
recorded maximum by exactly the literals compared against the variable. -/
theorem assocGet_foldl_props {V : String} (ps : List Propn) :
    ∀ (acc : List (String × Nat)) (x : Nat), assocGet acc V = some x →
    assocGet (ps.foldl update_from_proposition acc) V =
      some (((ps.filter (fun p => p.var == V)).map (fun p => p.value)).foldl
        Nat.max x) := by
  induction ps with
  | nil => intro acc x h; simpa using h
  | cons p rest ih =>
    intro acc x h
    have hstep := assocGet_update_from_proposition h p
    simp only [List.foldl_cons]
    cases hpV : (p.var == V) with
    | true =>
      rw [hpV] at hstep
      simp only [if_true] at hstep
      rw [ih _ _ hstep]
      simp [List.filter_cons, hpV]
    | false =>
      rw [hpV] at hstep
      rw [if_neg Bool.false_ne_true] at hstep
      rw [ih _ _ hstep]
      simp [List.filter_cons, hpV]

/-- `update_max` is the fold of `update_from_proposition` over the
expression's propositions, in order. -/
theorem update_max_eq_foldl :
    (∀ (acc : List (String × Nat)) (e : Expr),
      update_max acc e = (propsOf e).foldl update_from_proposition acc) ∧
    (∀ (acc : List (String × Nat)) (cs : List Expr),
      update_max_list acc cs = (propsOfList cs).foldl update_from_proposition acc) := by
  apply update_max.mutual_induct
  · intro acc p
    simp [update_max, propsOf]
  · intro acc e ih
    simp only [update_max, propsOf]
    exact ih
  · intro acc cs ih
    simp only [update_max, propsOf]
    exact ih
  · intro acc cs ih
    simp only [update_max, propsOf]
    exact ih
  · intro acc l r ih1 ih2
    simp only [update_max, propsOf, List.foldl_append]
    rw [ih2, ih1]
  · intro acc l r ih1 ih2
    simp only [update_max, propsOf, List.foldl_append]
    rw [ih2, ih1]
  · intro acc
    simp [update_max_list, propsOfList]
  · intro acc e rest ih1 ih2
    simp only [update_max_list, propsOfList, List.foldl_append]
    rw [ih2, ih1]

theorem assocGet_max_outputs {fns : Model} (hnd : (fns.map Prod.fst).Nodup)
    {V : String} {fV : UnprocessedVariableUpdateFn} (hmem : (V, fV) ∈ fns) :
    assocGet (fns.map (fun nf =>
        (nf.1, (nf.2.terms.map Prod.fst).foldl Nat.max nf.2.default))) V =
      some ((fV.terms.map Prod.fst).foldl Nat.max fV.default) := by
  induction fns with
  | nil => cases hmem
  | cons nf rest ih =>
    simp only [List.map_cons, List.nodup_cons] at hnd
    rcases List.mem_cons.mp hmem with heq | hmem'
    · subst heq
      unfold assocGet
      rw [List.map_cons, List.find?_cons_of_pos _ (by simp)]
      rfl
    · have hkey : (nf.1 == V) = false := by
        simp only [beq_eq_false_iff_ne, ne_eq]
        intro hk
        exact hnd.1 (hk ▸ List.mem_map_of_mem Prod.fst hmem')
      unfold assocGet at ih ⊢
      rw [List.map_cons, List.find?_cons_of_neg _ (by
        intro hcontra
        have h1 : (nf.1 == V) = true := hcontra
        rw [hkey] at h1
        exact Bool.false_ne_true h1)]
      exact ih hnd.2 hmem'

theorem update_max_list_eq_foldl (acc : List (String × Nat)) (cs : List Expr) :
    update_max_list acc cs = cs.foldl update_max acc := by
  induction cs generalizing acc with
  | nil => rfl
  | cons e rest ih => rw [update_max_list, List.foldl_cons, ih]

theorem foldl_update_max_eq (es : List Expr) (acc : List (String × Nat)) :
    es.foldl update_max acc =
      (es.flatMap propsOf).foldl update_from_proposition acc := by
  induction es generalizing acc with
  | nil => rfl
  | cons e rest ih =>
    simp only [List.foldl_cons, List.flatMap_cons, List.foldl_append]
    rw [ih, update_max_eq_foldl.1]

/-- The guard expressions of every term of every variable of the model, in
traversal order of `find_max_values`. -/
def model_exprs (fns : Model) : List Expr :=
  fns.flatMap (fun nf => nf.2.terms.map Prod.snd)

/-- Every literal compared against variable `V` in any guard of the model. -/
def model_literals_on (fns : Model) (V : String) : List Nat :=
  (((model_exprs fns).flatMap propsOf).filter (fun p => p.var == V)).map
    (fun p => p.value)

/-- The maximum the spec says max-discovery must find for `V` (§4.3 step 2):
the maximum of the output values of `V`'s own terms, of `V`'s default, and of
every literal compared against `V` anywhere in the model. -/
def claimed_max (fns : Model) (V : String)
    (fV : UnprocessedVariableUpdateFn) : Nat :=
  ((fV.terms.map Prod.fst) ++ model_literals_on fns V).foldl Nat.max fV.default

/-- C5: during construction, the discovered maximum value of every variable
`V` equals the maximum over (a) all output values of `V`'s own terms, (b)
`V`'s default value, and (c) every literal value compared against `V` in any
guard of any variable's update function; in particular a guard comparing `V`
against a value larger than `V`'s own outputs widens `V`'s domain. -/
theorem c5_max_discovery {fns : Model} (hnd : (fns.map Prod.fst).Nodup)
    {V : String} {fV : UnprocessedVariableUpdateFn} (hmem : (V, fV) ∈ fns) :
    assocGet (find_max_values fns) V = some (claimed_max fns V fV) := by
  unfold find_max_values claimed_max
  rw [foldl_update_max_eq]
  rw [assocGet_foldl_props _ _ _ (assocGet_max_outputs hnd hmem)]
  unfold model_literals_on model_exprs
  rw [List.foldl_append]

def c5fnA : UnprocessedVariableUpdateFn :=
  { terms := [(1, Expr.terminal { var := "B", cmp := CmpOp.geq, value := 2 })],
    default := 0 }

def c5fnB : UnprocessedVariableUpdateFn := { terms := [], default := 1 }

/-- A two-variable model in which a guard of `A` compares `B` against the
literal `2`, larger than any output of `B` itself. -/
def c5model : Model := [("A", c5fnA), ("B", c5fnB)]

/-- Witness for C5: the discovered maximum of `B` in the concrete model is
the claimed maximum (which evaluates to the widening literal `2`). -/
theorem c5_max_discovery_witness :
    (c5model.map Prod.fst).Nodup ∧ ("B", c5fnB) ∈ c5model ∧
      (assocGet (find_max_values c5model) "B" = some (claimed_max c5model "B" c5fnB) ∧
        claimed_max c5model "B" c5fnB = 2) :=
  ⟨by decide, List.Mem.tail _ (List.Mem.head _),
    c5_max_discovery (by decide) (List.Mem.tail _ (List.Mem.head _)), by rfl⟩

/-- C10: `UnaryIntegerDomain::decode_bits` is total on complete valuations and
performs no validity check: for every block assigning all of the domain's
bits it returns the index of the first bit assigned `false` (or `max(V)` when
all bits are `true`), so an invalid unary pattern decodes to the position of
the first `false` bit rather than being rejected; and
`decode_bits (encode_bits v) = v` for every `v` in the domain. -/
theorem c10_unary_decode_no_validity_check (m : Nat) (bs : Block)
    (hlen : bs.length = m) :
    unary_decode_bits bs = bs.findIdx (fun b => b == false) ∧
      ((∀ i, i < m → bs.getD i false = true) → unary_decode_bits bs = m) ∧
      (∀ v, v ≤ m → unary_decode_bits (unary_encode_bits m v) = v) := by
  refine ⟨?_, ?_, fun v hv => unary_dec_enc hv⟩
  · clear hlen
    induction bs with
    | nil => rfl
    | cons b rest ih =>
      cases b with
      | true => simp [unary_decode_bits, List.findIdx_cons, ih]
      | false => simp [unary_decode_bits, List.findIdx_cons]
  · intro hall
    subst hlen
    induction bs with
    | nil => rfl
    | cons b rest ih =>
      have hb : b = true := by
        have := hall 0 (by simp)
        simpa using this
      subst hb
      simp only [unary_decode_bits, if_true, List.length_cons]
      rw [ih]
      intro i hi
      have := hall (i + 1) (by simpa using hi)
      simpa using this

/-- Witness for C10 at a concrete invalid unary pattern: `[false, true]`
(a set bit after a clear bit) decodes to `0`, the first clear position. -/
theorem c10_unary_decode_no_validity_check_witness :
    ([false, true] : Block).length = 2 ∧
      unary_decode_bits [false, true] = [false, true].findIdx (fun b => b == false) ∧
      unary_decode_bits [false, true] = 0 :=
  ⟨rfl, (c10_unary_decode_no_validity_check 2 [false, true] rfl).1, rfl⟩

/-- Counterexample to C7 as stated: in a unary domain with `max = 1`, the
out-of-domain value `2` encodes to a pattern whose conjunction with the unit
collection is satisfiable, not the empty BDD. -/
theorem c7_counterexample :
    ((allBlocks 1).filter
        (fun bs => (bs == unary_encode_bits 1 2) && unary_valid bs)).length ≠ 0 := by
  decide

/-- C7 (amended): `encode_one` with a value outside the declared domain is
neither rejected nor mapped to the empty BDD: for the unary domain,
`encode_bits` writes the all-true pattern for every `v ≥ max`, which is the
valid encoding of `max` itself, so the conjunction with the unit collection
is the singleton encoding of `max` — out-of-domain values are silently
clamped. -/
theorem c7_unary_encode_one_clamps {m v : Nat} (h : m ≤ v) :
    unary_encode_bits m v = unary_encode_bits m m ∧
      unary_valid (unary_encode_bits m v) = true := by
  constructor
  · unfold unary_encode_bits
    apply List.map_congr_left
    intro i hi
    simp only [List.mem_range] at hi
    simp only [decide_eq_decide]
    omega
  · exact unary_enc_valid m v

/-- Witness for the amended C7 at `max = 1`, `v = 2`. -/
theorem c7_unary_encode_one_clamps_witness :
    1 ≤ 2 ∧ (unary_encode_bits 1 2 = unary_encode_bits 1 1 ∧
      unary_valid (unary_encode_bits 1 2) = true) :=
  ⟨by decide, c7_unary_encode_one_clamps (by decide)⟩

/- ----------------------------------------------------------------------
Guard compilation (`variable_update_fn::bdd_from_expression` and
`bdd_from_proposition`, src/update/update_fn.rs).  A BDD over the unprimed
state variables is the Boolean function it denotes on the list of unprimed
bit blocks.
---------------------------------------------------------------------- -/

/-- A valuation of the unprimed BDD variables: one bit block per system
variable, in sorted-name order. -/
abbrev UVal := List Block

/-- An always-false BDD (used as the `getD` fallback for row lists). -/
def bddFalse : UVal → Bool := fun _ => false

/-- `bdd_from_proposition`: dispatch the comparison to the range encoders of
the domain of the named variable (`encode_one`, `encode_one` negated,
`encode_lt/le/gt/ge`).  `encode_one` is the conjunctive clause fixing the
domain's block to the encoding of the literal. -/
def bdd_from_proposition (E : EncImpl) (names : List String) (maxes : List Nat)
    (p : Propn) : UVal → Bool := fun v =>
  let i := varIdx names p.var
  let m := maxes.getD i 0
  let bs := v.getD i []
  match p.cmp with
  | CmpOp.eq => bs == E.enc m p.value
  | CmpOp.neq => !(bs == E.enc m p.value)
  | CmpOp.lt => E.ltB m p.value bs
  | CmpOp.leq => E.leB m p.value bs
  | CmpOp.gt => E.gtB m p.value bs
  | CmpOp.geq => E.geB m p.value bs

mutual

/-- `bdd_from_expression`: structural recursion on the guard expression. -/
def bdd_from_expression (E : EncImpl) (names : List String) (maxes : List Nat) :
    Expr → UVal → Bool
  | .terminal p => bdd_from_proposition E names maxes p
  | .not e => fun v => !(bdd_from_expression E names maxes e v)
  | .and cs => bdd_and_list E names maxes cs
  | .or cs => bdd_or_list E names maxes cs
  | .xor l r => fun v =>
      (bdd_from_expression E names maxes l v) != (bdd_from_expression E names maxes r v)
  | .implies l r => fun v =>
      !(bdd_from_expression E names maxes l v) || (bdd_from_expression E names maxes r v)

/-- The `fold` of `.and` over a clause list, starting from the true BDD. -/
def bdd_and_list (E : EncImpl) (names : List String) (maxes : List Nat) :
    List Expr → UVal → Bool
  | [] => fun _ => true
  | e :: rest => fun v =>
      bdd_from_expression E names maxes e v && bdd_and_list E names maxes rest v

/-- The `fold` of `.or` over a clause list, starting from the false BDD. -/
def bdd_or_list (E : EncImpl) (names : List String) (maxes : List Nat) :
    List Expr → UVal → Bool
  | [] => fun _ => false
  | e :: rest => fun v =>
      bdd_from_expression E names maxes e v || bdd_or_list E names maxes rest v

end

/- ----------------------------------------------------------------------
`VariableUpdateFn::from_update_fn` (src/update/update_fn.rs): compile the
prioritized term table into one bit-answering BDD per encoding bit.
---------------------------------------------------------------------- -/

/-- The guard BDDs of the terms with the implicit final `(default, true)`
term appended, paired with their output values. -/
def term_guards (E : EncImpl) (names : List String) (maxes : List Nat)
    (fn : UnprocessedVariableUpdateFn) : List (Nat × (UVal → Bool)) :=
  (fn.terms.map (fun t => (t.1, bdd_from_expression E names maxes t.2))) ++
    [(fn.default, fun _ => true)]

/-- The running-exclusion fold (`values_mutally_exclusive_terms`): each term
BDD is conjoined with the negation of the union of all earlier term BDDs. -/
def mutually_exclusive (bdds : List (UVal → Bool)) : List (UVal → Bool) :=
  (bdds.foldl
    (fun (sa : (UVal → Bool) × List (UVal → Bool)) term_bdd =>
      ((fun v => sa.1 v || term_bdd v),
        sa.2 ++ [fun v => term_bdd v && !(sa.1 v)]))
    (bddFalse, [])).2

/-- `VariableUpdateFn::from_update_fn` for the variable at index `target_i`:
the list of bit-answering BDDs, one per encoding bit of the target domain;
bit `bit_idx` is the union of the mutually-exclusive term BDDs whose output
value has bit `bit_idx` set in the target encoding. -/
def variable_update_fn (E : EncImpl) (names : List String) (maxes : List Nat)
    (target_i : Nat) (fn : UnprocessedVariableUpdateFn) : List (UVal → Bool) :=
  let pairs := term_guards E names maxes fn
  let outputs := pairs.map Prod.fst
  let mx := mutually_exclusive (pairs.map Prod.snd)
  let m := maxes.getD target_i 0
  let bit_matrix := outputs.map (E.enc m)
  (List.range (bit_matrix.headD []).length).map (fun bit_idx =>
    (List.range bit_matrix.length).foldl
      (fun acc row_idx =>
        if (bit_matrix.getD row_idx []).getD bit_idx false then
          fun v => acc v || (mx.getD row_idx bddFalse) v
        else acc)
      bddFalse)

/- ----------------------------------------------------------------------
Semantic context: well-shaped valuations and their decoding.
---------------------------------------------------------------------- -/

/-- A well-shaped, unit-collection-valid valuation of the unprimed blocks:
one block per variable, each of the domain's width and valid in its unit
collection. -/
def uval_ok (E : EncImpl) (maxes : List Nat) (v : UVal) : Bool :=
  (v.length == maxes.length) &&
    (List.range maxes.length).all (fun i =>
      ((v.getD i []).length == E.width (maxes.getD i 0)) &&
        E.validB (maxes.getD i 0) (v.getD i []))

/-- Decode a well-shaped valuation into the abstract state it encodes. -/
def decodeU (E : EncImpl) (maxes : List Nat) (v : UVal) : AbState :=
  (List.range maxes.length).map (fun i => E.dec (maxes.getD i 0) (v.getD i []))

theorem decodeU_getD {E : EncImpl} {maxes : List Nat} {v : UVal} {i : Nat}
    (hi : i < maxes.length) :
    (decodeU E maxes v).getD i 0 = E.dec (maxes.getD i 0) (v.getD i []) := by
  unfold decodeU
  rw [List.getD_eq_getElem _ _ (by simpa using hi)]
  simp

theorem length_decodeU (E : EncImpl) (maxes : List Nat) (v : UVal) :
    (decodeU E maxes v).length = maxes.length := by
  simp [decodeU]

theorem uval_ok_spec {E : EncImpl} {maxes : List Nat} {v : UVal}
    (h : uval_ok E maxes v = true) (i : Nat) (hi : i < maxes.length) :
    (v.getD i []).length = E.width (maxes.getD i 0) ∧
      E.validB (maxes.getD i 0) (v.getD i []) = true := by
  unfold uval_ok at h
  simp only [Bool.and_eq_true, beq_iff_eq, List.all_eq_true] at h
  have := h.2 i (by simpa using hi)
  simp only [Bool.and_eq_true, beq_iff_eq] at this
  exact this

theorem uval_ok_length {E : EncImpl} {maxes : List Nat} {v : UVal}
    (h : uval_ok E maxes v = true) : v.length = maxes.length := by
  unfold uval_ok at h
  simp only [Bool.and_eq_true, beq_iff_eq] at h
  exact h.1

/-- Well-formedness of one proposition with respect to the constructed
system: its variable is a known system variable and its literal is within
the discovered domain (guaranteed by max discovery, §4.3). -/
def propOK (names : List String) (maxes : List Nat) (p : Propn) : Prop :=
  varIdx names p.var < names.length ∧
    p.value ≤ maxes.getD (varIdx names p.var) 0

theorem bdd_from_proposition_sem {E : EncImpl} (hE : GoodEnc E)
    {names : List String} {maxes : List Nat} (hlen : names.length = maxes.length)
    {v : UVal} (hok : uval_ok E maxes v = true) {p : Propn}
    (hp : propOK names maxes p) :
    bdd_from_proposition E names maxes p v =
      evalProp names (decodeU E maxes v) p := by
  obtain ⟨hpi, hpv⟩ := hp
  have hi : varIdx names p.var < maxes.length := by omega
  obtain ⟨hbl, hbv⟩ := uval_ok_spec hok _ hi
  have hdec := decodeU_getD (E := E) (v := v) hi
  have heq : ((v.getD (varIdx names p.var) []) ==
      E.enc (maxes.getD (varIdx names p.var) 0) p.value) =
      (E.dec (maxes.getD (varIdx names p.var) 0)
        (v.getD (varIdx names p.var) []) == p.value) := by
    cases hbeq : (v.getD (varIdx names p.var) []) ==
        E.enc (maxes.getD (varIdx names p.var) 0) p.value with
    | true =>
      have hb := eq_of_beq hbeq
      rw [hb, hE.dec_enc _ p.value hpv]
      simp
    | false =>
      cases hdeq : E.dec (maxes.getD (varIdx names p.var) 0)
          (v.getD (varIdx names p.var) []) == p.value with
      | true =>
        have hd := eq_of_beq hdeq
        have hroundtrip := hE.enc_dec _ _ hbl hbv
        rw [hd] at hroundtrip
        rw [← hroundtrip] at hbeq
        simp at hbeq
      | false => rfl
  cases hcmp : p.cmp <;>
    simp only [bdd_from_proposition, evalProp, hcmp, hdec]
  · exact heq
  · rw [heq]
  · rw [hE.lt_sem _ p.value _ hbl hbv]
  · rw [hE.le_sem _ p.value _ hbl hbv]
  · rw [hE.gt_sem _ p.value _ hbl hbv]
  · rw [hE.ge_sem _ p.value _ hbl hbv]

/-- The compiled guard BDD agrees with the reference guard semantics at every
valid valuation, for every well-formed expression, including the clause-list
folds for n-ary conjunction and disjunction. -/
theorem bdd_from_expression_sem {E : EncImpl} (hE : GoodEnc E)
    {names : List String} {maxes : List Nat} (hlen : names.length = maxes.length) :
    (∀ (e : Expr),
      (∀ p ∈ propsOf e, propOK names maxes p) →
      ∀ v, uval_ok E maxes v = true →
      bdd_from_expression E names maxes e v =
        evalExpr names (decodeU E maxes v) e) ∧
    (∀ (cs : List Expr),
      (∀ p ∈ propsOfList cs, propOK names maxes p) →
      ∀ v, uval_ok E maxes v = true →
      bdd_or_list E names maxes cs v =
        evalAny names (decodeU E maxes v) cs) ∧
    (∀ (cs : List Expr),
      (∀ p ∈ propsOfList cs, propOK names maxes p) →
      ∀ v, uval_ok E maxes v = true →
      bdd_and_list E names maxes cs v =
        evalAll names (decodeU E maxes v) cs) := by
  apply bdd_from_expression.mutual_induct E names maxes
  · intro p hprops v hok
    simp only [bdd_from_expression, evalExpr]
    exact bdd_from_proposition_sem hE hlen hok
      (hprops p (by simp [propsOf]))
  · intro e ih hprops v hok
    simp only [bdd_from_expression, evalExpr]
    rw [ih (by simpa [propsOf] using hprops) v hok]
  · intro cs ih hprops v hok
    simp only [bdd_from_expression, evalExpr]
    exact ih (by simpa [propsOf] using hprops) v hok
  · intro cs ih hprops v hok
    simp only [bdd_from_expression, evalExpr]
    exact ih (by simpa [propsOf] using hprops) v hok
  · intro l r ih1 ih2 hprops v hok
    simp only [propsOf] at hprops
    simp only [bdd_from_expression, evalExpr]
    rw [ih1 (fun p hp => hprops p (List.mem_append_left _ hp)) v hok,
      ih2 (fun p hp => hprops p (List.mem_append_right _ hp)) v hok]
  · intro l r ih1 ih2 hprops v hok
    simp only [propsOf] at hprops
    simp only [bdd_from_expression, evalExpr]
    rw [ih1 (fun p hp => hprops p (List.mem_append_left _ hp)) v hok,
      ih2 (fun p hp => hprops p (List.mem_append_right _ hp)) v hok]
  · intro hprops v hok
    simp [bdd_or_list, evalAny]
  · intro e rest ih1 ih2 hprops v hok
    simp only [propsOfList] at hprops
    simp only [bdd_or_list, evalAny]
    rw [ih1 (fun p hp => hprops p (List.mem_append_left _ hp)) v hok,
      ih2 (fun p hp => hprops p (List.mem_append_right _ hp)) v hok]
  · intro hprops v hok
    simp [bdd_and_list, evalAll]
  · intro e rest ih1 ih2 hprops v hok
    simp only [propsOfList] at hprops
    simp only [bdd_and_list, evalAll]
    rw [ih1 (fun p hp => hprops p (List.mem_append_left _ hp)) v hok,
      ih2 (fun p hp => hprops p (List.mem_append_right _ hp)) v hok]

/-- Recursive form of the running-exclusion fold: each term is conjoined
with the negation of the states seen so far. -/
def me_rec (seen : UVal → Bool) : List (UVal → Bool) → List (UVal → Bool)
  | [] => []
  | b :: rest => (fun v => b v && !(seen v)) :: me_rec (fun v => seen v || b v) rest

theorem mutually_exclusive_fold_eq (bdds : List (UVal → Bool)) :
    ∀ (seen : UVal → Bool) (acc : List (UVal → Bool)),
    (bdds.foldl
      (fun (sa : (UVal → Bool) × List (UVal → Bool)) term_bdd =>
        ((fun v => sa.1 v || term_bdd v),
          sa.2 ++ [fun v => term_bdd v && !(sa.1 v)]))
      (seen, acc)).2 = acc ++ me_rec seen bdds := by
  induction bdds with
  | nil => intro seen acc; simp [me_rec]
  | cons b rest ih =>
    intro seen acc
    simp only [List.foldl_cons, me_rec]
    rw [ih]
    simp

theorem mutually_exclusive_eq (bdds : List (UVal → Bool)) :
    mutually_exclusive bdds = me_rec bddFalse bdds := by
  unfold mutually_exclusive
  rw [mutually_exclusive_fold_eq]
  simp

theorem length_me_rec (bdds : List (UVal → Bool)) :
    ∀ seen, (me_rec seen bdds).length = bdds.length := by
  induction bdds with
  | nil => intro seen; rfl
  | cons b rest ih => intro seen; simp [me_rec, ih]

/-- Pointwise Boolean mirror of the running-exclusion fold. -/
def me_bools (seen : Bool) : List Bool → List Bool
  | [] => []
  | g :: rest => (g && !seen) :: me_bools (seen || g) rest

theorem me_rec_map (bdds : List (UVal → Bool)) :
    ∀ (seen : UVal → Bool) (v : UVal),
    (me_rec seen bdds).map (fun b => b v) =
      me_bools (seen v) (bdds.map (fun b => b v)) := by
  induction bdds with
  | nil => intro seen v; rfl
  | cons b rest ih =>
    intro seen v
    simp only [me_rec, List.map_cons, me_bools, ih]

theorem me_bools_seen_getD (gs : List Bool) :
    ∀ j, (me_bools true gs).getD j false = false := by
  induction gs with
  | nil => intro j; cases j <;> rfl
  | cons g rest ih =>
    intro j
    cases j with
    | zero => simp [me_bools]
    | succ k =>
      simp only [me_bools, Bool.true_or, List.getD_cons_succ]
      exact ih k

theorem me_bools_getD (gs : List Bool) :
    ∀ j, j < gs.length →
    (me_bools false gs).getD j false = (j == gs.findIdx (fun b => b)) := by
  induction gs with
  | nil => intro j hj; simp at hj
  | cons g rest ih =>
    intro j hj
    cases hg : g with
    | true =>
      simp only [me_bools, hg, Bool.not_false, Bool.and_true, Bool.false_or]
      cases j with
      | zero => simp [List.findIdx_cons]
      | succ k =>
        simp only [List.getD_cons_succ, me_bools_seen_getD, List.findIdx_cons, hg,
          cond_true]
        simp
    | false =>
      simp only [me_bools, hg, Bool.not_false, Bool.and_true, Bool.false_or]
      cases j with
      | zero => simp [List.findIdx_cons, hg]
      | succ k =>
        simp only [List.getD_cons_succ, List.findIdx_cons, hg, cond_false]
        rw [ih k (by simpa using hj)]
        simp

theorem getD_map_apply (l : List (UVal → Bool)) (r : Nat) (hr : r < l.length)
    (v : UVal) :
    (l.getD r bddFalse) v = (l.map (fun b => b v)).getD r false := by
  rw [List.getD_eq_getElem _ _ hr, List.getD_eq_getElem _ _ (by simpa using hr)]
  simp

/-- Value of the mutually-exclusive term list at index `j`: true exactly when
`j` is the first index whose term BDD holds at `v`. -/
theorem mutually_exclusive_getD (bdds : List (UVal → Bool)) (j : Nat)
    (hj : j < bdds.length) (v : UVal) :
    ((mutually_exclusive bdds).getD j bddFalse) v =
      (j == (bdds.map (fun b => b v)).findIdx (fun b => b)) := by
  rw [mutually_exclusive_eq]
  rw [getD_map_apply _ j (by rw [length_me_rec]; exact hj) v]
  rw [me_rec_map]
  exact me_bools_getD _ j (by simpa using hj)

theorem fold_or_eval (rows : List Nat) (sel : Nat → Bool) (fs : Nat → UVal → Bool) :
    ∀ (acc0 : UVal → Bool) (v : UVal),
    (rows.foldl (fun acc r => if sel r then (fun w => acc w || fs r w) else acc)
      acc0) v = (acc0 v || rows.any (fun r => sel r && fs r v)) := by
  induction rows with
  | nil => intro acc0 v; simp
  | cons r rest ih =>
    intro acc0 v
    simp only [List.foldl_cons, List.any_cons]
    cases hs : sel r with
    | true =>
      rw [if_pos rfl]
      rw [ih]
      simp [Bool.or_assoc]
    | false =>
      rw [if_neg Bool.false_ne_true]
      rw [ih]
      simp

theorem range_any_onehot (k J : Nat) (hJ : J < k) (q : Nat → Bool) :
    (List.range k).any (fun r => q r && (r == J)) = q J := by
  cases hq : q J with
  | true =>
    rw [List.any_eq_true]
    exact ⟨J, by simpa using hJ, by simp [hq]⟩
  | false =>
    rw [List.any_eq_false]
    intro r _
    cases hr : (r == J) with
    | true =>
      have : r = J := by simpa using hr
      simp [this, hq]
    | false => simp [hr]

/-- Priority matching through the evaluated guard list: the first set index
of the guards (with the appended true default guard) selects exactly the
output of the earliest matching term, or the default. -/
theorem firstMatch_findIdx (names : List String) (s : AbState) (d : Nat) :
    ∀ (terms : List (Nat × Expr)),
    ((terms.map (fun t => evalExpr names s t.2) ++ [true]).findIdx (fun b => b) <
      terms.length + 1) ∧
    ((terms.map Prod.fst ++ [d]).getD
        ((terms.map (fun t => evalExpr names s t.2) ++ [true]).findIdx
          (fun b => b)) 0 =
      firstMatch names s terms d) := by
  intro terms
  induction terms with
  | nil => simp [firstMatch, List.findIdx_cons]
  | cons t rest ih =>
    cases hg : evalExpr names s t.2 with
    | true =>
      simp only [List.map_cons, List.cons_append, List.findIdx_cons, hg, cond_true,
        firstMatch]
      constructor
      · omega
      · simp [hg]
    | false =>
      simp only [List.map_cons, List.cons_append, List.findIdx_cons, hg, cond_false,
        firstMatch]
      obtain ⟨ih1, ih2⟩ := ih
      constructor
      · simp only [List.length_cons]
        omega
      · simpa [hg] using ih2

/-- Well-formedness of an update function against the constructed domains:
every proposition in every guard refers to a known variable with an in-range
literal, and every output (including the default) is within the target
variable's discovered domain. -/
def updateFnOK (names : List String) (maxes : List Nat) (i : Nat)
    (fn : UnprocessedVariableUpdateFn) : Prop :=
  (∀ t ∈ fn.terms, ∀ p ∈ propsOf t.2, propOK names maxes p) ∧
    (∀ o ∈ fn.terms.map Prod.fst ++ [fn.default], o ≤ maxes.getD i 0)

theorem length_variable_update_fn {E : EncImpl} (hE : GoodEnc E)
    {names : List String} {maxes : List Nat} {i : Nat}
    {fn : UnprocessedVariableUpdateFn}
    (hout : ∀ o ∈ fn.terms.map Prod.fst ++ [fn.default], o ≤ maxes.getD i 0) :
    (variable_update_fn E names maxes i fn).length = E.width (maxes.getD i 0) := by
  unfold variable_update_fn
  simp only [List.length_map, List.length_range]
  unfold term_guards
  cases hterm : fn.terms with
  | nil =>
    simp only [hterm, List.map_nil, List.nil_append, List.map_cons, List.headD_cons]
    exact hE.enc_len _ _ (hout fn.default (by simp [hterm]))
  | cons t rest =>
    simp only [hterm, List.map_cons, List.cons_append, List.map_cons, List.headD_cons]
    exact hE.enc_len _ _ (hout t.1 (by simp [hterm]))

theorem getD_range_map {α : Type} (N : Nat) (f : Nat → α) (d : α) (bit : Nat)
    (h : bit < N) : ((List.range N).map f).getD bit d = f bit := by
  rw [List.getD_eq_getElem _ _ (by simpa using h)]
  simp

theorem getD_map_of_lt {α β : Type} (f : α → β) (l : List α) (n : Nat)
    (d : α) (d2 : β) (h : n < l.length) :
    (l.map f).getD n d2 = f (l.getD n d) := by
  rw [List.getD_eq_getElem _ _ (by simpa using h), List.getD_eq_getElem _ _ h]
  simp

theorem list_any_congr {α : Type} {l : List α} {f g : α → Bool}
    (h : ∀ x ∈ l, f x = g x) : l.any f = l.any g := by
  induction l with
  | nil => rfl
  | cons x rest ih =>
    simp only [List.any_cons]
    rw [h x (List.mem_cons_self x rest), ih (fun y hy => h y (List.mem_cons_of_mem x hy))]

/-- C2 core: the `bit`-th compiled bit-answering BDD of a variable holds at
a valid valuation exactly when the `bit`-th encoding bit of the value
selected by priority-ordered matching is set. -/
theorem variable_update_fn_sem {E : EncImpl} (hE : GoodEnc E)
    {names : List String} {maxes : List Nat} (hlen : names.length = maxes.length)
    {i : Nat} {fn : UnprocessedVariableUpdateFn}
    (hfn : updateFnOK names maxes i fn)
    {v : UVal} (hok : uval_ok E maxes v = true) (bit : Nat)
    (hbit : bit < E.width (maxes.getD i 0)) :
    ((variable_update_fn E names maxes i fn).getD bit bddFalse) v =
      (E.enc (maxes.getD i 0)
        (firstMatch names (decodeU E maxes v) fn.terms fn.default)).getD bit false := by
  obtain ⟨hprops, hout⟩ := hfn
  have hnbits : (variable_update_fn E names maxes i fn).length =
      E.width (maxes.getD i 0) := length_variable_update_fn hE hout
  have hwidth : ((((term_guards E names maxes fn).map Prod.fst).map
      (E.enc (maxes.getD i 0))).headD []).length = E.width (maxes.getD i 0) := by
    have h2 := hnbits
    unfold variable_update_fn at h2
    simpa using h2
  unfold variable_update_fn
  rw [getD_range_map _ _ _ _ (by rw [hwidth]; exact hbit)]
  refine Eq.trans (fold_or_eval
    (List.range ((((term_guards E names maxes fn).map Prod.fst).map
      (E.enc (maxes.getD i 0))).length))
    (fun row_idx => ((((term_guards E names maxes fn).map Prod.fst).map
      (E.enc (maxes.getD i 0))).getD row_idx []).getD bit false)
    (fun row_idx => (mutually_exclusive
      ((term_guards E names maxes fn).map Prod.snd)).getD row_idx bddFalse)
    bddFalse v) ?_
  simp only [bddFalse, Bool.false_or]
  have houtputs : (term_guards E names maxes fn).map Prod.fst =
      fn.terms.map Prod.fst ++ [fn.default] := by
    unfold term_guards
    simp
  have hguards : ((term_guards E names maxes fn).map Prod.snd).map
      (fun b => b v) =
      fn.terms.map (fun t => evalExpr names (decodeU E maxes v) t.2) ++ [true] := by
    unfold term_guards
    simp only [List.map_append, List.map_map, List.map_cons, List.map_nil]
    congr 1
    apply List.map_congr_left
    intro t ht
    exact (bdd_from_expression_sem hE hlen).1 t.2 (hprops t ht) v hok
  obtain ⟨hJlt, hJval⟩ := firstMatch_findIdx names (decodeU E maxes v)
    fn.default fn.terms
  have hrowlen : ((term_guards E names maxes fn).map Prod.snd).length =
      fn.terms.length + 1 := by
    unfold term_guards
    simp
  have hmatlen : (((term_guards E names maxes fn).map Prod.fst).map
      (E.enc (maxes.getD i 0))).length = fn.terms.length + 1 := by
    rw [houtputs]
    simp
  have hJlt' : ((fn.terms.map (fun t => evalExpr names (decodeU E maxes v) t.2) ++
      [true]).findIdx (fun b => b)) <
      (((term_guards E names maxes fn).map Prod.fst).map
        (E.enc (maxes.getD i 0))).length := by
    rw [hmatlen]
    exact hJlt
  have hany : (List.range ((((term_guards E names maxes fn).map Prod.fst).map
      (E.enc (maxes.getD i 0))).length)).any (fun r =>
        ((((term_guards E names maxes fn).map Prod.fst).map
          (E.enc (maxes.getD i 0))).getD r []).getD bit false &&
        ((mutually_exclusive ((term_guards E names maxes fn).map Prod.snd)).getD
          r bddFalse) v) =
      ((((term_guards E names maxes fn).map Prod.fst).map
        (E.enc (maxes.getD i 0))).getD
          ((fn.terms.map (fun t => evalExpr names (decodeU E maxes v) t.2) ++
            [true]).findIdx (fun b => b)) []).getD bit false := by
    rw [← range_any_onehot _ _ hJlt'
      (fun r => ((((term_guards E names maxes fn).map Prod.fst).map
        (E.enc (maxes.getD i 0))).getD r []).getD bit false)]
    apply list_any_congr
    intro r hr
    simp only [List.mem_range] at hr
    have hme := mutually_exclusive_getD ((term_guards E names maxes fn).map Prod.snd)
      r (by rw [hrowlen, ← hmatlen]; exact hr) v
    rw [hme, hguards]
  rw [hany]
  have hJlt2 : ((fn.terms.map (fun t => evalExpr names (decodeU E maxes v) t.2) ++
      [true]).findIdx (fun b => b)) <
      (fn.terms.map Prod.fst ++ [fn.default]).length := by
    simpa using hJlt
  rw [houtputs]
  rw [getD_map_of_lt (E.enc (maxes.getD i 0)) _ _ 0 [] hJlt2]
  rw [hJval]

/- ----------------------------------------------------------------------
The constructed system's context: sorted variable names and the discovered
maxima (`SmartSystemUpdateFn::from_update_fns` steps 1-2).
---------------------------------------------------------------------- -/

/-- `from_update_fns` sorts the input map's entries by variable name before
allocating domains (deterministic BDD variable order, §4.3 step 1). -/
def sort_fns (fns : Model) : Model :=
  fns.mergeSort (fun a b => a.1 ≤ b.1)

/-- The system variables, in construction order (`get_system_variables`). -/
def sys_names (fns : Model) : List String := fns.map Prod.fst

/-- The discovered maximum of each variable, in construction order
(`max_values.get(var_name).expect(..)`). -/
def sys_maxes (fns : Model) : List Nat :=
  fns.map (fun nf => (assocGet (find_max_values fns) nf.1).getD 0)

theorem length_sys_names (fns : Model) : (sys_names fns).length = fns.length := by
  simp [sys_names]

theorem length_sys_maxes (fns : Model) : (sys_maxes fns).length = fns.length := by
  simp [sys_maxes]

/-- Well-formed model: distinct variable names and every guard proposition
referring to a model variable (an unknown name is fatal at construction,
§4.6). -/
def modelWF (fns : Model) : Prop :=
  (sys_names fns).Nodup ∧
    ∀ nf ∈ fns, ∀ t ∈ nf.2.terms, ∀ p ∈ propsOf t.2, p.var ∈ sys_names fns

theorem varIdx_lt {names : List String} {nm : String} (h : nm ∈ names) :
    varIdx names nm < names.length := by
  apply List.findIdx_lt_length_of_exists
  exact ⟨nm, h, by simp⟩

theorem getElem_varIdx {names : List String} {nm : String} (h : nm ∈ names) :
    names.get ⟨varIdx names nm, varIdx_lt h⟩ = nm := by
  have hw : List.findIdx (fun x => x == nm) names < names.length := varIdx_lt h
  have := @List.findIdx_getElem _ (fun x => x == nm) names hw
  simpa using this

theorem le_foldl_max (l : List Nat) :
    ∀ d, d ≤ l.foldl Nat.max d ∧ ∀ x ∈ l, x ≤ l.foldl Nat.max d := by
  induction l with
  | nil => intro d; simp
  | cons y rest ih =>
    intro d
    obtain ⟨ih1, ih2⟩ := ih (Nat.max d y)
    constructor
    · calc d ≤ Nat.max d y := Nat.le_max_left d y
        _ ≤ _ := ih1
    · intro x hx
      rcases List.mem_cons.mp hx with rfl | hx'
      · calc x ≤ Nat.max d x := Nat.le_max_right d x
          _ ≤ _ := ih1
      · exact ih2 x hx'

theorem sys_maxes_getD {fns : Model} (hnd : (sys_names fns).Nodup) {i : Nat}
    (hi : i < fns.length) :
    (sys_maxes fns).getD i 0 =
      claimed_max fns (fns[i].1) (fns[i].2) := by
  unfold sys_maxes
  have hdef : ((fns[i].1, fns[i].2) : String × UnprocessedVariableUpdateFn) ∈ fns := by
    simpa using List.getElem_mem hi
  rw [getD_map_of_lt _ fns i (fns[i]) _ hi]
  rw [List.getD_eq_getElem _ _ hi]
  rw [c5_max_discovery (by simpa [sys_names] using hnd) hdef]
  rfl

/-- In a well-formed model, every update function satisfies the compile-time
contract: literals are within the discovered domains (max discovery widened
them) and outputs are within the target's discovered domain. -/
theorem model_updateFnOK {fns : Model} (hWF : modelWF fns) {i : Nat}
    (hi : i < fns.length) :
    updateFnOK (sys_names fns) (sys_maxes fns) i (fns[i].2) := by
  obtain ⟨hnd, hvars⟩ := hWF
  constructor
  · intro t ht p hp
    have hmem : p.var ∈ sys_names fns :=
      hvars fns[i] (List.getElem_mem hi) t ht p hp
    have hj : varIdx (sys_names fns) p.var < (sys_names fns).length := varIdx_lt hmem
    refine ⟨hj, ?_⟩
    have hj' : varIdx (sys_names fns) p.var < fns.length := by
      rw [← length_sys_names fns]; exact hj
    rw [sys_maxes_getD hnd hj']
    have hvarname : fns[varIdx (sys_names fns) p.var].1 = p.var := by
      have := getElem_varIdx hmem
      simpa [sys_names] using this
    rw [hvarname]
    unfold claimed_max
    refine (le_foldl_max _ _).2 p.value (List.mem_append_right _ ?_)
    unfold model_literals_on
    apply List.mem_map_of_mem
    rw [List.mem_filter]
    constructor
    · unfold model_exprs
      rw [List.mem_flatMap]
      refine ⟨t.2, ?_, hp⟩
      rw [List.mem_flatMap]
      exact ⟨fns[i], List.getElem_mem hi, List.mem_map_of_mem Prod.snd ht⟩
    · simp
  · intro o ho
    rw [sys_maxes_getD hnd hi]
    unfold claimed_max
    rcases List.mem_append.mp ho with hmem | hmem
    · exact (le_foldl_max _ _).2 o (List.mem_append_left _ hmem)
    · have : o = fns[i].2.default := by simpa using hmem
      rw [this]
      exact (le_foldl_max _ _).1

/-- C2: the update-function compiler preserves priority-ordered matching.
For every variable (index `i`), every bit index of its encoding, and every
valid current state (valuation `v`), the compiled bit-answering BDD holds at
`v` exactly when that encoding bit of the next value of the variable is set,
where the next value is the output of the earliest term whose guard holds at
the decoded state, or the default when no guard holds. -/
theorem c2_compiler_preserves_priority {E : EncImpl} (hE : GoodEnc E)
    {fns : Model} (hWF : modelWF fns) {i : Nat} (hi : i < fns.length)
    {v : UVal} (hok : uval_ok E (sys_maxes fns) v = true) (bit : Nat)
    (hbit : bit < E.width ((sys_maxes fns).getD i 0)) :
    ((variable_update_fn E (sys_names fns) (sys_maxes fns) i (fns[i].2)).getD
        bit bddFalse) v = true ↔
      (E.enc ((sys_maxes fns).getD i 0)
        (firstMatch (sys_names fns) (decodeU E (sys_maxes fns) v)
          (fns[i].2).terms (fns[i].2).default)).getD bit false = true := by
  rw [variable_update_fn_sem hE
    (by rw [length_sys_names, length_sys_maxes])
    (model_updateFnOK hWF hi) hok bit hbit]

def c2fnX : UnprocessedVariableUpdateFn :=
  { terms := [(1, Expr.terminal { var := "X", cmp := CmpOp.eq, value := 0 })],
    default := 0 }

/-- A one-variable negation model: `X` becomes `1` when `X = 0`, else `0`. -/
def c2model : Model := [("X", c2fnX)]

/-- Witness for C2 on the negation model, at state `X = 0`, bit `0`, with
the unary encoding. -/
theorem c2_compiler_preserves_priority_witness :
    (modelWF c2model ∧ 0 < c2model.length ∧
      uval_ok unaryEnc (sys_maxes c2model) [[false]] = true ∧
      0 < unaryEnc.width ((sys_maxes c2model).getD 0 0)) ∧
    (((variable_update_fn unaryEnc (sys_names c2model) (sys_maxes c2model) 0
        (c2model[0].2)).getD 0 bddFalse) [[false]] = true ↔
      (unaryEnc.enc ((sys_maxes c2model).getD 0 0)
        (firstMatch (sys_names c2model)
          (decodeU unaryEnc (sys_maxes c2model) [[false]])
          (c2model[0].2).terms (c2model[0].2).default)).getD 0 false = true) :=
  ⟨⟨⟨by decide, by decide⟩, by decide, by decide, by decide⟩,
    c2_compiler_preserves_priority unaryGood ⟨by decide, by decide⟩
      (by decide) (by decide) 0 (by decide)⟩

/- ----------------------------------------------------------------------
The smart system (`SmartSystemUpdateFn`, src/update/update_fn.rs).  A total
valuation of its BDD variable set pairs, for each variable in construction
order, the unprimed bit block with the primed bit block.
---------------------------------------------------------------------- -/

/-- A total valuation of the smart system's BDD variables. -/
abbrev SVal := List (Block × Block)

/-- Projection to the unprimed blocks. -/
def uOf (v : SVal) : UVal := v.map Prod.fst

/-- Projection to the primed blocks. -/
def pOf (v : SVal) : UVal := v.map Prod.snd

/-- Placeholder update function (never used on in-range indices). -/
def dummyFn : UnprocessedVariableUpdateFn := { terms := [], default := 0 }

/-- The update function of the variable at index `i`. -/
def fnAt (fns : Model) (i : Nat) : UnprocessedVariableUpdateFn :=
  (fns.getD i ("", dummyFn)).2

/-- The compiled bit-answering BDDs of the variable at index `i`
(`VariableUpdateFn::from_update_fn` inside `from_update_fns` step 5). -/
def bit_answering_bdds (E : EncImpl) (fns : Model) (i : Nat) :
    List (UVal → Bool) :=
  variable_update_fn E (sys_names fns) (sys_maxes fns) i (fnAt fns i)

/-- `unit_vertex_set`: the conjunction of the unprimed unit collections of
all variables. -/
def unit_vertex_set (E : EncImpl) (fns : Model) : SVal → Bool := fun v =>
  (List.range fns.length).all (fun i =>
    E.validB ((sys_maxes fns).getD i 0) ((uOf v).getD i []))

/-- The transition relation of the variable at index `i` (`from_update_fns`
step 6): the global unprimed unit set, conjoined per encoding bit with
`primed bit ⇔ bit-answering BDD`, conjoined with the primed unit collection
of this variable only. -/
def transition_relation (E : EncImpl) (fns : Model) (i : Nat) : SVal → Bool :=
  fun v =>
    (((bit_answering_bdds E fns i).zip
        (List.range (E.width ((sys_maxes fns).getD i 0)))).foldl
      (fun acc bk => acc &&
        (((pOf v).getD i []).getD bk.2 false == bk.1 (uOf v)))
      (unit_vertex_set E fns v)) &&
    E.validB ((sys_maxes fns).getD i 0) ((pOf v).getD i [])

/-- Existential quantification over the unprimed block of variable `i`
(`Bdd::exists` on `domain.raw_bdd_variables()`). -/
def sexistsU (w i : Nat) (B : SVal → Bool) : SVal → Bool := fun v =>
  (allBlocks w).any (fun bs => B (v.set i (bs, (v.getD i ([], [])).2)))

/-- Existential quantification over the primed block of variable `i`. -/
def sexistsP (w i : Nat) (B : SVal → Bool) : SVal → Bool := fun v =>
  (allBlocks w).any (fun bs => B (v.set i ((v.getD i ([], [])).1, bs)))

/-- Bit `k` of the unprimed block of variable `i`. -/
def getUbit (v : SVal) (i k : Nat) : Bool := ((v.getD i ([], [])).1).getD k false

/-- Bit `k` of the primed block of variable `i`. -/
def getPbit (v : SVal) (i k : Nat) : Bool := ((v.getD i ([], [])).2).getD k false

/-- Set bit `k` of the primed block of variable `i`. -/
def setPbit (v : SVal) (i k : Nat) (b : Bool) : SVal :=
  v.set i ((v.getD i ([], [])).1, ((v.getD i ([], [])).2).set k b)

/-- Set bit `k` of the unprimed block of variable `i`. -/
def setUbit (v : SVal) (i k : Nat) (b : Bool) : SVal :=
  v.set i (((v.getD i ([], [])).1).set k b, (v.getD i ([], [])).2)

/-- `rename_variable(primed_k, unprimed_k)`: the renamed BDD reads the
unprimed bit where the original read the primed bit. -/
def renamePU (i k : Nat) (B : SVal → Bool) : SVal → Bool := fun v =>
  B (setPbit v i k (getUbit v i k))

/-- `rename_variable(unprimed_k, primed_k)`. -/
def renameUP (i k : Nat) (B : SVal → Bool) : SVal → Bool := fun v =>
  B (setUbit v i k (getPbit v i k))

/-- `SmartSystemUpdateFn::successors_async`: conjoin the source set with the
transition relation, erase the old value of the variable, and rename each
primed bit onto its unprimed partner. -/
def successors_async (E : EncImpl) (fns : Model) (i : Nat)
    (source_states_set : SVal → Bool) : SVal → Bool :=
  (List.range (E.width ((sys_maxes fns).getD i 0))).foldl
    (fun acc k => renamePU i k acc)
    (sexistsU (E.width ((sys_maxes fns).getD i 0)) i
      (fun v => source_states_set v && transition_relation E fns i v))

/-- `SmartSystemUpdateFn::predecessors_async`: rename each unprimed bit of
the source set onto its primed partner (in reverse order), conjoin with the
transition relation, and erase the primed block. -/
def predecessors_async (E : EncImpl) (fns : Model) (i : Nat)
    (source_states_set : SVal → Bool) : SVal → Bool :=
  sexistsP (E.width ((sys_maxes fns).getD i 0)) i
    (fun v =>
      ((List.range (E.width ((sys_maxes fns).getD i 0))).reverse.foldl
        (fun acc k => renameUP i k acc) source_states_set) v &&
      transition_relation E fns i v)

/-- The abstract next value of the variable at index `i` (priority-ordered
matching of its update table). -/
def nextVal (fns : Model) (i : Nat) (s : AbState) : Nat :=
  firstMatch (sys_names fns) s (fnAt fns i).terms (fnAt fns i).default

/-- One asynchronous abstract step under variable `i`. -/
def applyUpd (fns : Model) (i : Nat) (s : AbState) : AbState :=
  s.set i (nextVal fns i s)

/- ----------------------------------------------------------------------
Well-shaped valuations and basic block manipulation.
---------------------------------------------------------------------- -/

/-- A well-shaped valuation: one (unprimed, primed) block pair per variable,
each of the domain's width. -/
def shapedS (E : EncImpl) (maxes : List Nat) (v : SVal) : Prop :=
  v.length = maxes.length ∧
    ∀ i, i < maxes.length →
      (v.getD i ([], [])).1.length = E.width (maxes.getD i 0) ∧
      (v.getD i ([], [])).2.length = E.width (maxes.getD i 0)

theorem length_uOf (v : SVal) : (uOf v).length = v.length := by simp [uOf]

theorem length_pOf (v : SVal) : (pOf v).length = v.length := by simp [pOf]

theorem getD_uOf (v : SVal) (i : Nat) :
    (uOf v).getD i [] = (v.getD i ([], [])).1 := by
  by_cases hi : i < v.length
  · unfold uOf
    rw [getD_map_of_lt Prod.fst v i ([], []) [] hi]
  · rw [List.getD_eq_default _ _ (by simpa [uOf] using Nat.le_of_not_lt hi),
      List.getD_eq_default _ _ (Nat.le_of_not_lt hi)]

theorem getD_pOf (v : SVal) (i : Nat) :
    (pOf v).getD i [] = (v.getD i ([], [])).2 := by
  by_cases hi : i < v.length
  · unfold pOf
    rw [getD_map_of_lt Prod.snd v i ([], []) [] hi]
  · rw [List.getD_eq_default _ _ (by simpa [pOf] using Nat.le_of_not_lt hi),
      List.getD_eq_default _ _ (Nat.le_of_not_lt hi)]

theorem uOf_set (v : SVal) (i : Nat) (a b : Block) :
    uOf (v.set i (a, b)) = (uOf v).set i a := by
  simp [uOf, List.map_set]

theorem pOf_set (v : SVal) (i : Nat) (a b : Block) :
    pOf (v.set i (a, b)) = (pOf v).set i b := by
  simp [pOf, List.map_set]

theorem getD_set_self {α : Type} (l : List α) (i : Nat) (x d : α)
    (hi : i < l.length) : (l.set i x).getD i d = x := by
  rw [List.getD_eq_getElem _ _ (by simpa using hi)]
  simp [List.getElem_set]

theorem getD_set_ne {α : Type} (l : List α) (i j : Nat) (x d : α)
    (hne : i ≠ j) : (l.set i x).getD j d = l.getD j d := by
  by_cases hj : j < l.length
  · rw [List.getD_eq_getElem _ _ (by simpa using hj),
      List.getD_eq_getElem _ _ hj]
    simp [List.getElem_set, hne]
  · rw [List.getD_eq_default _ _ (by simpa using Nat.le_of_not_lt hj),
      List.getD_eq_default _ _ (Nat.le_of_not_lt hj)]

theorem shapedS_set {E : EncImpl} {maxes : List Nat} {v : SVal}
    (hsh : shapedS E maxes v) {i : Nat} (hi : i < maxes.length) {a b : Block}
    (ha : a.length = E.width (maxes.getD i 0))
    (hb : b.length = E.width (maxes.getD i 0)) :
    shapedS E maxes (v.set i (a, b)) := by
  obtain ⟨hl, hblocks⟩ := hsh
  refine ⟨by simpa using hl, ?_⟩
  intro j hj
  by_cases hij : i = j
  · subst hij
    rw [getD_set_self v i (a, b) ([], []) (by omega)]
    exact ⟨ha, hb⟩
  · rw [getD_set_ne v i j (a, b) ([], []) hij]
    exact hblocks j hj

theorem set_getD_self {α : Type} (l : List α) (i : Nat) (d : α)
    (hi : i < l.length) : l.set i (l.getD i d) = l := by
  apply List.ext_getElem
  · simp
  · intro j hj hj'
    rw [List.getElem_set]
    by_cases hij : i = j
    · subst hij
      rw [if_pos rfl]
      exact List.getD_eq_getElem _ _ hi
    · simp [hij]

theorem set_set_collapse {α : Type} (l : List α) (i : Nat) (x y : α) :
    (l.set i x).set i y = l.set i y := by
  apply List.ext_getElem
  · simp
  · intro j hj hj'
    simp only [List.getElem_set]
    by_cases hij : i = j <;> simp [hij]

/- Collapse of the bit-by-bit rename folds into block writes. -/

theorem renamePU_foldl (i : Nat) (ks : List Nat) :
    ∀ (B : SVal → Bool) (v : SVal),
    (ks.foldl (fun acc k => renamePU i k acc) B) v =
      B (ks.foldr (fun k w => setPbit w i k (getUbit w i k)) v) := by
  induction ks with
  | nil => intro B v; rfl
  | cons k rest ih =>
    intro B v
    simp only [List.foldl_cons, List.foldr_cons]
    rw [ih]
    rfl

theorem renameUP_foldl (i : Nat) (ks : List Nat) :
    ∀ (B : SVal → Bool) (v : SVal),
    (ks.foldl (fun acc k => renameUP i k acc) B) v =
      B (ks.foldr (fun k w => setUbit w i k (getPbit w i k)) v) := by
  induction ks with
  | nil => intro B v; rfl
  | cons k rest ih =>
    intro B v
    simp only [List.foldl_cons, List.foldr_cons]
    rw [ih]
    rfl

theorem writeP_fold (i : Nat) (ks : List Nat) (v : SVal) (hi : i < v.length) :
    ks.foldr (fun k w => setPbit w i k (getUbit w i k)) v =
      v.set i ((v.getD i ([], [])).1,
        ks.foldr (fun k q => q.set k (((v.getD i ([], [])).1).getD k false))
          (v.getD i ([], [])).2) := by
  induction ks with
  | nil =>
    simp only [List.foldr_nil]
    conv_lhs => rw [← set_getD_self v i ([], []) hi]
  | cons k rest ih =>
    simp only [List.foldr_cons]
    rw [ih]
    unfold setPbit getUbit
    rw [getD_set_self v i _ ([], []) hi]
    rw [set_set_collapse]

theorem writeU_fold (i : Nat) (ks : List Nat) (v : SVal) (hi : i < v.length) :
    ks.foldr (fun k w => setUbit w i k (getPbit w i k)) v =
      v.set i (ks.foldr (fun k q => q.set k (((v.getD i ([], [])).2).getD k false))
          (v.getD i ([], [])).1,
        (v.getD i ([], [])).2) := by
  induction ks with
  | nil =>
    simp only [List.foldr_nil]
    conv_lhs => rw [← set_getD_self v i ([], []) hi]
  | cons k rest ih =>
    simp only [List.foldr_cons]
    rw [ih]
    unfold setUbit getPbit
    rw [getD_set_self v i _ ([], []) hi]
    rw [set_set_collapse]

theorem foldr_set_length (u : Block) (ks : List Nat) (p : Block) :
    (ks.foldr (fun k q => q.set k (u.getD k false)) p).length = p.length := by
  induction ks with
  | nil => rfl
  | cons k rest ih =>
    simp only [List.foldr_cons, List.length_set]
    exact ih

theorem foldr_set_getElem (u : Block) (ks : List Nat) (p : Block) (j : Nat)
    (hj : j < p.length) :
    (ks.foldr (fun k q => q.set k (u.getD k false)) p).getD j false =
      if j ∈ ks then u.getD j false else p.getD j false := by
  induction ks with
  | nil => simp
  | cons k rest ih =>
    simp only [List.foldr_cons]
    by_cases hkj : k = j
    · subst hkj
      rw [getD_set_self _ _ _ _ (by rw [foldr_set_length]; exact hj)]
      simp
    · rw [getD_set_ne _ _ _ _ _ hkj, ih]
      have hmem : (j ∈ k :: rest) ↔ (j ∈ rest) := by
        constructor
        · intro h
          rcases List.mem_cons.mp h with h' | h'
          · exact absurd h'.symm hkj
          · exact h'
        · exact fun h => List.mem_cons_of_mem k h
      by_cases hj2 : j ∈ rest
      · rw [if_pos hj2, if_pos (hmem.mpr hj2)]
      · rw [if_neg hj2, if_neg (fun h => hj2 (hmem.mp h))]

/-- Writing every bit position of `u` over `p` yields `u`, whatever the
order of the positions. -/
theorem overwrite_all_bits (u p : Block) (w : Nat) (hu : u.length = w)
    (hp : p.length = w) (ks : List Nat) (hks : ∀ j, j ∈ ks ↔ j < w) :
    ks.foldr (fun k q => q.set k (u.getD k false)) p = u := by
  apply List.ext_getElem
  · rw [foldr_set_length]
    omega
  · intro j hj hj'
    have hjp : j < p.length := by
      rw [foldr_set_length] at hj
      exact hj
    have h1 := foldr_set_getElem u ks p j hjp
    rw [if_pos ((hks j).mpr (by omega))] at h1
    rw [← List.getD_eq_getElem (ks.foldr (fun k q => q.set k (u.getD k false)) p)
      false hj, h1, List.getD_eq_getElem u false hj']

theorem uval_ok_intro {E : EncImpl} {maxes : List Nat} {u : UVal}
    (hl : u.length = maxes.length)
    (h : ∀ i, i < maxes.length →
      (u.getD i []).length = E.width (maxes.getD i 0) ∧
        E.validB (maxes.getD i 0) (u.getD i []) = true) :
    uval_ok E maxes u = true := by
  unfold uval_ok
  have h1 : (u.length == maxes.length) = true := by simp [hl]
  rw [h1, Bool.true_and, List.all_eq_true]
  intro i hi
  simp only [List.mem_range] at hi
  obtain ⟨ha, hb⟩ := h i hi
  rw [Bool.and_eq_true]
  exact ⟨beq_iff_eq.mpr ha, hb⟩

theorem uval_ok_set_fwd {E : EncImpl} {maxes : List Nat} {u : UVal}
    (hok : uval_ok E maxes u = true) {i : Nat} (hi : i < maxes.length)
    {bs : Block} (hbl : bs.length = E.width (maxes.getD i 0))
    (hbv : E.validB (maxes.getD i 0) bs = true) :
    uval_ok E maxes (u.set i bs) = true := by
  apply uval_ok_intro
  · rw [List.length_set]
    exact uval_ok_length hok
  · intro j hj
    by_cases hij : i = j
    · subst hij
      rw [getD_set_self u i bs [] (by rw [uval_ok_length hok]; exact hi)]
      exact ⟨hbl, hbv⟩
    · rw [getD_set_ne u i j bs [] hij]
      exact uval_ok_spec hok j hj

theorem uval_ok_set_back {E : EncImpl} {maxes : List Nat} {u : UVal}
    (hl : u.length = maxes.length) {i : Nat} (hi : i < maxes.length) {bs : Block}
    (hok : uval_ok E maxes (u.set i bs) = true)
    (hul : (u.getD i []).length = E.width (maxes.getD i 0))
    (huv : E.validB (maxes.getD i 0) (u.getD i []) = true) :
    uval_ok E maxes u = true := by
  apply uval_ok_intro hl
  intro j hj
  by_cases hij : i = j
  · subst hij
    exact ⟨hul, huv⟩
  · have := uval_ok_spec hok j hj
    rw [getD_set_ne u i j bs [] hij] at this
    exact this

theorem uval_ok_set_elim {E : EncImpl} {maxes : List Nat} {u : UVal}
    (hl : u.length = maxes.length) {i : Nat} (hi : i < maxes.length) {bs : Block}
    (hok : uval_ok E maxes (u.set i bs) = true) :
    bs.length = E.width (maxes.getD i 0) ∧
      E.validB (maxes.getD i 0) bs = true := by
  have := uval_ok_spec hok i hi
  rwa [getD_set_self u i bs [] (by omega)] at this

theorem decodeU_set {E : EncImpl} {maxes : List Nat} (u : UVal) {i : Nat}
    (hi : i < maxes.length) (hu : i < u.length) (bs : Block) :
    decodeU E maxes (u.set i bs) =
      (decodeU E maxes u).set i (E.dec (maxes.getD i 0) bs) := by
  unfold decodeU
  apply List.ext_getElem
  · simp
  · intro j hj hj'
    simp only [List.length_map, List.length_range] at hj
    rw [List.getElem_set]
    simp only [List.getElem_map, List.getElem_range]
    by_cases hij : i = j
    · subst hij
      rw [if_pos rfl, getD_set_self u i bs [] hu]
    · rw [if_neg hij, getD_set_ne u i j bs [] hij]

/-- On a well-shaped valuation, the unit vertex set is exactly validity of
the unprimed projection. -/
theorem unit_eq_uval_ok {E : EncImpl} {fns : Model} {v : SVal}
    (hsh : shapedS E (sys_maxes fns) v) :
    unit_vertex_set E fns v = uval_ok E (sys_maxes fns) (uOf v) := by
  obtain ⟨hl, hblocks⟩ := hsh
  have hn : (sys_maxes fns).length = fns.length := length_sys_maxes fns
  cases hval : unit_vertex_set E fns v with
  | true =>
    symm
    unfold unit_vertex_set at hval
    rw [List.all_eq_true] at hval
    apply uval_ok_intro
    · rw [length_uOf]
      omega
    · intro i hi
      refine ⟨by rw [getD_uOf]; exact (hblocks i (by omega)).1, ?_⟩
      exact hval i (by simp only [List.mem_range]; omega)
  | false =>
    symm
    unfold unit_vertex_set at hval
    rw [List.all_eq_false] at hval
    obtain ⟨i, hi, hibad⟩ := hval
    simp only [List.mem_range] at hi
    cases hok : uval_ok E (sys_maxes fns) (uOf v) with
    | false => rfl
    | true =>
      have := (uval_ok_spec hok i (by omega)).2
      exact absurd this hibad

theorem firstMatch_mem (names : List String) (s : AbState) (d : Nat) :
    ∀ terms : List (Nat × Expr),
    firstMatch names s terms d ∈ terms.map Prod.fst ++ [d] := by
  intro terms
  induction terms with
  | nil => simp [firstMatch]
  | cons t rest ih =>
    simp only [firstMatch, List.map_cons, List.cons_append]
    by_cases hg : evalExpr names s t.2 = true
    · rw [if_pos hg]
      exact List.mem_cons_self _ _
    · rw [if_neg hg]
      exact List.mem_cons_of_mem _ ih

theorem fnAt_eq {fns : Model} {i : Nat} (hi : i < fns.length) :
    fnAt fns i = (fns[i]).2 := by
  unfold fnAt
  rw [List.getD_eq_getElem _ _ hi]

/-- In a well-formed model, the next value of a variable is within its
discovered domain. -/
theorem nextVal_le {fns : Model} (hWF : modelWF fns) {i : Nat}
    (hi : i < fns.length) (s : AbState) :
    nextVal fns i s ≤ (sys_maxes fns).getD i 0 := by
  have h := (model_updateFnOK hWF hi).2
  unfold nextVal
  rw [fnAt_eq hi]
  exact h _ (firstMatch_mem (sys_names fns) s (fns[i]).2.default (fns[i]).2.terms)

/-- Quantifying a valid block is the same as quantifying a domain value. -/
theorem any_blocks_iff_range {E : EncImpl} (hE : GoodEnc E) (m : Nat)
    (P : Nat → Bool) :
    (allBlocks (E.width m)).any (fun bs =>
        E.validB m bs && P (E.dec m bs)) =
      (List.range (m + 1)).any P := by
  cases hres : (List.range (m + 1)).any P with
  | true =>
    rw [List.any_eq_true] at hres ⊢
    obtain ⟨v0, hv0, hP⟩ := hres
    simp only [List.mem_range] at hv0
    refine ⟨E.enc m v0, mem_allBlocks.mpr (hE.enc_len m v0 (by omega)), ?_⟩
    rw [hE.enc_valid m v0 (by omega), hE.dec_enc m v0 (by omega)]
    simp [hP]
  | false =>
    rw [List.any_eq_false] at hres ⊢
    intro bs hbs
    cases hv : E.validB m bs with
    | false => simp [hv]
    | true =>
      have hle := hE.dec_le m bs (mem_allBlocks.mp hbs) hv
      have := hres (E.dec m bs) (by simp only [List.mem_range]; omega)
      simp [hv, this]

theorem blocks_eq_of_bits {p q : Block} (hl : p.length = q.length)
    (h : ∀ k, k < p.length → p.getD k false = q.getD k false) : p = q := by
  apply List.ext_getElem
  · exact hl
  · intro k hk hk'
    rw [← List.getD_eq_getElem p false hk, ← List.getD_eq_getElem q false hk']
    exact h k hk

theorem foldl_and_eval {α : Type} (l : List α) (f : α → Bool) :
    ∀ b, l.foldl (fun acc x => acc && f x) b = (b && l.all f) := by
  induction l with
  | nil => intro b; simp
  | cons x rest ih =>
    intro b
    simp only [List.foldl_cons, List.all_cons, ih, Bool.and_assoc]

theorem all_zip_range {w : Nat} (bits : List (UVal → Bool))
    (hw : bits.length = w) (g : (UVal → Bool) → Nat → Bool) :
    (bits.zip (List.range w)).all (fun bk => g bk.1 bk.2) =
      (List.range w).all (fun k => g (bits.getD k bddFalse) k) := by
  cases hres : (List.range w).all (fun k => g (bits.getD k bddFalse) k) with
  | true =>
    rw [List.all_eq_true] at hres ⊢
    intro bk hbk
    have hlen : (bits.zip (List.range w)).length = w := by
      simp [List.length_zip, hw]
    obtain ⟨k, hk, hget⟩ := List.getElem_of_mem hbk
    rw [hlen] at hk
    have h1 : bk.1 = bits.getD k bddFalse := by
      rw [← hget]
      rw [List.getElem_zip]
      rw [List.getD_eq_getElem _ _ (by omega)]
    have h2 : bk.2 = k := by
      rw [← hget]
      rw [List.getElem_zip]
      simp
    rw [h1, h2]
    exact hres k (by simp only [List.mem_range]; omega)
  | false =>
    rw [List.all_eq_false] at hres ⊢
    obtain ⟨k, hk, hbad⟩ := hres
    simp only [List.mem_range] at hk
    refine ⟨(bits.getD k bddFalse, k), ?_, hbad⟩
    have heq : (bits.getD k bddFalse, k) = (bits.zip (List.range w)).get
        ⟨k, by
          simp only [List.length_zip, hw, List.length_range]
          omega⟩ := by
      rw [List.get_eq_getElem]
      rw [List.getElem_zip]
      rw [List.getD_eq_getElem _ _ (by rw [hw]; exact hk)]
      simp
    rw [heq, List.get_eq_getElem]
    exact List.getElem_mem _

theorem length_bit_answering {E : EncImpl} (hE : GoodEnc E) {fns : Model}
    (hWF : modelWF fns) {i : Nat} (hi : i < fns.length) :
    (bit_answering_bdds E fns i).length = E.width ((sys_maxes fns).getD i 0) := by
  unfold bit_answering_bdds
  rw [fnAt_eq hi]
  exact length_variable_update_fn hE (model_updateFnOK hWF hi).2

/-- The transition relation of variable `i`, on a well-shaped valuation, is
exactly: the unprimed projection is a valid state and the primed block of
`i` encodes the next value of variable `i` at the decoded state.  (Other
variables' primed blocks are left unconstrained.) -/
theorem transition_relation_sem {E : EncImpl} (hE : GoodEnc E) {fns : Model}
    (hWF : modelWF fns) {i : Nat} (hi : i < fns.length) {v : SVal}
    (hsh : shapedS E (sys_maxes fns) v) :
    transition_relation E fns i v =
      (uval_ok E (sys_maxes fns) (uOf v) &&
        ((pOf v).getD i [] ==
          E.enc ((sys_maxes fns).getD i 0)
            (nextVal fns i (decodeU E (sys_maxes fns) (uOf v))))) := by
  have hmn : (sys_maxes fns).length = fns.length := length_sys_maxes fns
  have hi' : i < (sys_maxes fns).length := by omega
  have hbits := length_bit_answering hE hWF hi
  unfold transition_relation
  rw [foldl_and_eval]
  rw [all_zip_range _ hbits (fun b k => (((pOf v).getD i []).getD k false == b (uOf v)))]
  rw [unit_eq_uval_ok hsh]
  cases huv : uval_ok E (sys_maxes fns) (uOf v) with
  | false => simp
  | true =>
    simp only [Bool.true_and]
    have hnv : nextVal fns i (decodeU E (sys_maxes fns) (uOf v)) ≤
        (sys_maxes fns).getD i 0 := nextVal_le hWF hi _
    have hplen : ((pOf v).getD i []).length = E.width ((sys_maxes fns).getD i 0) := by
      rw [getD_pOf]
      exact (hsh.2 i hi').2
    have henclen : (E.enc ((sys_maxes fns).getD i 0)
        (nextVal fns i (decodeU E (sys_maxes fns) (uOf v)))).length =
        E.width ((sys_maxes fns).getD i 0) := hE.enc_len _ _ hnv
    have hbitssem : ∀ k, k < E.width ((sys_maxes fns).getD i 0) →
        ((bit_answering_bdds E fns i).getD k bddFalse) (uOf v) =
          (E.enc ((sys_maxes fns).getD i 0)
            (nextVal fns i (decodeU E (sys_maxes fns) (uOf v)))).getD k false := by
      intro k hk
      unfold bit_answering_bdds
      rw [fnAt_eq hi]
      rw [variable_update_fn_sem hE (by rw [length_sys_names, length_sys_maxes])
        (model_updateFnOK hWF hi) huv k hk]
      unfold nextVal
      rw [fnAt_eq hi]
    cases heq : ((pOf v).getD i [] ==
        E.enc ((sys_maxes fns).getD i 0)
          (nextVal fns i (decodeU E (sys_maxes fns) (uOf v)))) with
    | true =>
      have hpe := eq_of_beq heq
      rw [Bool.and_eq_true]
      constructor
      · rw [List.all_eq_true]
        intro k hk
        simp only [List.mem_range] at hk
        rw [hbitssem k hk, hpe]
        simp
      · rw [hpe]
        exact hE.enc_valid _ _ hnv
    | false =>
      cases hall : ((List.range (E.width ((sys_maxes fns).getD i 0))).all
          (fun k => (((pOf v).getD i []).getD k false ==
            ((bit_answering_bdds E fns i).getD k bddFalse) (uOf v)))) with
      | false => rw [Bool.false_and]
      | true =>
        exfalso
        rw [List.all_eq_true] at hall
        have hpe : (pOf v).getD i [] = E.enc ((sys_maxes fns).getD i 0)
            (nextVal fns i (decodeU E (sys_maxes fns) (uOf v))) := by
          apply blocks_eq_of_bits (by rw [hplen, henclen])
          intro k hk
          rw [hplen] at hk
          have hb := hall k (by simp only [List.mem_range]; exact hk)
          rw [hbitssem k hk] at hb
          exact eq_of_beq hb
        rw [hpe] at heq
        simp at heq

theorem nat_beq_symm (a b : Nat) : (a == b) = (b == a) := by
  by_cases h : a = b
  · subst h; rfl
  · rw [beq_false_of_ne h, beq_false_of_ne (fun hh => h hh.symm)]

theorem bool_absorb {x y : Bool} (h : x = true → y = true) : x = (y && x) := by
  cases hx : x
  · rw [Bool.and_false]
  · rw [h hx, Bool.true_and]

theorem and_merge (x a b : Bool) : ((x && a) && (x && b)) = (x && (a && b)) := by
  cases x <;> cases a <;> cases b <;> rfl

theorem block_beq_enc {E : EncImpl} (hE : GoodEnc E) {m : Nat} {bs : Block}
    (hbl : bs.length = E.width m) (hbv : E.validB m bs = true) {x : Nat}
    (hx : x ≤ m) : (bs == E.enc m x) = (E.dec m bs == x) := by
  cases hbeq : bs == E.enc m x with
  | true =>
    have hb := eq_of_beq hbeq
    rw [hb, hE.dec_enc m x hx]
    simp
  | false =>
    cases hdeq : E.dec m bs == x with
    | true =>
      have hd := eq_of_beq hdeq
      have hroundtrip := hE.enc_dec m bs hbl hbv
      rw [hd] at hroundtrip
      rw [← hroundtrip] at hbeq
      simp at hbeq
    | false => rfl

theorem uval_ok_set_eq {E : EncImpl} {maxes : List Nat} {u : UVal}
    (huv : uval_ok E maxes u = true) {i : Nat} (hi : i < maxes.length)
    {bs : Block} (hbl : bs.length = E.width (maxes.getD i 0)) :
    uval_ok E maxes (u.set i bs) = E.validB (maxes.getD i 0) bs := by
  cases hv : E.validB (maxes.getD i 0) bs with
  | true => exact uval_ok_set_fwd huv hi hbl hv
  | false =>
    cases hset : uval_ok E maxes (u.set i bs) with
    | false => rfl
    | true =>
      have := (uval_ok_set_elim (uval_ok_length huv) hi hset).2
      rw [this] at hv
      cases hv

/-- The abstract asynchronous successor image under variable `i`. -/
def absSucc (fns : Model) (i : Nat) (A : AbState → Bool) : AbState → Bool :=
  fun t =>
    (List.range ((sys_maxes fns).getD i 0 + 1)).any (fun v0 =>
      A (t.set i v0) && (nextVal fns i (t.set i v0) == t.getD i 0))

/-- The abstract asynchronous predecessor image under variable `i`. -/
def absPred (fns : Model) (i : Nat) (A : AbState → Bool) : AbState → Bool :=
  fun t => A (applyUpd fns i t)

/-- A symbolic set is standard for an abstract set when, on well-shaped
valuations, it holds exactly at the valid unprimed encodings of the abstract
set's states (primed blocks free). -/
def stdSet (E : EncImpl) (fns : Model) (A : AbState → Bool)
    (S : SVal → Bool) : Prop :=
  ∀ v, shapedS E (sys_maxes fns) v →
    S v = (uval_ok E (sys_maxes fns) (uOf v) &&
      A (decodeU E (sys_maxes fns) (uOf v)))

/-- `successors_async` maps a standard set to the standard set of the
abstract successor image. -/
theorem successors_async_std {E : EncImpl} (hE : GoodEnc E) {fns : Model}
    (hWF : modelWF fns) {i : Nat} (hi : i < fns.length)
    {A : AbState → Bool} {S : SVal → Bool} (hstd : stdSet E fns A S) :
    stdSet E fns (absSucc fns i A) (successors_async E fns i S) := by
  intro v hsh
  have hmn : (sys_maxes fns).length = fns.length := length_sys_maxes fns
  have hi' : i < (sys_maxes fns).length := by omega
  have hvlen : v.length = (sys_maxes fns).length := hsh.1
  have hiv : i < v.length := by omega
  have hul : (v.getD i ([], [])).1.length = E.width ((sys_maxes fns).getD i 0) :=
    (hsh.2 i hi').1
  have hpl : (v.getD i ([], [])).2.length = E.width ((sys_maxes fns).getD i 0) :=
    (hsh.2 i hi').2
  -- collapse the rename fold into a block copy
  unfold successors_async
  rw [renamePU_foldl]
  rw [writeP_fold i _ v hiv]
  rw [overwrite_all_bits _ _ (E.width ((sys_maxes fns).getD i 0)) hul hpl _
    (fun j => List.mem_range)]
  -- unfold the single-block existential
  unfold sexistsU
  have hv1 : ∀ bs : Block,
      ((v.set i ((v.getD i ([], [])).1, (v.getD i ([], [])).1)).set i
        (bs, ((v.set i ((v.getD i ([], [])).1,
          (v.getD i ([], [])).1)).getD i ([], [])).2)) =
      v.set i (bs, (v.getD i ([], [])).1) := by
    intro bs
    rw [getD_set_self v i _ ([], []) hiv, set_set_collapse]
  have hbody : ∀ bs ∈ allBlocks (E.width ((sys_maxes fns).getD i 0)),
      (fun w => S w && transition_relation E fns i w)
          (v.set i (bs, (v.getD i ([], [])).1)) =
        (E.validB ((sys_maxes fns).getD i 0) bs &&
          (uval_ok E (sys_maxes fns) ((uOf v).set i bs) &&
            (A (decodeU E (sys_maxes fns) ((uOf v).set i bs)) &&
              ((v.getD i ([], [])).1 ==
                E.enc ((sys_maxes fns).getD i 0)
                  (nextVal fns i (decodeU E (sys_maxes fns)
                    ((uOf v).set i bs))))))) := by
    intro bs hbs
    have hbsl : bs.length = E.width ((sys_maxes fns).getD i 0) := mem_allBlocks.mp hbs
    have hsh2 : shapedS E (sys_maxes fns) (v.set i (bs, (v.getD i ([], [])).1)) :=
      shapedS_set hsh hi' hbsl hul
    have hS := hstd _ hsh2
    have hT := transition_relation_sem hE hWF hi hsh2
    simp only []
    rw [hS, hT]
    rw [uOf_set, pOf_set, getD_set_self (pOf v) i _ [] (by rw [length_pOf]; omega)]
    rw [and_merge]
    refine bool_absorb ?_
    intro hx
    have hok2 : uval_ok E (sys_maxes fns) ((uOf v).set i bs) = true := by
      simp only [Bool.and_eq_true] at hx
      exact hx.1
    exact (uval_ok_set_elim (by rw [length_uOf]; omega) hi' hok2).2
  cases huv : uval_ok E (sys_maxes fns) (uOf v) with
  | false =>
    rw [Bool.false_and]
    rw [List.any_eq_false]
    intro bs hbs
    have hbsl : bs.length = E.width ((sys_maxes fns).getD i 0) := mem_allBlocks.mp hbs
    rw [hv1 bs, hbody bs hbs]
    intro hcontra
    simp only [Bool.and_eq_true] at hcontra
    obtain ⟨hvalid, hok2, hA, henc⟩ := hcontra
    -- the forced primed block is a valid encoding, so the target was valid
    have hnv : nextVal fns i (decodeU E (sys_maxes fns) ((uOf v).set i bs)) ≤
        (sys_maxes fns).getD i 0 := nextVal_le hWF hi _
    have hue := eq_of_beq henc
    have hulen2 : ((uOf v).getD i []).length = E.width ((sys_maxes fns).getD i 0) := by
      rw [getD_uOf]; exact hul
    have huval : E.validB ((sys_maxes fns).getD i 0) ((uOf v).getD i []) = true := by
      rw [getD_uOf, hue]
      exact hE.enc_valid _ _ hnv
    have hub := uval_ok_set_back (by rw [length_uOf]; omega) hi' hok2 hulen2 huval
    rw [huv] at hub
    exact Bool.noConfusion hub
  | true =>
    rw [Bool.true_and]
    have hdec_set : ∀ bs : Block,
        decodeU E (sys_maxes fns) ((uOf v).set i bs) =
          (decodeU E (sys_maxes fns) (uOf v)).set i
            (E.dec ((sys_maxes fns).getD i 0) bs) := by
      intro bs
      exact decodeU_set (uOf v) hi' (by rw [length_uOf]; omega) bs
    have hti : (decodeU E (sys_maxes fns) (uOf v)).getD i 0 =
        E.dec ((sys_maxes fns).getD i 0) ((uOf v).getD i []) := decodeU_getD hi'
    have htrans : ∀ bs ∈ allBlocks (E.width ((sys_maxes fns).getD i 0)),
        ((fun w => S w && transition_relation E fns i w)
          (v.set i (bs, (v.getD i ([], [])).1))) =
        (E.validB ((sys_maxes fns).getD i 0) bs &&
          (A ((decodeU E (sys_maxes fns) (uOf v)).set i
              (E.dec ((sys_maxes fns).getD i 0) bs)) &&
            (nextVal fns i ((decodeU E (sys_maxes fns) (uOf v)).set i
                (E.dec ((sys_maxes fns).getD i 0) bs)) ==
              (decodeU E (sys_maxes fns) (uOf v)).getD i 0))) := by
      intro bs hbs
      have hbsl : bs.length = E.width ((sys_maxes fns).getD i 0) := mem_allBlocks.mp hbs
      rw [hbody bs hbs]
      rw [uval_ok_set_eq huv hi' hbsl]
      cases hvbs : E.validB ((sys_maxes fns).getD i 0) bs with
      | false => simp only [Bool.false_and]
      | true =>
        simp only [Bool.true_and]
        rw [hdec_set bs]
        congr 1
        have hnv : nextVal fns i ((decodeU E (sys_maxes fns) (uOf v)).set i
            (E.dec ((sys_maxes fns).getD i 0) bs)) ≤ (sys_maxes fns).getD i 0 :=
          nextVal_le hWF hi _
        have hu_i_len : ((uOf v).getD i []).length =
            E.width ((sys_maxes fns).getD i 0) := by rw [getD_uOf]; exact hul
        have hu_i_val : E.validB ((sys_maxes fns).getD i 0) ((uOf v).getD i []) =
            true := (uval_ok_spec huv i hi').2
        rw [← getD_uOf]
        rw [block_beq_enc hE hu_i_len hu_i_val hnv]
        rw [hti]
        exact nat_beq_symm _ _
    -- convert the block existential into a value existential
    have hrw : ((allBlocks (E.width ((sys_maxes fns).getD i 0))).any (fun bs =>
        (fun w => S w && transition_relation E fns i w)
          ((v.set i ((v.getD i ([], [])).1, (v.getD i ([], [])).1)).set i
            (bs, ((v.set i ((v.getD i ([], [])).1,
              (v.getD i ([], [])).1)).getD i ([], [])).2)))) =
        ((allBlocks (E.width ((sys_maxes fns).getD i 0))).any (fun bs =>
          E.validB ((sys_maxes fns).getD i 0) bs &&
            (A ((decodeU E (sys_maxes fns) (uOf v)).set i
                (E.dec ((sys_maxes fns).getD i 0) bs)) &&
              (nextVal fns i ((decodeU E (sys_maxes fns) (uOf v)).set i
                  (E.dec ((sys_maxes fns).getD i 0) bs)) ==
                (decodeU E (sys_maxes fns) (uOf v)).getD i 0)))) := by
      apply list_any_congr
      intro bs hbs
      rw [hv1 bs]
      exact htrans bs hbs
    rw [hrw]
    rw [any_blocks_iff_range hE ((sys_maxes fns).getD i 0)
      (fun v0 => A ((decodeU E (sys_maxes fns) (uOf v)).set i v0) &&
        (nextVal fns i ((decodeU E (sys_maxes fns) (uOf v)).set i v0) ==
          (decodeU E (sys_maxes fns) (uOf v)).getD i 0))]
    rfl

/-- `predecessors_async` maps a standard set to the standard set of the
abstract predecessor image. -/
theorem predecessors_async_std {E : EncImpl} (hE : GoodEnc E) {fns : Model}
    (hWF : modelWF fns) {i : Nat} (hi : i < fns.length)
    {A : AbState → Bool} {S : SVal → Bool} (hstd : stdSet E fns A S) :
    stdSet E fns (absPred fns i A) (predecessors_async E fns i S) := by
  intro v hsh
  have hmn : (sys_maxes fns).length = fns.length := length_sys_maxes fns
  have hi' : i < (sys_maxes fns).length := by omega
  have hvlen : v.length = (sys_maxes fns).length := hsh.1
  have hiv : i < v.length := by omega
  have hul : (v.getD i ([], [])).1.length = E.width ((sys_maxes fns).getD i 0) :=
    (hsh.2 i hi').1
  have hpl : (v.getD i ([], [])).2.length = E.width ((sys_maxes fns).getD i 0) :=
    (hsh.2 i hi').2
  unfold predecessors_async
  unfold sexistsP
  have hbody : ∀ bs ∈ allBlocks (E.width ((sys_maxes fns).getD i 0)),
      (fun w =>
        ((List.range (E.width ((sys_maxes fns).getD i 0))).reverse.foldl
          (fun acc k => renameUP i k acc) S) w &&
        transition_relation E fns i w) (v.set i ((v.getD i ([], [])).1, bs)) =
      ((uval_ok E (sys_maxes fns) ((uOf v).set i bs) &&
          A (decodeU E (sys_maxes fns) ((uOf v).set i bs))) &&
        (uval_ok E (sys_maxes fns) (uOf v) &&
          (bs == E.enc ((sys_maxes fns).getD i 0)
            (nextVal fns i (decodeU E (sys_maxes fns) (uOf v)))))) := by
    intro bs hbs
    have hbsl : bs.length = E.width ((sys_maxes fns).getD i 0) := mem_allBlocks.mp hbs
    simp only []
    rw [renameUP_foldl]
    rw [writeU_fold i _ (v.set i ((v.getD i ([], [])).1, bs)) (by simpa using hiv)]
    rw [getD_set_self v i _ ([], []) hiv]
    rw [overwrite_all_bits bs (v.getD i ([], [])).1
      (E.width ((sys_maxes fns).getD i 0)) hbsl hul _
      (fun j => by rw [List.mem_reverse]; exact List.mem_range)]
    rw [set_set_collapse]
    have hshS : shapedS E (sys_maxes fns) (v.set i (bs, bs)) :=
      shapedS_set hsh hi' hbsl hbsl
    have hshT : shapedS E (sys_maxes fns) (v.set i ((v.getD i ([], [])).1, bs)) :=
      shapedS_set hsh hi' hul hbsl
    rw [hstd _ hshS, transition_relation_sem hE hWF hi hshT]
    rw [uOf_set, uOf_set, pOf_set]
    rw [getD_set_self (pOf v) i _ [] (by rw [length_pOf]; omega)]
    rw [← getD_uOf, set_getD_self (uOf v) i [] (by rw [length_uOf]; omega)]
  cases huv : uval_ok E (sys_maxes fns) (uOf v) with
  | false =>
    rw [Bool.false_and]
    rw [List.any_eq_false]
    intro bs hbs
    rw [hbody bs hbs]
    intro hcontra
    simp only [Bool.and_eq_true] at hcontra
    obtain ⟨h1, h2, h3⟩ := hcontra
    rw [huv] at h2
    exact Bool.noConfusion h2
  | true =>
    rw [Bool.true_and]
    have hdec_set : ∀ bs : Block,
        decodeU E (sys_maxes fns) ((uOf v).set i bs) =
          (decodeU E (sys_maxes fns) (uOf v)).set i
            (E.dec ((sys_maxes fns).getD i 0) bs) := by
      intro bs
      exact decodeU_set (uOf v) hi' (by rw [length_uOf]; omega) bs
    have hnv : nextVal fns i (decodeU E (sys_maxes fns) (uOf v)) ≤
        (sys_maxes fns).getD i 0 := nextVal_le hWF hi _
    have htrans : ∀ bs ∈ allBlocks (E.width ((sys_maxes fns).getD i 0)),
        ((uval_ok E (sys_maxes fns) ((uOf v).set i bs) &&
            A (decodeU E (sys_maxes fns) ((uOf v).set i bs))) &&
          (uval_ok E (sys_maxes fns) (uOf v) &&
            (bs == E.enc ((sys_maxes fns).getD i 0)
              (nextVal fns i (decodeU E (sys_maxes fns) (uOf v)))))) =
        (E.validB ((sys_maxes fns).getD i 0) bs &&
          (A ((decodeU E (sys_maxes fns) (uOf v)).set i
              (E.dec ((sys_maxes fns).getD i 0) bs)) &&
            (E.dec ((sys_maxes fns).getD i 0) bs ==
              nextVal fns i (decodeU E (sys_maxes fns) (uOf v))))) := by
      intro bs hbs
      have hbsl : bs.length = E.width ((sys_maxes fns).getD i 0) := mem_allBlocks.mp hbs
      rw [huv, Bool.true_and]
      rw [uval_ok_set_eq huv hi' hbsl]
      rw [hdec_set bs]
      cases hvbs : E.validB ((sys_maxes fns).getD i 0) bs with
      | false => simp only [Bool.false_and]
      | true =>
        simp only [Bool.true_and]
        congr 1
        exact block_beq_enc hE hbsl hvbs hnv
    have hrw : ((allBlocks (E.width ((sys_maxes fns).getD i 0))).any (fun bs =>
        (fun w =>
          ((List.range (E.width ((sys_maxes fns).getD i 0))).reverse.foldl
            (fun acc k => renameUP i k acc) S) w &&
          transition_relation E fns i w)
            (v.set i ((v.getD i ([], [])).1, bs)))) =
        ((allBlocks (E.width ((sys_maxes fns).getD i 0))).any (fun bs =>
          E.validB ((sys_maxes fns).getD i 0) bs &&
            (A ((decodeU E (sys_maxes fns) (uOf v)).set i
                (E.dec ((sys_maxes fns).getD i 0) bs)) &&
              (E.dec ((sys_maxes fns).getD i 0) bs ==
                nextVal fns i (decodeU E (sys_maxes fns) (uOf v)))))) := by
      apply list_any_congr
      intro bs hbs
      rw [hbody bs hbs]
      exact htrans bs hbs
    rw [hrw]
    rw [any_blocks_iff_range hE ((sys_maxes fns).getD i 0)
      (fun v0 => A ((decodeU E (sys_maxes fns) (uOf v)).set i v0) &&
        (v0 == nextVal fns i (decodeU E (sys_maxes fns) (uOf v))))]
    rw [range_any_onehot ((sys_maxes fns).getD i 0 + 1)
      (nextVal fns i (decodeU E (sys_maxes fns) (uOf v))) (by omega)
      (fun v0 => A ((decodeU E (sys_maxes fns) (uOf v)).set i v0))]
    rfl

/- ----------------------------------------------------------------------
C4: self-duality of the asynchronous image operators.
----------------------------------------------------------------------- -/

/-- An abstract state valid for the system: one value per variable, each
within its discovered domain. -/
def abValid (fns : Model) (s : AbState) : Prop :=
  s.length = fns.length ∧
    ∀ j, j < fns.length → s.getD j 0 ≤ (sys_maxes fns).getD j 0

/-- The standard symbolic singleton of an abstract state: the valid
valuations whose unprimed blocks decode to it. -/
def singletonS (E : EncImpl) (fns : Model) (s : AbState) : SVal → Bool :=
  fun v => uval_ok E (sys_maxes fns) (uOf v) &&
    (decodeU E (sys_maxes fns) (uOf v) == s)

theorem singletonS_std (E : EncImpl) (fns : Model) (s : AbState) :
    stdSet E fns (fun t => t == s) (singletonS E fns s) :=
  fun _ _ => rfl

theorem absSucc_absPred_singleton {fns : Model} {i : Nat}
    (hi : i < fns.length) {s s' : AbState} (hs : abValid fns s)
    (hs' : abValid fns s') :
    absSucc fns i (fun t => t == s) s' = absPred fns i (fun t => t == s') s := by
  have his : i < s.length := by rw [hs.1]; exact hi
  have his' : i < s'.length := by rw [hs'.1]; exact hi
  have hpred : absPred fns i (fun t => t == s') s =
      (s.set i (nextVal fns i s) == s') := rfl
  rw [hpred]
  cases hr : (s.set i (nextVal fns i s) == s') with
  | true =>
    have heq := eq_of_beq hr
    unfold absSucc
    rw [List.any_eq_true]
    refine ⟨s.getD i 0, ?_, ?_⟩
    · simp only [List.mem_range]
      have := hs.2 i hi
      omega
    · rw [← heq]
      rw [set_set_collapse, set_getD_self s i 0 his]
      rw [getD_set_self s i (nextVal fns i s) 0 his]
      simp
  | false =>
    unfold absSucc
    rw [List.any_eq_false]
    intro v0 hv0
    intro hcon
    simp only [Bool.and_eq_true] at hcon
    obtain ⟨h1, h2⟩ := hcon
    have hseq := eq_of_beq h1
    have hnv := eq_of_beq h2
    rw [hseq] at hnv
    have hset : s.set i (nextVal fns i s) = s' := by
      rw [hnv, ← hseq, set_set_collapse, set_getD_self s' i 0 his']
    rw [hset] at hr
    simp at hr

/-- C4: for every constructed system, every variable, and every pair of
valid states `s`, `s'` (given with well-shaped symbolic encodings),
`s'` lies in `successors_async(V, {s})` iff `s` lies in
`predecessors_async(V, {s'})` — stated as equality of the two membership
tests on the singleton state sets. -/
theorem c4_image_self_duality {E : EncImpl} (hE : GoodEnc E) {fns : Model}
    (hWF : modelWF fns) {i : Nat} (hi : i < fns.length)
    {s s' : AbState} (hs : abValid fns s) (hs' : abValid fns s')
    {v v' : SVal} (hv : shapedS E (sys_maxes fns) v)
    (hv' : shapedS E (sys_maxes fns) v')
    (hvok : uval_ok E (sys_maxes fns) (uOf v) = true)
    (hvdec : decodeU E (sys_maxes fns) (uOf v) = s)
    (hv'ok : uval_ok E (sys_maxes fns) (uOf v') = true)
    (hv'dec : decodeU E (sys_maxes fns) (uOf v') = s') :
    successors_async E fns i (singletonS E fns s) v' =
      predecessors_async E fns i (singletonS E fns s') v := by
  have h1 := successors_async_std hE hWF hi (singletonS_std E fns s) v' hv'
  have h2 := predecessors_async_std hE hWF hi (singletonS_std E fns s') v hv
  rw [h1, h2, hvok, hv'ok, hvdec, hv'dec, Bool.true_and, Bool.true_and]
  exact absSucc_absPred_singleton hi hs hs'

/-- A one-variable constant model: `X` always becomes `1`. -/
def c4fnX : UnprocessedVariableUpdateFn := { terms := [], default := 1 }

def c4model : Model := [("X", c4fnX)]

/-- Witness for C4 on the constant model with the unary encoding:
`[1] ∈ succ(X, {[0]})` and `[0] ∈ pred-source of {[1]}` agree. -/
theorem c4_image_self_duality_witness :
    (modelWF c4model ∧ abValid c4model [0] ∧ abValid c4model [1]) ∧
    successors_async unaryEnc c4model 0 (singletonS unaryEnc c4model [0])
        [([true], [false])] =
      predecessors_async unaryEnc c4model 0 (singletonS unaryEnc c4model [1])
        [([false], [false])] :=
  ⟨⟨⟨by decide, by decide⟩, ⟨by decide, by decide⟩, ⟨by decide, by decide⟩⟩,
    @c4_image_self_duality unaryEnc unaryGood c4model ⟨by decide, by decide⟩ 0
      (by decide) [0] [1] ⟨by decide, by decide⟩ ⟨by decide, by decide⟩
      [([false], [false])] [([true], [false])]
      ⟨by decide, by decide⟩ ⟨by decide, by decide⟩
      (by decide) (by decide) (by decide) (by decide)⟩

/- ----------------------------------------------------------------------
C8: the loop-excluding image variants.  `those_states_capable_of_transitioning_under`
is `todo!()` in the source; the spec realizes it as the enabled set
`E_V = \x7bs : update_V(s) ≠ s_V\x7d`.  The composition with the plain image
operators follows `SystemUpdateFn::successors_async_exclude_loops` /
`predecessors_async_exclude_loops` (src/update/update_fn.rs, lines 183-193
and 272-279, identical to the commented-out bodies of the smart variants).
----------------------------------------------------------------------- -/

/-- The abstract enabled-under-`i` set: states whose update changes the
value of variable `i`. -/
def abE (fns : Model) (i : Nat) : AbState → Bool :=
  fun t => !(nextVal fns i t == t.getD i 0)

/-- Modelled from the spec: the set `E_V` of states that do not transition
to themselves under variable `i` (the realization the spec gives for the
`todo!()` body of `those_states_capable_of_transitioning_under`). -/
def those_states_capable_of_transitioning_under (E : EncImpl) (fns : Model)
    (i : Nat) : SVal → Bool :=
  fun v => uval_ok E (sys_maxes fns) (uOf v) &&
    abE fns i (decodeU E (sys_maxes fns) (uOf v))

/-- `successors_async_exclude_loops`: image of the source set intersected
with the enabled set (`SystemUpdateFn` composition, lines 183-193). -/
def successors_async_exclude_loops (E : EncImpl) (fns : Model) (i : Nat)
    (source_states : SVal → Bool) : SVal → Bool :=
  successors_async E fns i (fun v =>
    source_states v && those_states_capable_of_transitioning_under E fns i v)

/-- `predecessors_async_exclude_loops`: plain preimage intersected with the
enabled set (`SystemUpdateFn` composition, lines 272-279). -/
def predecessors_async_exclude_loops (E : EncImpl) (fns : Model) (i : Nat)
    (source_states : SVal → Bool) : SVal → Bool :=
  fun v => predecessors_async E fns i source_states v &&
    those_states_capable_of_transitioning_under E fns i v

theorem stdSet_inter {E : EncImpl} {fns : Model} {A B : AbState → Bool}
    {S S' : SVal → Bool} (hA : stdSet E fns A S) (hB : stdSet E fns B S') :
    stdSet E fns (fun t => A t && B t) (fun v => S v && S' v) := by
  intro v hsh
  simp only []
  rw [hA v hsh, hB v hsh]
  exact and_merge _ _ _

/-- C8: the loop-excluding variants remove self-transitioning states from
the image computation: on standard sets, the excluded successor image is
the asynchronous image of `S ∩ E_V`, and the excluded predecessor image is
the asynchronous preimage of `S` intersected with `E_V`. -/
theorem c8_loop_exclusion {E : EncImpl} (hE : GoodEnc E) {fns : Model}
    (hWF : modelWF fns) {i : Nat} (hi : i < fns.length)
    {A : AbState → Bool} {S : SVal → Bool} (hstd : stdSet E fns A S) :
    stdSet E fns (absSucc fns i (fun t => A t && abE fns i t))
      (successors_async_exclude_loops E fns i S) ∧
    stdSet E fns (fun t => absPred fns i A t && abE fns i t)
      (predecessors_async_exclude_loops E fns i S) := by
  constructor
  · exact successors_async_std hE hWF hi (stdSet_inter hstd (fun _ _ => rfl))
  · exact stdSet_inter (predecessors_async_std hE hWF hi hstd) (fun _ _ => rfl)

/-- Witness for C8 on the constant model: the state `[1]` self-loops, so
with loop exclusion it is neither a successor nor a predecessor within the
singleton set of itself. -/
theorem c8_loop_exclusion_witness :
    (modelWF c4model ∧ 0 < c4model.length) ∧
    successors_async_exclude_loops unaryEnc c4model 0
        (singletonS unaryEnc c4model [1]) [([true], [false])] = false ∧
    predecessors_async_exclude_loops unaryEnc c4model 0
        (singletonS unaryEnc c4model [1]) [([true], [false])] = false := by
  refine ⟨⟨⟨by decide, by decide⟩, by decide⟩, ?_, ?_⟩
  · rw [(c8_loop_exclusion unaryGood ⟨by decide, by decide⟩ (by decide)
      (singletonS_std unaryEnc c4model [1])).1 _ ⟨by decide, by decide⟩]
    decide
  · rw [(c8_loop_exclusion unaryGood ⟨by decide, by decide⟩ (by decide)
      (singletonS_std unaryEnc c4model [1])).2 _ ⟨by decide, by decide⟩]
    decide

/- ----------------------------------------------------------------------
C6: state counting.  `set.cardinality()` counts the satisfying total
valuations of the whole BDD variable set; we enumerate the structured
valuation space explicitly.
----------------------------------------------------------------------- -/

/-- All (unprimed, primed) block pairs of a given width. -/
def allPairs (w : Nat) : List (Block × Block) :=
  (allBlocks w).flatMap (fun a => (allBlocks w).map (fun b => (a, b)))

/-- All total valuations of the smart system's BDD variables, given the
per-variable widths. -/
def allSVals : List Nat → List SVal
  | [] => [[]]
  | w :: ws => (allPairs w).flatMap (fun p => (allSVals ws).map (fun v => p :: v))

/-- `set.cardinality()`: the number of satisfying total valuations. -/
def cardinality (E : EncImpl) (fns : Model) (S : SVal → Bool) : Nat :=
  (allSVals ((sys_maxes fns).map (fun m => E.width m))).countP S

/-- `num_vars()` of the BDD variable set: each variable contributes its
unprimed and its primed block. -/
def num_vars (E : EncImpl) (fns : Model) : Nat :=
  ((sys_maxes fns).map (fun m => 2 * E.width m)).sum

/-- The number of primed BDD bits. -/
def primed_bits (E : EncImpl) (fns : Model) : Nat :=
  ((sys_maxes fns).map (fun m => E.width m)).sum

/-- `SmartSystemUpdateFn::count_states`: cardinality divided by two to the
number of system variables (`variables_transition_relation_and_domain.len()`). -/
def count_states_method (E : EncImpl) (fns : Model) (S : SVal → Bool) : ℚ :=
  (cardinality E fns S : ℚ) / 2 ^ fns.length

/-- Free `count_states` (prototype/reachability.rs): cardinality divided by
two to half the BDD variable count. -/
def count_states (E : EncImpl) (fns : Model) (S : SVal → Bool) : ℚ :=
  (cardinality E fns S : ℚ) / 2 ^ (num_vars E fns / 2)

/-- Free `count_states_exact`: arbitrary-precision cardinality shifted
right by half the BDD variable count. -/
def count_states_exact (E : EncImpl) (fns : Model) (S : SVal → Bool) : Nat :=
  cardinality E fns S >>> (num_vars E fns / 2)

theorem num_vars_eq (E : EncImpl) (fns : Model) :
    num_vars E fns = 2 * primed_bits E fns := by
  unfold num_vars primed_bits
  induction sys_maxes fns with
  | nil => rfl
  | cons m ms ih =>
    simp only [List.map_cons, List.sum_cons, ih]
    ring

/-- C6 (amended): the free `count_states` and `count_states_exact` divide
the cardinality by two to the number of primed BDD bits, as claimed; the
method `SmartSystemUpdateFn::count_states` instead divides by two to the
number of system variables. -/
theorem c6_state_counting (E : EncImpl) (fns : Model) (S : SVal → Bool) :
    count_states E fns S =
      (cardinality E fns S : ℚ) / 2 ^ primed_bits E fns ∧
    count_states_exact E fns S =
      cardinality E fns S / 2 ^ primed_bits E fns ∧
    count_states_method E fns S =
      (cardinality E fns S : ℚ) / 2 ^ fns.length := by
  have h2 : num_vars E fns / 2 = primed_bits E fns := by
    rw [num_vars_eq]
    omega
  refine ⟨?_, ?_, rfl⟩
  · unfold count_states
    rw [h2]
  · unfold count_states_exact
    rw [h2, Nat.shiftRight_eq_div_pow]

/-- A one-variable model of domain `{0, 1, 2}` (unary width 2). -/
def c6fnX : UnprocessedVariableUpdateFn := { terms := [], default := 2 }

def c6model : Model := [("X", c6fnX)]

/-- Counterexample to C6 as stated: on the one-variable domain `{0,1,2}`
with the unary encoding, the method `count_states` of the full valuation
space yields 16/2 = 8, while cardinality over two to the number of primed
bits is 16/4 = 4. -/
theorem c6_counterexample :
    count_states_method unaryEnc c6model (fun _ => true) ≠
      (cardinality unaryEnc c6model (fun _ => true) : ℚ) /
        2 ^ primed_bits unaryEnc c6model := by
  have hc : cardinality unaryEnc c6model (fun _ => true) = 16 := by decide
  have hp : primed_bits unaryEnc c6model = 2 := by decide
  have hl : c6model.length = 1 := rfl
  unfold count_states_method
  rw [hc, hp, hl]
  norm_num

/- ----------------------------------------------------------------------
C9: the eager system (`SystemUpdateFn`).  It has no primed variables: its
BDDs range over the unprimed blocks only (`UVal`).  Or-folds over BDDs are
embedded pointwise, and `decode_collection` of a domain's unit collection
is enumerated as the domain values in ascending order (the fold below
or-combines the iterates, so the enumeration order is irrelevant).
----------------------------------------------------------------------- -/

/-- A well-shaped eager valuation: one block of the domain's width per
variable. -/
def shapedU (E : EncImpl) (maxes : List Nat) (u : UVal) : Prop :=
  u.length = maxes.length ∧
    ∀ i, i < maxes.length → (u.getD i []).length = E.width (maxes.getD i 0)

/-- A standard eager set for an abstract set: holds exactly at the valid
encodings of the abstract set's states. -/
def stdSetU (E : EncImpl) (fns : Model) (A : AbState → Bool)
    (U : UVal → Bool) : Prop :=
  ∀ u, shapedU E (sys_maxes fns) u →
    U u = (uval_ok E (sys_maxes fns) u && A (decodeU E (sys_maxes fns) u))

/-- The eager global unit collection: the and-fold of every domain's unit
collection. -/
def unit_collection (E : EncImpl) (fns : Model) : UVal → Bool :=
  fun u => (List.range fns.length).foldl
    (fun acc i => acc && E.validB ((sys_maxes fns).getD i 0) (u.getD i []))
    true

/-- `decode_collection(unit_collection)` mapped through
`raw_bdd_variables_encode`: the bit pattern of each domain value. -/
def each_allowed_value_bit_encoded (E : EncImpl) (m : Nat) : List Block :=
  (List.range (m + 1)).map (fun val => E.enc m val)

/-- The fold over the zipped bit-answering BDDs and target bits
(`acc.and(bdd)` when the target bit is set, `acc.and_not(bdd)` otherwise),
from a given seed BDD, evaluated at `u`. -/
def capable_fold (E : EncImpl) (fns : Model) (i : Nat) (val_bits : Block)
    (seed : Bool) (u : UVal) : Bool :=
  ((bit_answering_bdds E fns i).zip val_bits).foldl
    (fun acc p => if p.2 then acc && p.1 u else acc && !(p.1 u)) seed

/-- Existential projection of the raw BDD variables of domain `i`. -/
def existsBlockU (w i : Nat) (B : UVal → Bool) : UVal → Bool :=
  fun u => (allBlocks w).any (fun bs => B (u.set i bs))

/-- `SystemUpdateFn::successors_async`: for each domain value, take the
source states capable of transitioning into it, forget the target block,
select it to the value's bits; or-combine and prune by the unit
collection. -/
def SystemUpdateFn_successors_async (E : EncImpl) (fns : Model) (i : Nat)
    (source_states_set : UVal → Bool) : UVal → Bool :=
  fun u =>
    ((each_allowed_value_bit_encoded E ((sys_maxes fns).getD i 0)).foldl
      (fun acc val_bits => acc ||
        (existsBlockU (E.width ((sys_maxes fns).getD i 0)) i
            (fun q => source_states_set q &&
              (capable_fold E fns i val_bits true q && unit_collection E fns q))
            u &&
          (u.getD i [] == val_bits)))
      false) &&
    unit_collection E fns u

/-- `SystemUpdateFn::predecessors_async`: for each domain value, select the
source states with that target value, forget the target block, keep valid
states, and intersect with the states capable of transitioning into the
value (the capability fold seeded with the global unit set). -/
def SystemUpdateFn_predecessors_async (E : EncImpl) (fns : Model) (i : Nat)
    (source_states : UVal → Bool) : UVal → Bool :=
  fun u =>
    (each_allowed_value_bit_encoded E ((sys_maxes fns).getD i 0)).foldl
      (fun acc val_bits => acc ||
        ((existsBlockU (E.width ((sys_maxes fns).getD i 0)) i
            (fun q => source_states q && (q.getD i [] == val_bits)) u &&
          E.validB ((sys_maxes fns).getD i 0) (u.getD i [])) &&
        capable_fold E fns i val_bits (unit_collection E fns u) u))
      false

theorem foldl_or_eval {α : Type} (l : List α) (f : α → Bool) :
    ∀ b, l.foldl (fun acc x => acc || f x) b = (b || l.any f) := by
  induction l with
  | nil => intro b; simp
  | cons x rest ih =>
    intro b
    simp only [List.foldl_cons, List.any_cons, ih, Bool.or_assoc]

theorem foldl_if_and (u : UVal) (l : List ((UVal → Bool) × Bool)) :
    ∀ b, l.foldl
        (fun acc p => if p.2 then acc && p.1 u else acc && !(p.1 u)) b =
      (b && l.all (fun p => p.1 u == p.2)) := by
  induction l with
  | nil => intro b; simp
  | cons p rest ih =>
    intro b
    simp only [List.foldl_cons, List.all_cons, ih]
    cases hp : p.2 <;> cases hb : p.1 u <;> simp [hp, hb, Bool.and_assoc]

theorem list_all_congr {α : Type} {l : List α} {f g : α → Bool}
    (h : ∀ x ∈ l, f x = g x) : l.all f = l.all g := by
  induction l with
  | nil => rfl
  | cons x rest ih =>
    simp only [List.all_cons]
    rw [h x (List.mem_cons_self x rest), ih (fun y hy => h y (List.mem_cons_of_mem x hy))]

theorem all_zip_getD {α β : Type} {w : Nat} (da : α) (db : β)
    (g : α → β → Bool) :
    ∀ (xs : List α) (ys : List β), xs.length = w → ys.length = w →
    (xs.zip ys).all (fun p => g p.1 p.2) =
      (List.range w).all (fun k => g (xs.getD k da) (ys.getD k db)) := by
  induction w with
  | zero =>
    intro xs ys hx hy
    rw [List.length_eq_zero.mp hx, List.length_eq_zero.mp hy]
    rfl
  | succ n ih =>
    intro xs ys hx hy
    cases xs with
    | nil => cases hx
    | cons x xs' =>
      cases ys with
      | nil => cases hy
      | cons y ys' =>
        rw [List.range_succ_eq_map]
        simp only [List.zip_cons_cons, List.all_cons, List.all_map,
          Function.comp, List.getD_cons_zero, List.getD_cons_succ]
        congr 1
        exact ih xs' ys' (by simpa using hx) (by simpa using hy)

theorem unit_collection_eq {E : EncImpl} {fns : Model} {u : UVal}
    (hsh : shapedU E (sys_maxes fns) u) :
    unit_collection E fns u = uval_ok E (sys_maxes fns) u := by
  have hn : (sys_maxes fns).length = fns.length := length_sys_maxes fns
  unfold unit_collection
  rw [foldl_and_eval, Bool.true_and]
  cases hok : uval_ok E (sys_maxes fns) u with
  | true =>
    rw [List.all_eq_true]
    intro i hi
    rw [List.mem_range] at hi
    exact (uval_ok_spec hok i (by omega)).2
  | false =>
    cases hall : (List.range fns.length).all
        (fun i => E.validB ((sys_maxes fns).getD i 0) (u.getD i [])) with
    | false => rfl
    | true =>
      rw [List.all_eq_true] at hall
      have hok2 : uval_ok E (sys_maxes fns) u = true := by
        apply uval_ok_intro hsh.1
        intro i hi
        exact ⟨hsh.2 i hi, hall i (by rw [List.mem_range]; omega)⟩
      exact Bool.noConfusion (hok2.symm.trans hok)

theorem shapedU_of_shapedS {E : EncImpl} {maxes : List Nat} {v : SVal}
    (hsh : shapedS E maxes v) : shapedU E maxes (uOf v) :=
  ⟨by rw [length_uOf]; exact hsh.1,
    fun i hi => by rw [getD_uOf]; exact (hsh.2 i hi).1⟩

theorem shapedU_set {E : EncImpl} {maxes : List Nat} {u : UVal}
    (hsh : shapedU E maxes u) {i : Nat} (hi : i < maxes.length) {bs : Block}
    (hb : bs.length = E.width (maxes.getD i 0)) :
    shapedU E maxes (u.set i bs) := by
  refine ⟨by simpa using hsh.1, ?_⟩
  intro j hj
  by_cases hij : i = j
  · subst hij
    rw [getD_set_self u i bs [] (by rw [hsh.1]; omega)]
    exact hb
  · rw [getD_set_ne u i j bs [] hij]
    exact hsh.2 j hj

theorem bit_answering_sem {E : EncImpl} (hE : GoodEnc E) {fns : Model}
    (hWF : modelWF fns) {i : Nat} (hi : i < fns.length) {u : UVal}
    (hok : uval_ok E (sys_maxes fns) u = true) {k : Nat}
    (hk : k < E.width ((sys_maxes fns).getD i 0)) :
    ((bit_answering_bdds E fns i).getD k bddFalse) u =
      (E.enc ((sys_maxes fns).getD i 0)
        (nextVal fns i (decodeU E (sys_maxes fns) u))).getD k false := by
  unfold bit_answering_bdds nextVal
  rw [fnAt_eq hi]
  exact variable_update_fn_sem hE (by rw [length_sys_names, length_sys_maxes])
    (model_updateFnOK hWF hi) hok k hk

theorem capable_fold_sem {E : EncImpl} (hE : GoodEnc E) {fns : Model}
    (hWF : modelWF fns) {i : Nat} (hi : i < fns.length) {u : UVal}
    (hok : uval_ok E (sys_maxes fns) u = true) {val : Nat}
    (hval : val ≤ (sys_maxes fns).getD i 0) (seed : Bool) :
    capable_fold E fns i (E.enc ((sys_maxes fns).getD i 0) val) seed u =
      (seed && (nextVal fns i (decodeU E (sys_maxes fns) u) == val)) := by
  have hnle : nextVal fns i (decodeU E (sys_maxes fns) u) ≤
      (sys_maxes fns).getD i 0 := nextVal_le hWF hi _
  unfold capable_fold
  rw [foldl_if_and]
  congr 1
  refine Eq.trans (all_zip_getD bddFalse false (fun a bit => a u == bit) _ _
    (length_bit_answering hE hWF hi) (hE.enc_len _ _ hval)) ?_
  have hcong : ∀ k ∈ List.range (E.width ((sys_maxes fns).getD i 0)),
      ((bit_answering_bdds E fns i).getD k bddFalse u ==
        (E.enc ((sys_maxes fns).getD i 0) val).getD k false) =
      ((E.enc ((sys_maxes fns).getD i 0)
          (nextVal fns i (decodeU E (sys_maxes fns) u))).getD k false ==
        (E.enc ((sys_maxes fns).getD i 0) val).getD k false) := by
    intro k hk
    rw [bit_answering_sem hE hWF hi hok (List.mem_range.mp hk)]
  refine Eq.trans (list_all_congr hcong) ?_
  cases hnv : (nextVal fns i (decodeU E (sys_maxes fns) u) == val) with
  | true =>
    rw [eq_of_beq hnv]
    rw [List.all_eq_true]
    intro k _
    simp
  | false =>
    cases hall : (List.range (E.width ((sys_maxes fns).getD i 0))).all
        (fun k => (E.enc ((sys_maxes fns).getD i 0)
            (nextVal fns i (decodeU E (sys_maxes fns) u))).getD k false ==
          (E.enc ((sys_maxes fns).getD i 0) val).getD k false) with
    | false => rfl
    | true =>
      rw [List.all_eq_true] at hall
      have hbl : E.enc ((sys_maxes fns).getD i 0)
            (nextVal fns i (decodeU E (sys_maxes fns) u)) =
          E.enc ((sys_maxes fns).getD i 0) val := by
        apply blocks_eq_of_bits
        · rw [hE.enc_len _ _ hnle, hE.enc_len _ _ hval]
        · intro k hk
          rw [hE.enc_len _ _ hnle] at hk
          exact eq_of_beq (hall k (by rw [List.mem_range]; exact hk))
      have h1 := hE.dec_enc ((sys_maxes fns).getD i 0) _ hnle
      rw [hbl, hE.dec_enc ((sys_maxes fns).getD i 0) val hval] at h1
      rw [← h1] at hnv
      simp at hnv

theorem any_map_general {α β : Type} (f : α → β) (p : β → Bool)
    (l : List α) : (l.map f).any p = l.any (fun a => p (f a)) := by
  induction l with
  | nil => rfl
  | cons x xs ih => simp only [List.map_cons, List.any_cons, ih]

/-- The eager `successors_async` is a standard-set transformer realizing the
same abstract successor image as the smart variant. -/
theorem SystemUpdateFn_successors_async_std {E : EncImpl} (hE : GoodEnc E)
    {fns : Model} (hWF : modelWF fns) {i : Nat} (hi : i < fns.length)
    {A : AbState → Bool} {U : UVal → Bool} (hstdU : stdSetU E fns A U) :
    stdSetU E fns (absSucc fns i A)
      (SystemUpdateFn_successors_async E fns i U) := by
  intro u hsh
  have hmn : (sys_maxes fns).length = fns.length := length_sys_maxes fns
  have hi' : i < (sys_maxes fns).length := by omega
  have hiu : i < u.length := by rw [hsh.1]; omega
  have hul : (u.getD i []).length = E.width ((sys_maxes fns).getD i 0) :=
    hsh.2 i hi'
  unfold SystemUpdateFn_successors_async
  rw [foldl_or_eval, Bool.false_or, unit_collection_eq hsh]
  cases huv : uval_ok E (sys_maxes fns) u with
  | false => rw [Bool.and_false, Bool.false_and]
  | true =>
    rw [Bool.and_true, Bool.true_and]
    unfold each_allowed_value_bit_encoded
    rw [any_map_general]
    have huiv : E.validB ((sys_maxes fns).getD i 0) (u.getD i []) = true :=
      (uval_ok_spec huv i hi').2
    have hdec_set : ∀ bs : Block,
        decodeU E (sys_maxes fns) (u.set i bs) =
          (decodeU E (sys_maxes fns) u).set i
            (E.dec ((sys_maxes fns).getD i 0) bs) :=
      fun bs => decodeU_set u hi' hiu bs
    have hcong : ∀ val ∈ List.range ((sys_maxes fns).getD i 0 + 1),
        (existsBlockU (E.width ((sys_maxes fns).getD i 0)) i
            (fun q => U q && (capable_fold E fns i
                (E.enc ((sys_maxes fns).getD i 0) val) true q &&
              unit_collection E fns q)) u &&
          (u.getD i [] == E.enc ((sys_maxes fns).getD i 0) val)) =
        (((List.range ((sys_maxes fns).getD i 0 + 1)).any (fun v0 =>
            A ((decodeU E (sys_maxes fns) u).set i v0) &&
              (nextVal fns i ((decodeU E (sys_maxes fns) u).set i v0) ==
                val))) &&
          ((decodeU E (sys_maxes fns) u).getD i 0 == val)) := by
      intro val hvm
      have hval : val ≤ (sys_maxes fns).getD i 0 := by
        rw [List.mem_range] at hvm
        omega
      congr 1
      · unfold existsBlockU
        have hbs_cong : ∀ bs ∈ allBlocks (E.width ((sys_maxes fns).getD i 0)),
            (U (u.set i bs) && (capable_fold E fns i
                (E.enc ((sys_maxes fns).getD i 0) val) true (u.set i bs) &&
              unit_collection E fns (u.set i bs))) =
            (E.validB ((sys_maxes fns).getD i 0) bs &&
              (A ((decodeU E (sys_maxes fns) u).set i
                  (E.dec ((sys_maxes fns).getD i 0) bs)) &&
                (nextVal fns i ((decodeU E (sys_maxes fns) u).set i
                    (E.dec ((sys_maxes fns).getD i 0) bs)) == val))) := by
          intro bs hbs
          have hbsl : bs.length = E.width ((sys_maxes fns).getD i 0) :=
            mem_allBlocks.mp hbs
          have hshq := shapedU_set hsh hi' hbsl
          rw [hstdU _ hshq, unit_collection_eq hshq,
            uval_ok_set_eq huv hi' hbsl]
          cases hvbs : E.validB ((sys_maxes fns).getD i 0) bs with
          | false => simp only [Bool.false_and, Bool.and_false]
          | true =>
            have hokq : uval_ok E (sys_maxes fns) (u.set i bs) = true :=
              uval_ok_set_fwd huv hi' hbsl hvbs
            rw [capable_fold_sem hE hWF hi hokq hval, hdec_set bs]
            simp only [Bool.true_and, Bool.and_true]
        rw [list_any_congr hbs_cong]
        rw [any_blocks_iff_range hE ((sys_maxes fns).getD i 0) (fun v0 =>
          A ((decodeU E (sys_maxes fns) u).set i v0) &&
            (nextVal fns i ((decodeU E (sys_maxes fns) u).set i v0) == val))]
      · rw [block_beq_enc hE hul huiv hval, decodeU_getD hi']
    rw [list_any_congr hcong]
    have hti : (decodeU E (sys_maxes fns) u).getD i 0 ≤
        (sys_maxes fns).getD i 0 := by
      rw [decodeU_getD hi']
      exact hE.dec_le _ _ hul huiv
    have hsymm : ∀ val ∈ List.range ((sys_maxes fns).getD i 0 + 1),
        (((List.range ((sys_maxes fns).getD i 0 + 1)).any (fun v0 =>
            A ((decodeU E (sys_maxes fns) u).set i v0) &&
              (nextVal fns i ((decodeU E (sys_maxes fns) u).set i v0) ==
                val))) &&
          ((decodeU E (sys_maxes fns) u).getD i 0 == val)) =
        (((List.range ((sys_maxes fns).getD i 0 + 1)).any (fun v0 =>
            A ((decodeU E (sys_maxes fns) u).set i v0) &&
              (nextVal fns i ((decodeU E (sys_maxes fns) u).set i v0) ==
                val))) &&
          (val == (decodeU E (sys_maxes fns) u).getD i 0)) := by
      intro val _
      rw [nat_beq_symm]
    rw [list_any_congr hsymm]
    rw [range_any_onehot ((sys_maxes fns).getD i 0 + 1)
      ((decodeU E (sys_maxes fns) u).getD i 0) (by omega)
      (fun val => (List.range ((sys_maxes fns).getD i 0 + 1)).any (fun v0 =>
        A ((decodeU E (sys_maxes fns) u).set i v0) &&
          (nextVal fns i ((decodeU E (sys_maxes fns) u).set i v0) == val)))]
    rfl

/-- The eager `predecessors_async` is a standard-set transformer realizing
the same abstract predecessor image as the smart variant. -/
theorem SystemUpdateFn_predecessors_async_std {E : EncImpl} (hE : GoodEnc E)
    {fns : Model} (hWF : modelWF fns) {i : Nat} (hi : i < fns.length)
    {A : AbState → Bool} {U : UVal → Bool} (hstdU : stdSetU E fns A U) :
    stdSetU E fns (absPred fns i A)
      (SystemUpdateFn_predecessors_async E fns i U) := by
  intro u hsh
  have hmn : (sys_maxes fns).length = fns.length := length_sys_maxes fns
  have hi' : i < (sys_maxes fns).length := by omega
  have hiu : i < u.length := by rw [hsh.1]; omega
  have hul : (u.getD i []).length = E.width ((sys_maxes fns).getD i 0) :=
    hsh.2 i hi'
  unfold SystemUpdateFn_predecessors_async
  rw [foldl_or_eval, Bool.false_or]
  cases huv : uval_ok E (sys_maxes fns) u with
  | false =>
    rw [Bool.false_and]
    rw [List.any_eq_false]
    intro val_bits _
    intro hcon
    unfold capable_fold at hcon
    rw [foldl_if_and, unit_collection_eq hsh, huv, Bool.false_and,
      Bool.and_false] at hcon
    cases hcon
  | true =>
    rw [Bool.true_and]
    unfold each_allowed_value_bit_encoded
    rw [any_map_general]
    have huiv : E.validB ((sys_maxes fns).getD i 0) (u.getD i []) = true :=
      (uval_ok_spec huv i hi').2
    have hdec_set : ∀ bs : Block,
        decodeU E (sys_maxes fns) (u.set i bs) =
          (decodeU E (sys_maxes fns) u).set i
            (E.dec ((sys_maxes fns).getD i 0) bs) :=
      fun bs => decodeU_set u hi' hiu bs
    have hnle : nextVal fns i (decodeU E (sys_maxes fns) u) ≤
        (sys_maxes fns).getD i 0 := nextVal_le hWF hi _
    have hcong : ∀ val ∈ List.range ((sys_maxes fns).getD i 0 + 1),
        ((existsBlockU (E.width ((sys_maxes fns).getD i 0)) i
            (fun q => U q &&
              (q.getD i [] == E.enc ((sys_maxes fns).getD i 0) val)) u &&
          E.validB ((sys_maxes fns).getD i 0) (u.getD i [])) &&
        capable_fold E fns i (E.enc ((sys_maxes fns).getD i 0) val)
          (unit_collection E fns u) u) =
        (A ((decodeU E (sys_maxes fns) u).set i val) &&
          (val == nextVal fns i (decodeU E (sys_maxes fns) u))) := by
      intro val hvm
      have hval : val ≤ (sys_maxes fns).getD i 0 := by
        rw [List.mem_range] at hvm
        omega
      rw [unit_collection_eq hsh, huv,
        capable_fold_sem hE hWF hi huv hval, Bool.true_and, huiv,
        Bool.and_true]
      have hbs_cong : ∀ bs ∈ allBlocks (E.width ((sys_maxes fns).getD i 0)),
          (U (u.set i bs) &&
            ((u.set i bs).getD i [] ==
              E.enc ((sys_maxes fns).getD i 0) val)) =
          (E.validB ((sys_maxes fns).getD i 0) bs &&
            (A ((decodeU E (sys_maxes fns) u).set i
                (E.dec ((sys_maxes fns).getD i 0) bs)) &&
              (E.dec ((sys_maxes fns).getD i 0) bs == val))) := by
        intro bs hbs
        have hbsl : bs.length = E.width ((sys_maxes fns).getD i 0) :=
          mem_allBlocks.mp hbs
        have hshq := shapedU_set hsh hi' hbsl
        rw [hstdU _ hshq, uval_ok_set_eq huv hi' hbsl,
          getD_set_self u i bs [] hiu, hdec_set bs]
        cases hvbs : E.validB ((sys_maxes fns).getD i 0) bs with
        | false => simp only [Bool.false_and]
        | true =>
          simp only [Bool.true_and]
          congr 1
          exact block_beq_enc hE hbsl hvbs hval
      unfold existsBlockU
      rw [list_any_congr hbs_cong]
      rw [any_blocks_iff_range hE ((sys_maxes fns).getD i 0) (fun v0 =>
        A ((decodeU E (sys_maxes fns) u).set i v0) && (v0 == val))]
      rw [range_any_onehot ((sys_maxes fns).getD i 0 + 1) val (by omega)
        (fun v0 => A ((decodeU E (sys_maxes fns) u).set i v0))]
      rw [nat_beq_symm (nextVal fns i (decodeU E (sys_maxes fns) u)) val]
    rw [list_any_congr hcong]
    rw [range_any_onehot ((sys_maxes fns).getD i 0 + 1)
      (nextVal fns i (decodeU E (sys_maxes fns) u)) (by omega)
      (fun val => A ((decodeU E (sys_maxes fns) u).set i val))]
    rfl

/-- C9: on standard state sets, the eager and the smart system compute the
same asynchronous images: at every well-shaped valuation, the smart
successor (resp. predecessor) set agrees with the eager one evaluated on
the unprimed projection. -/
theorem c9_eager_smart_images_agree {E : EncImpl} (hE : GoodEnc E)
    {fns : Model} (hWF : modelWF fns) {i : Nat} (hi : i < fns.length)
    {A : AbState → Bool} {S : SVal → Bool} {U : UVal → Bool}
    (hstd : stdSet E fns A S) (hstdU : stdSetU E fns A U)
    {v : SVal} (hsh : shapedS E (sys_maxes fns) v) :
    successors_async E fns i S v =
      SystemUpdateFn_successors_async E fns i U (uOf v) ∧
    predecessors_async E fns i S v =
      SystemUpdateFn_predecessors_async E fns i U (uOf v) := by
  have hshU := shapedU_of_shapedS hsh
  constructor
  · rw [successors_async_std hE hWF hi hstd v hsh,
      SystemUpdateFn_successors_async_std hE hWF hi hstdU (uOf v) hshU]
  · rw [predecessors_async_std hE hWF hi hstd v hsh,
      SystemUpdateFn_predecessors_async_std hE hWF hi hstdU (uOf v) hshU]

/-- Witness for C9 on the constant model, with the singleton `{[0]}` in
both representations. -/
theorem c9_eager_smart_images_agree_witness :
    (modelWF c4model ∧ 0 < c4model.length) ∧
    (successors_async unaryEnc c4model 0 (singletonS unaryEnc c4model [0])
        [([false], [false])] =
      SystemUpdateFn_successors_async unaryEnc c4model 0
        (fun u => uval_ok unaryEnc (sys_maxes c4model) u &&
          (decodeU unaryEnc (sys_maxes c4model) u == [0]))
        (uOf [([false], [false])]) ∧
     predecessors_async unaryEnc c4model 0 (singletonS unaryEnc c4model [0])
        [([false], [false])] =
      SystemUpdateFn_predecessors_async unaryEnc c4model 0
        (fun u => uval_ok unaryEnc (sys_maxes c4model) u &&
          (decodeU unaryEnc (sys_maxes c4model) u == [0]))
        (uOf [([false], [false])])) :=
  ⟨⟨⟨by decide, by decide⟩, by decide⟩,
    c9_eager_smart_images_agree unaryGood ⟨by decide, by decide⟩ (by decide)
      (singletonS_std unaryEnc c4model [0]) (fun _ _ => rfl)
      ⟨by decide, by decide⟩⟩

/- ----------------------------------------------------------------------
C3: reachability saturation (prototype/reachability.rs).  `reach_fwd` and
`reach_bwd` scan the system variables in descending order, extend the
result by the image under the first progressing variable and restart; the
`universe` argument is only used for logging.  The source loop carries no
fuel; the fuel argument below bounds the number of extension steps, and
any fuel beyond the valuation-space size is shown to reach the loop's
actual termination point.  `imp_is_true` is `succ.imp(result).is_true()`:
truth at every total valuation.
----------------------------------------------------------------------- -/

/-- Modelled from the spec: `reach_fwd` calls
`system.transition_under_variable`, which is absent from src/; the spec
saturates the per-variable asynchronous successor images, so it is
`successors_async`. -/
def transition_under_variable (E : EncImpl) (fns : Model) (i : Nat)
    (source : SVal → Bool) : SVal → Bool :=
  successors_async E fns i source

/-- Modelled from the spec: `reach_bwd` calls
`system.predecessors_under_variable`, which is absent from src/; the spec
saturates the per-variable asynchronous predecessor images, so it is
`predecessors_async`. -/
def predecessors_under_variable (E : EncImpl) (fns : Model) (i : Nat)
    (source : SVal → Bool) : SVal → Bool :=
  predecessors_async E fns i source

/-- `S.imp(T).is_true()`: the implication holds at every total valuation. -/
def imp_is_true (E : EncImpl) (fns : Model) (S T : SVal → Bool) : Bool :=
  (allSVals ((sys_maxes fns).map (fun m => E.width m))).all
    (fun v => !(S v) || T v)

/-- One pass of the inner `for var in sorted_variables.iter().rev()` loop:
the updated result under the first progressing variable, or `none` when no
variable makes progress. -/
def saturation_scan (E : EncImpl) (fns : Model)
    (F : Nat → (SVal → Bool) → SVal → Bool) :
    List Nat → (SVal → Bool) → Option (SVal → Bool)
  | [], _ => none
  | var :: rest, R =>
    if imp_is_true E fns (F var R) R then saturation_scan E fns F rest R
    else some (fun v => R v || F var R v)

/-- The outer restart loop, bounded by fuel. -/
def saturate (E : EncImpl) (fns : Model)
    (F : Nat → (SVal → Bool) → SVal → Bool) :
    Nat → (SVal → Bool) → SVal → Bool
  | 0, R => R
  | fuel + 1, R =>
    match saturation_scan E fns F (List.range fns.length).reverse R with
    | none => R
    | some next => saturate E fns F fuel next

/-- `reach_fwd` (the `universe` argument is only used for logging). -/
def reach_fwd (E : EncImpl) (fns : Model) (fuel : Nat)
    (initial _universe : SVal → Bool) : SVal → Bool :=
  saturate E fns (transition_under_variable E fns) fuel initial

/-- `reach_bwd` (the `universe` argument is only used for logging). -/
def reach_bwd (E : EncImpl) (fns : Model) (fuel : Nat)
    (initial _universe : SVal → Bool) : SVal → Bool :=
  saturate E fns (predecessors_under_variable E fns) fuel initial

/-- The number of satisfying total valuations of a set. -/
def cardSV (E : EncImpl) (fns : Model) (S : SVal → Bool) : Nat :=
  (allSVals ((sys_maxes fns).map (fun m => E.width m))).countP S

theorem countP_mono_of {α : Type} {l : List α} {p q : α → Bool}
    (h : ∀ a ∈ l, p a = true → q a = true) : l.countP p ≤ l.countP q := by
  induction l with
  | nil => exact Nat.le_refl _
  | cons a rest ih =>
    have hr := ih (fun b hb => h b (List.mem_cons_of_mem a hb))
    cases hp : p a with
    | false =>
      rw [List.countP_cons_of_neg _ _ (by rw [hp]; exact Bool.false_ne_true)]
      cases hq : q a with
      | false =>
        rw [List.countP_cons_of_neg _ _ (by rw [hq]; exact Bool.false_ne_true)]
        exact hr
      | true =>
        rw [List.countP_cons_of_pos _ _ hq]
        omega
    | true =>
      rw [List.countP_cons_of_pos _ _ hp,
        List.countP_cons_of_pos _ _ (h a (List.mem_cons_self a rest) hp)]
      omega

theorem countP_lt_of_witness {α : Type} {l : List α} {p q : α → Bool}
    (h : ∀ a ∈ l, p a = true → q a = true) {x : α} (hx : x ∈ l)
    (hqx : q x = true) (hpx : p x = false) : l.countP p < l.countP q := by
  induction l with
  | nil => cases hx
  | cons a rest ih =>
    have hr := countP_mono_of (fun b hb => h b (List.mem_cons_of_mem a hb))
    rcases List.mem_cons.mp hx with hax | hxr
    · subst hax
      rw [List.countP_cons_of_neg _ _ (by rw [hpx]; exact Bool.false_ne_true),
        List.countP_cons_of_pos _ _ hqx]
      omega
    · have hlt := ih (fun b hb => h b (List.mem_cons_of_mem a hb)) hxr
      cases hp : p a with
      | false =>
        rw [List.countP_cons_of_neg _ _ (by rw [hp]; exact Bool.false_ne_true)]
        cases hq : q a with
        | false =>
          rw [List.countP_cons_of_neg _ _ (by rw [hq]; exact Bool.false_ne_true)]
          exact hlt
        | true =>
          rw [List.countP_cons_of_pos _ _ hq]
          omega
      | true =>
        rw [List.countP_cons_of_pos _ _ hp,
          List.countP_cons_of_pos _ _ (h a (List.mem_cons_self a rest) hp)]
        omega

theorem saturation_scan_mono {E : EncImpl} {fns : Model}
    {F : Nat → (SVal → Bool) → SVal → Bool} :
    ∀ {l : List Nat} {R R' : SVal → Bool},
    saturation_scan E fns F l R = some R' →
    ∀ v, R v = true → R' v = true := by
  intro l
  induction l with
  | nil => intro R R' h; cases h
  | cons var rest ih =>
    intro R R' h v hv
    unfold saturation_scan at h
    by_cases himp : imp_is_true E fns (F var R) R = true
    · rw [if_pos himp] at h
      exact ih h v hv
    · rw [if_neg himp] at h
      have := Option.some.inj h
      rw [← this]
      simp only []
      rw [hv, Bool.true_or]

theorem saturation_scan_none {E : EncImpl} {fns : Model}
    {F : Nat → (SVal → Bool) → SVal → Bool} :
    ∀ {l : List Nat} {R : SVal → Bool},
    saturation_scan E fns F l R = none →
    ∀ var ∈ l, imp_is_true E fns (F var R) R = true := by
  intro l
  induction l with
  | nil => intro R _ var hv; cases hv
  | cons w rest ih =>
    intro R h var hvar
    unfold saturation_scan at h
    by_cases himp : imp_is_true E fns (F w R) R = true
    · rw [if_pos himp] at h
      rcases List.mem_cons.mp hvar with hv | hv
      · rw [hv]; exact himp
      · exact ih h var hv
    · rw [if_neg himp] at h
      cases h

theorem saturation_scan_progress {E : EncImpl} {fns : Model}
    {F : Nat → (SVal → Bool) → SVal → Bool} :
    ∀ {l : List Nat} {R R' : SVal → Bool},
    saturation_scan E fns F l R = some R' →
    cardSV E fns R < cardSV E fns R' := by
  intro l
  induction l with
  | nil => intro R R' h; cases h
  | cons var rest ih =>
    intro R R' h
    unfold saturation_scan at h
    by_cases himp : imp_is_true E fns (F var R) R = true
    · rw [if_pos himp] at h
      exact ih h
    · rw [if_neg himp] at h
      have hR' := Option.some.inj h
      rw [Bool.not_eq_true] at himp
      unfold imp_is_true at himp
      rw [List.all_eq_false] at himp
      obtain ⟨x, hxmem, hx⟩ := himp
      simp only [Bool.or_eq_true, Bool.not_eq_true', not_or,
        Bool.not_eq_false, Bool.not_eq_true] at hx
      obtain ⟨hFx, hRx⟩ := hx
      rw [← hR']
      unfold cardSV
      refine countP_lt_of_witness ?_ hxmem ?_ hRx
      · intro a _ ha
        rw [ha, Bool.true_or]
      · rw [hRx, hFx]
        rfl

theorem saturate_mono {E : EncImpl} {fns : Model}
    {F : Nat → (SVal → Bool) → SVal → Bool} :
    ∀ (fuel : Nat) (R : SVal → Bool) (v : SVal),
    R v = true → saturate E fns F fuel R v = true := by
  intro fuel
  induction fuel with
  | zero => intro R v hv; exact hv
  | succ n ih =>
    intro R v hv
    unfold saturate
    cases hscan : saturation_scan E fns F (List.range fns.length).reverse R with
    | none => exact hv
    | some next => exact ih next v (saturation_scan_mono hscan v hv)

theorem saturate_fix {E : EncImpl} {fns : Model}
    {F : Nat → (SVal → Bool) → SVal → Bool} :
    ∀ (fuel : Nat) (R : SVal → Bool),
    (allSVals ((sys_maxes fns).map (fun m => E.width m))).length <
      cardSV E fns R + fuel →
    saturation_scan E fns F (List.range fns.length).reverse
      (saturate E fns F fuel R) = none := by
  intro fuel
  induction fuel with
  | zero =>
    intro R hlt
    have hle : cardSV E fns R ≤
        (allSVals ((sys_maxes fns).map (fun m => E.width m))).length :=
      List.countP_le_length R
    exfalso
    omega
  | succ n ih =>
    intro R hlt
    unfold saturate
    cases hscan : saturation_scan E fns F (List.range fns.length).reverse R with
    | none => exact hscan
    | some next =>
      have hprog := saturation_scan_progress hscan
      exact ih next (by omega)

/-- C3: the set returned by `reach_fwd` contains the initial set and is a
fixed point of every per-variable successor operator (and symmetrically
for `reach_bwd` with predecessors), for any fuel beyond the size of the
valuation space (where the source's unbounded loop has terminated). -/
theorem c3_reach_fixpoint (E : EncImpl) (fns : Model)
    (initial univ : SVal → Bool) {fuel : Nat}
    (hfuel : (allSVals ((sys_maxes fns).map (fun m => E.width m))).length <
      fuel) :
    (∀ v, initial v = true → reach_fwd E fns fuel initial univ v = true) ∧
    (∀ var, var < fns.length →
      imp_is_true E fns
        (transition_under_variable E fns var
          (reach_fwd E fns fuel initial univ))
        (reach_fwd E fns fuel initial univ) = true) ∧
    (∀ v, initial v = true → reach_bwd E fns fuel initial univ v = true) ∧
    (∀ var, var < fns.length →
      imp_is_true E fns
        (predecessors_under_variable E fns var
          (reach_bwd E fns fuel initial univ))
        (reach_bwd E fns fuel initial univ) = true) := by
  refine ⟨?_, ?_, ?_, ?_⟩
  · intro v hv
    exact saturate_mono fuel initial v hv
  · intro var hvar
    have hterm := @saturate_fix E fns (transition_under_variable E fns) fuel
      initial (by omega)
    exact saturation_scan_none hterm var
      (by rw [List.mem_reverse, List.mem_range]; exact hvar)
  · intro v hv
    exact saturate_mono fuel initial v hv
  · intro var hvar
    have hterm := @saturate_fix E fns (predecessors_under_variable E fns) fuel
      initial (by omega)
    exact saturation_scan_none hterm var
      (by rw [List.mem_reverse, List.mem_range]; exact hvar)

/-- Witness for C3 on the constant model, from the empty initial set. -/
theorem c3_reach_fixpoint_witness :
    (allSVals ((sys_maxes c4model).map (fun m => unaryEnc.width m))).length <
      5 ∧
    (∀ v, (fun _ : SVal => false) v = true →
      reach_fwd unaryEnc c4model 5 (fun _ => false) (fun _ => true) v =
        true) :=
  ⟨by decide,
    (c3_reach_fixpoint unaryEnc c4model (fun _ => false) (fun _ => true)
      (by decide)).1⟩

/- ----------------------------------------------------------------------
C1: cross-encoding equivalence (test_utils.rs).  The abstract state space
and its enumeration; the counting bridge from symbolic cardinalities to
abstract state counts.
----------------------------------------------------------------------- -/

/-- All abstract states of the given per-variable domains. -/
def allAbStates : List Nat → List AbState
  | [] => [[]]
  | m :: ms => (List.range (m + 1)).flatMap (fun val =>
      (allAbStates ms).map (fun t => val :: t))

theorem mem_allAbStates : ∀ {maxes : List Nat} {t : AbState},
    t ∈ allAbStates maxes ↔
      (t.length = maxes.length ∧
        ∀ i, i < maxes.length → t.getD i 0 ≤ maxes.getD i 0) := by
  intro maxes
  induction maxes with
  | nil =>
    intro t
    constructor
    · intro h
      have ht : t = [] := List.mem_singleton.mp h
      subst ht
      exact ⟨rfl, fun i hi => absurd hi (Nat.not_lt_zero i)⟩
    · intro h
      have ht : t = [] := List.length_eq_zero.mp h.1
      subst ht
      exact List.mem_singleton.mpr rfl
  | cons m ms ih =>
    intro t
    simp only [allAbStates, List.mem_flatMap, List.mem_map, List.mem_range]
    constructor
    · rintro ⟨val, hval, t', ht', rfl⟩
      have hih := ih.mp ht'
      refine ⟨by simp [hih.1], ?_⟩
      intro i hi
      cases i with
      | zero =>
        simpa using Nat.lt_succ_iff.mp hval
      | succ j =>
        simp only [List.getD_cons_succ]
        exact hih.2 j (by simpa using hi)
    · rintro ⟨hl, hb⟩
      cases t with
      | nil => simp at hl
      | cons v t' =>
        refine ⟨v, ?_, t', ?_, rfl⟩
        · have := hb 0 (by simp)
          simp only [List.getD_cons_zero] at this
          simpa using Nat.lt_succ_of_le this
        · apply ih.mpr
          refine ⟨by simpa using hl, ?_⟩
          intro j hj
          have := hb (j + 1) (by simpa using hj)
          simpa using this

theorem mem_allPairs {w : Nat} {p : Block × Block} :
    p ∈ allPairs w ↔ p.1.length = w ∧ p.2.length = w := by
  unfold allPairs
  simp only [List.mem_flatMap, List.mem_map]
  constructor
  · rintro ⟨a, ha, b, hb, rfl⟩
    exact ⟨mem_allBlocks.mp ha, mem_allBlocks.mp hb⟩
  · intro h
    exact ⟨p.1, mem_allBlocks.mpr h.1, p.2, mem_allBlocks.mpr h.2, rfl⟩

theorem mem_allSVals : ∀ {ws : List Nat} {v : SVal},
    v ∈ allSVals ws ↔ (v.length = ws.length ∧ ∀ i, i < ws.length →
      (v.getD i ([], [])).1.length = ws.getD i 0 ∧
      (v.getD i ([], [])).2.length = ws.getD i 0) := by
  intro ws
  induction ws with
  | nil =>
    intro v
    constructor
    · intro h
      have hv : v = [] := List.mem_singleton.mp h
      subst hv
      exact ⟨rfl, fun i hi => absurd hi (Nat.not_lt_zero i)⟩
    · intro h
      have hv : v = [] := List.length_eq_zero.mp h.1
      subst hv
      exact List.mem_singleton.mpr rfl
  | cons w ws' ih =>
    intro v
    simp only [allSVals, List.mem_flatMap, List.mem_map]
    constructor
    · rintro ⟨p, hp, v', hv', rfl⟩
      obtain ⟨hp1, hp2⟩ := mem_allPairs.mp hp
      have hih := ih.mp hv'
      refine ⟨by simp [hih.1], ?_⟩
      intro i hi
      cases i with
      | zero => exact ⟨hp1, hp2⟩
      | succ j =>
        simp only [List.getD_cons_succ]
        exact hih.2 j (by simpa using hi)
    · rintro ⟨hl, hb⟩
      cases v with
      | nil => simp at hl
      | cons p v' =>
        refine ⟨p, mem_allPairs.mpr (hb 0 (by simp)), v', ?_, rfl⟩
        apply ih.mpr
        refine ⟨by simpa using hl, ?_⟩
        intro j hj
        have := hb (j + 1) (by simpa using hj)
        simpa using this

theorem shaped_of_mem_allSVals {E : EncImpl} {maxes : List Nat} {v : SVal}
    (h : v ∈ allSVals (maxes.map (fun m => E.width m))) :
    shapedS E maxes v := by
  rw [mem_allSVals] at h
  obtain ⟨hl, hb⟩ := h
  refine ⟨by simpa using hl, ?_⟩
  intro i hi
  have hlen : i < (maxes.map (fun m => E.width m)).length := by simpa using hi
  have := hb i hlen
  rw [getD_map_of_lt (fun m => E.width m) maxes i 0 0 hi] at this
  exact this

theorem countP_congr_of {α : Type} {l : List α} {p q : α → Bool}
    (h : ∀ a ∈ l, p a = q a) : l.countP p = l.countP q :=
  Nat.le_antisymm
    (countP_mono_of (fun a ha hp => by rw [← h a ha]; exact hp))
    (countP_mono_of (fun a ha hq => by rw [h a ha]; exact hq))

theorem countP_flatMap {α β : Type} (l : List α) (g : α → List β)
    (p : β → Bool) :
    (l.flatMap g).countP p = (l.map (fun a => (g a).countP p)).sum := by
  induction l with
  | nil => rfl
  | cons a rest ih =>
    simp only [List.flatMap_cons, List.countP_append, List.map_cons,
      List.sum_cons, ih]

theorem sum_map_mul_left_of {α : Type} (l : List α) (c : Nat) (f : α → Nat) :
    (l.map (fun a => c * f a)).sum = c * (l.map f).sum := by
  induction l with
  | nil => simp
  | cons a rest ih =>
    simp only [List.map_cons, List.sum_cons, ih, Nat.mul_add]

theorem sum_map_const_of {α : Type} (l : List α) (c : Nat) :
    (l.map (fun _ => c)).sum = l.length * c := by
  induction l with
  | nil => simp
  | cons a rest ih =>
    simp only [List.map_cons, List.sum_cons, ih, List.length_cons]
    ring

theorem sum_map_flatMap {α β : Type} (l : List α) (g : α → List β)
    (f : β → Nat) :
    ((l.flatMap g).map f).sum = (l.map (fun a => ((g a).map f).sum)).sum := by
  induction l with
  | nil => rfl
  | cons a rest ih =>
    simp only [List.flatMap_cons, List.map_append, List.sum_append,
      List.map_cons, List.sum_cons, ih]

theorem sum_allPairs_fst (w : Nat) (f : Block → Nat) :
    ((allPairs w).map (fun p => f p.1)).sum =
      2 ^ w * ((allBlocks w).map f).sum := by
  unfold allPairs
  rw [sum_map_flatMap]
  have hinner : ∀ a ∈ allBlocks w,
      (((allBlocks w).map (fun b => (a, b))).map
        (fun p : Block × Block => f p.1)).sum = 2 ^ w * f a := by
    intro a _
    rw [List.map_map]
    have hc : ((fun p : Block × Block => f p.1) ∘ (fun b => (a, b))) =
        (fun _ => f a) := rfl
    rw [hc, sum_map_const_of, length_allBlocks]
  rw [List.map_congr_left hinner]
  rw [sum_map_mul_left_of (allBlocks w) (2 ^ w) f]

theorem filter_valid_perm {E : EncImpl} (hE : GoodEnc E) (m : Nat) :
    ((allBlocks (E.width m)).filter (fun bs => E.validB m bs)).Perm
      ((List.range (m + 1)).map (E.enc m)) := by
  refine (List.perm_ext_iff_of_nodup ?_ ?_).mpr ?_
  · exact (nodup_allBlocks _).filter _
  · apply List.Nodup.map_on _ (List.nodup_range _)
    intro x hx y hy hxy
    rw [List.mem_range] at hx hy
    have hd := hE.dec_enc m x (by omega)
    rw [hxy, hE.dec_enc m y (by omega)] at hd
    omega
  · intro bs
    rw [List.mem_filter, mem_allBlocks, List.mem_map]
    constructor
    · rintro ⟨hlen, hval⟩
      refine ⟨E.dec m bs, ?_, hE.enc_dec m bs hlen hval⟩
      rw [List.mem_range]
      exact Nat.lt_succ_of_le (hE.dec_le m bs hlen hval)
    · rintro ⟨val, hvm, rfl⟩
      rw [List.mem_range] at hvm
      exact ⟨hE.enc_len m val (by omega), hE.enc_valid m val (by omega)⟩

theorem sum_map_if {α : Type} (l : List α) (q : α → Bool) (f : α → Nat) :
    (l.map (fun a => if q a then f a else 0)).sum =
      ((l.filter q).map f).sum := by
  induction l with
  | nil => rfl
  | cons a rest ih =>
    simp only [List.map_cons, List.sum_cons, List.filter_cons]
    cases hq : q a
    · simpa using ih
    · simpa using ih

theorem sum_blocks_to_range {E : EncImpl} (hE : GoodEnc E) (m : Nat)
    (G : Nat → Nat) :
    ((allBlocks (E.width m)).map
      (fun bs => if E.validB m bs then G (E.dec m bs) else 0)).sum =
    ((List.range (m + 1)).map G).sum := by
  rw [sum_map_if]
  have hperm := (filter_valid_perm hE m).map (fun bs => G (E.dec m bs))
  rw [hperm.sum_eq, List.map_map]
  congr 1
  apply List.map_congr_left
  intro val hval
  rw [List.mem_range] at hval
  show G (E.dec m (E.enc m val)) = G val
  rw [hE.dec_enc m val (by omega)]

theorem uval_ok_cons {E : EncImpl} (m : Nat) (ms : List Nat) (a : Block)
    (u : UVal) :
    uval_ok E (m :: ms) (a :: u) =
      (((a.length == E.width m) && E.validB m a) && uval_ok E ms u) := by
  cases hL : uval_ok E (m :: ms) (a :: u) with
  | true =>
    have hlen := uval_ok_length hL
    have h0 := uval_ok_spec hL 0 (by simp)
    simp only [List.getD_cons_zero] at h0
    symm
    rw [show ((a.length == E.width m) : Bool) = true from by simp [h0.1], h0.2]
    simp only [Bool.true_and]
    apply uval_ok_intro (by simpa using hlen)
    intro i hi
    have := uval_ok_spec hL (i + 1) (by simpa using hi)
    simpa using this
  | false =>
    symm
    cases hR : (((a.length == E.width m) && E.validB m a) &&
        uval_ok E ms u) with
    | false => rfl
    | true =>
      simp only [Bool.and_eq_true, beq_iff_eq] at hR
      obtain ⟨⟨hal, hav⟩, hu⟩ := hR
      have hok : uval_ok E (m :: ms) (a :: u) = true := by
        apply uval_ok_intro (by simp [uval_ok_length hu])
        intro i hi
        cases i with
        | zero =>
          simp only [List.getD_cons_zero]
          exact ⟨hal, hav⟩
        | succ j =>
          have := uval_ok_spec hu j (by simpa using hi)
          simpa using this
      exact Bool.noConfusion (hok.symm.trans hL)

theorem decodeU_cons {E : EncImpl} (m : Nat) (ms : List Nat) (a : Block)
    (u : UVal) :
    decodeU E (m :: ms) (a :: u) = E.dec m a :: decodeU E ms u := by
  unfold decodeU
  simp only [List.length_cons, List.range_succ_eq_map, List.map_cons,
    List.map_map, List.getD_cons_zero]
  congr 1

/-- The product structure of standard sets: each valid abstract state is
encoded by exactly one tuple of valid unprimed blocks, with the primed
blocks free. -/
theorem countP_std_core {E : EncImpl} (hE : GoodEnc E) :
    ∀ (maxes : List Nat) (A : AbState → Bool),
    (allSVals (maxes.map E.width)).countP
      (fun v => uval_ok E maxes (uOf v) && A (decodeU E maxes (uOf v))) =
    2 ^ ((maxes.map E.width).sum) * (allAbStates maxes).countP A := by
  intro maxes
  induction maxes with
  | nil =>
    intro A
    rw [show ([] : List Nat).map E.width = [] from rfl]
    rw [show allSVals [] = [[]] from rfl, show allAbStates [] = [[]] from rfl]
    rw [List.countP_cons, List.countP_cons, List.countP_nil]
    have h1 : (uval_ok E [] (uOf ([] : SVal)) &&
        A (decodeU E [] (uOf ([] : SVal)))) = A [] := rfl
    rw [h1]
    simp
  | cons m ms ih =>
    intro A
    simp only [List.map_cons, List.sum_cons]
    rw [show allSVals (E.width m :: ms.map E.width) =
      (allPairs (E.width m)).flatMap (fun p =>
        (allSVals (ms.map E.width)).map (fun v => p :: v)) from rfl]
    rw [countP_flatMap]
    have hinner : ∀ p ∈ allPairs (E.width m),
        ((allSVals (ms.map E.width)).map (fun v => p :: v)).countP
          (fun v => uval_ok E (m :: ms) (uOf v) &&
            A (decodeU E (m :: ms) (uOf v))) =
        (if E.validB m p.1 then
          2 ^ ((ms.map E.width).sum) *
            (allAbStates ms).countP (fun t => A (E.dec m p.1 :: t))
         else 0) := by
      intro p hp
      have hp1 : p.1.length = E.width m := (mem_allPairs.mp hp).1
      rw [List.countP_map]
      have hcong : ∀ v' ∈ allSVals (ms.map E.width),
          ((fun v => uval_ok E (m :: ms) (uOf v) &&
            A (decodeU E (m :: ms) (uOf v))) ∘ (fun v => p :: v)) v' =
          (E.validB m p.1 && (uval_ok E ms (uOf v') &&
            A (E.dec m p.1 :: decodeU E ms (uOf v')))) := by
        intro v' _
        show (uval_ok E (m :: ms) (uOf (p :: v')) &&
          A (decodeU E (m :: ms) (uOf (p :: v')))) = _
        rw [show uOf (p :: v') = p.1 :: uOf v' from rfl]
        rw [uval_ok_cons, decodeU_cons]
        rw [show ((p.1.length == E.width m) : Bool) = true from by simp [hp1]]
        rw [Bool.true_and, Bool.and_assoc]
      rw [countP_congr_of hcong]
      cases hv : E.validB m p.1 with
      | false =>
        refine Eq.trans (countP_congr_of (fun v' hv' => Bool.false_and _)) ?_
        rw [List.countP_false]
        rfl
      | true =>
        refine Eq.trans (countP_congr_of (fun v' hv' => Bool.true_and _)) ?_
        rw [ih (fun t => A (E.dec m p.1 :: t))]
        rw [if_pos rfl]
    rw [List.map_congr_left hinner]
    refine Eq.trans (sum_allPairs_fst (E.width m) (fun a =>
      if E.validB m a then 2 ^ ((ms.map E.width).sum) *
        (allAbStates ms).countP (fun t => A (E.dec m a :: t)) else 0)) ?_
    have hb : ((allBlocks (E.width m)).map (fun a =>
        if E.validB m a then 2 ^ ((ms.map E.width).sum) *
          (allAbStates ms).countP (fun t => A (E.dec m a :: t)) else 0)).sum =
        ((List.range (m + 1)).map (fun val =>
          2 ^ ((ms.map E.width).sum) *
            (allAbStates ms).countP (fun t => A (val :: t)))).sum :=
      sum_blocks_to_range hE m (fun val => 2 ^ ((ms.map E.width).sum) *
        (allAbStates ms).countP (fun t => A (val :: t)))
    rw [hb]
    rw [show allAbStates (m :: ms) = (List.range (m + 1)).flatMap (fun val =>
      (allAbStates ms).map (fun t => val :: t)) from rfl]
    rw [countP_flatMap]
    have hcnt : ∀ val ∈ List.range (m + 1),
        ((allAbStates ms).map (fun t => val :: t)).countP A =
          (allAbStates ms).countP (fun t => A (val :: t)) := by
      intro val _
      rw [List.countP_map]
      rfl
    rw [List.map_congr_left hcnt]
    rw [sum_map_mul_left_of (List.range (m + 1)) (2 ^ ((ms.map E.width).sum))
      (fun val => (allAbStates ms).countP (fun t => A (val :: t)))]
    rw [pow_add]
    ring

theorem cardinality_std {E : EncImpl} (hE : GoodEnc E) {fns : Model}
    {A : AbState → Bool} {S : SVal → Bool} (hstd : stdSet E fns A S) :
    cardinality E fns S =
      2 ^ primed_bits E fns * (allAbStates (sys_maxes fns)).countP A := by
  unfold cardinality
  have hc : ∀ v ∈ allSVals ((sys_maxes fns).map (fun m => E.width m)),
      S v = (uval_ok E (sys_maxes fns) (uOf v) &&
        A (decodeU E (sys_maxes fns) (uOf v))) :=
    fun v hv => hstd v (shaped_of_mem_allSVals hv)
  rw [countP_congr_of hc]
  exact countP_std_core hE (sys_maxes fns) A

/-- `count_states_exact` of a standard set is the number of abstract states
in its abstract set — independent of the encoding. -/
theorem count_states_exact_std {E : EncImpl} (hE : GoodEnc E) {fns : Model}
    {A : AbState → Bool} {S : SVal → Bool} (hstd : stdSet E fns A S) :
    count_states_exact E fns S = (allAbStates (sys_maxes fns)).countP A := by
  unfold count_states_exact
  rw [Nat.shiftRight_eq_div_pow]
  have h2 : num_vars E fns / 2 = primed_bits E fns := by
    rw [num_vars_eq]
    omega
  rw [h2, cardinality_std hE hstd]
  exact Nat.mul_div_cancel_left _ (pow_pos (by omega) _)

theorem getD_zip {α β : Type} (l1 : List α) (l2 : List β) (i : Nat)
    (d1 : α) (d2 : β) (h : i < (l1.zip l2).length) :
    (l1.zip l2).getD i (d1, d2) = (l1.getD i d1, l2.getD i d2) := by
  have h1 : i < l1.length := by
    rw [List.length_zip] at h
    omega
  have h2 : i < l2.length := by
    rw [List.length_zip] at h
    omega
  rw [List.getD_eq_getElem _ _ h, List.getD_eq_getElem _ _ h1,
    List.getD_eq_getElem _ _ h2]
  exact List.getElem_zip

/-- The canonical valuation of an abstract state: each variable's unprimed
and primed block is the encoding of its value. -/
def encSVal (E : EncImpl) (maxes : List Nat) (t : AbState) : SVal :=
  (maxes.zip t).map (fun p => (E.enc p.1 p.2, E.enc p.1 p.2))

theorem encSVal_spec {E : EncImpl} (hE : GoodEnc E) {maxes : List Nat}
    {t : AbState} (hlen : t.length = maxes.length)
    (hbound : ∀ i, i < maxes.length → t.getD i 0 ≤ maxes.getD i 0) :
    encSVal E maxes t ∈ allSVals (maxes.map (fun m => E.width m)) ∧
    uval_ok E maxes (uOf (encSVal E maxes t)) = true ∧
    decodeU E maxes (uOf (encSVal E maxes t)) = t := by
  have hlz : (maxes.zip t).length = maxes.length := by
    rw [List.length_zip]
    omega
  have hlenc : (encSVal E maxes t).length = maxes.length := by
    simp [encSVal, hlz]
  have hgetD : ∀ i, i < maxes.length →
      (encSVal E maxes t).getD i ([], []) =
        (E.enc (maxes.getD i 0) (t.getD i 0),
         E.enc (maxes.getD i 0) (t.getD i 0)) := by
    intro i hi
    unfold encSVal
    rw [getD_map_of_lt _ _ i (0, 0) ([], []) (by omega)]
    rw [getD_zip maxes t i 0 0 (by omega)]
  have hwidth : ∀ i, i < maxes.length →
      (E.enc (maxes.getD i 0) (t.getD i 0)).length =
        E.width (maxes.getD i 0) :=
    fun i hi => hE.enc_len _ _ (hbound i hi)
  refine ⟨?_, ?_, ?_⟩
  · apply mem_allSVals.mpr
    refine ⟨by simpa using hlenc, ?_⟩
    intro i hi
    have hi' : i < maxes.length := by simpa using hi
    rw [hgetD i hi', getD_map_of_lt (fun m => E.width m) maxes i 0 0 hi']
    exact ⟨hwidth i hi', hwidth i hi'⟩
  · apply uval_ok_intro
    · rw [length_uOf]
      omega
    · intro i hi
      rw [getD_uOf, hgetD i hi]
      exact ⟨hwidth i hi, hE.enc_valid _ _ (hbound i hi)⟩
  · apply List.ext_getElem
    · rw [length_decodeU]
      omega
    · intro i hi hi'
      have him : i < maxes.length := by
        rw [length_decodeU] at hi
        exact hi
      rw [← List.getD_eq_getElem _ 0 hi, ← List.getD_eq_getElem _ 0 hi']
      rw [decodeU_getD him, getD_uOf, hgetD i him]
      exact hE.dec_enc _ _ (hbound i him)

/-- The abstract subset test over valid abstract states. -/
def abs_subset (fns : Model) (B A : AbState → Bool) : Bool :=
  (allAbStates (sys_maxes fns)).all (fun t => !(B t) || A t)

/-- Membership in the valid abstract state space, for decoded valid
valuations. -/
theorem decodeU_mem_allAbStates {E : EncImpl} (hE : GoodEnc E)
    {maxes : List Nat} {u : UVal} (hok : uval_ok E maxes u = true) :
    decodeU E maxes u ∈ allAbStates maxes := by
  apply mem_allAbStates.mpr
  refine ⟨length_decodeU E maxes u, ?_⟩
  intro i hi
  rw [decodeU_getD hi]
  exact hE.dec_le _ _ (uval_ok_spec hok i hi).1 (uval_ok_spec hok i hi).2

/-- On standard sets, the symbolic implication test decides exactly the
abstract inclusion. -/
theorem imp_std_eq {E : EncImpl} (hE : GoodEnc E) {fns : Model}
    {A B : AbState → Bool} {S T : SVal → Bool}
    (hstdB : stdSet E fns B S) (hstdA : stdSet E fns A T) :
    imp_is_true E fns S T = abs_subset fns B A := by
  cases hr : abs_subset fns B A with
  | true =>
    unfold imp_is_true
    rw [List.all_eq_true]
    intro v hv
    have hsh := shaped_of_mem_allSVals hv
    rw [hstdB v hsh, hstdA v hsh]
    cases huv : uval_ok E (sys_maxes fns) (uOf v) with
    | false => rfl
    | true =>
      have htmem := decodeU_mem_allAbStates hE huv
      unfold abs_subset at hr
      rw [List.all_eq_true] at hr
      have := hr _ htmem
      simp only [Bool.true_and]
      simpa using this
  | false =>
    unfold abs_subset at hr
    rw [List.all_eq_false] at hr
    obtain ⟨t, htmem, ht⟩ := hr
    simp only [Bool.or_eq_true, Bool.not_eq_true', not_or,
      Bool.not_eq_false, Bool.not_eq_true] at ht
    obtain ⟨hBt, hAt⟩ := ht
    obtain ⟨htl, htb⟩ := mem_allAbStates.mp htmem
    obtain ⟨hmem, hok, hdec⟩ := encSVal_spec hE htl htb
    unfold imp_is_true
    rw [List.all_eq_false]
    refine ⟨encSVal E (sys_maxes fns) t, hmem, ?_⟩
    have hsh := shaped_of_mem_allSVals hmem
    rw [hstdB _ hsh, hstdA _ hsh, hok, hdec, hBt, hAt]
    simp

theorem or_merge (x a b : Bool) : ((x && a) || (x && b)) = (x && (a || b)) := by
  cases x <;> cases a <;> cases b <;> rfl

theorem stdSet_union {E : EncImpl} {fns : Model} {A B : AbState → Bool}
    {S S' : SVal → Bool} (hA : stdSet E fns A S) (hB : stdSet E fns B S') :
    stdSet E fns (fun t => A t || B t) (fun v => S v || S' v) := by
  intro v hsh
  simp only []
  rw [hA v hsh, hB v hsh]
  exact or_merge _ _ _

/-- One pass of the `for var in sorted_variables.iter().rev()` loop of
`fwd_step`/`bwd_step` (test_utils.rs): the image under the first
progressing variable or-ed onto the set, `None` when no variable
progresses. -/
def step_scan (E : EncImpl) (fns : Model)
    (F : Nat → (SVal → Bool) → SVal → Bool) :
    List Nat → (SVal → Bool) → Option (SVal → Bool)
  | [], _ => none
  | var :: rest, set =>
    if imp_is_true E fns (F var set) set then step_scan E fns F rest set
    else some (fun v => F var set v || set v)

/-- `fwd_step` (test_utils.rs). -/
def fwd_step (E : EncImpl) (fns : Model) (set : SVal → Bool) :
    Option (SVal → Bool) :=
  step_scan E fns (successors_async E fns) (List.range fns.length).reverse set

/-- `bwd_step` (test_utils.rs). -/
def bwd_step (E : EncImpl) (fns : Model) (set : SVal → Bool) :
    Option (SVal → Bool) :=
  step_scan E fns (predecessors_async E fns) (List.range fns.length).reverse
    set

/-- The abstract mirror of `step_scan`. -/
def abs_scan (fns : Model) (G : Nat → (AbState → Bool) → AbState → Bool) :
    List Nat → (AbState → Bool) → Option (AbState → Bool)
  | [], _ => none
  | var :: rest, A =>
    if abs_subset fns (G var A) A then abs_scan fns G rest A
    else some (fun t => G var A t || A t)

/-- Correspondence between an abstract option set and a symbolic one. -/
def optStd (E : EncImpl) (fns : Model) :
    Option (AbState → Bool) → Option (SVal → Bool) → Prop
  | none, none => True
  | some A, some S => stdSet E fns A S
  | _, _ => False

theorem step_scan_correspond {E : EncImpl} (hE : GoodEnc E) {fns : Model}
    {G : Nat → (AbState → Bool) → AbState → Bool}
    {F : Nat → (SVal → Bool) → SVal → Bool}
    (hGF : ∀ var, var < fns.length →
      ∀ (A : AbState → Bool) (S : SVal → Bool),
      stdSet E fns A S → stdSet E fns (G var A) (F var S)) :
    ∀ (l : List Nat), (∀ var ∈ l, var < fns.length) →
    ∀ (A : AbState → Bool) (S : SVal → Bool), stdSet E fns A S →
    optStd E fns (abs_scan fns G l A) (step_scan E fns F l S) := by
  intro l
  induction l with
  | nil => intro _ A S _; exact trivial
  | cons var rest ih =>
    intro hbnd A S hstd
    have hvar : var < fns.length := hbnd var (List.mem_cons_self var rest)
    have hFstd := hGF var hvar A S hstd
    have himp := imp_std_eq hE hFstd hstd
    simp only [step_scan, abs_scan]
    rw [himp]
    cases habs : abs_subset fns (G var A) A with
    | true =>
      rw [if_pos rfl, if_pos rfl]
      exact ih (fun v hv => hbnd v (List.mem_cons_of_mem var hv)) A S hstd
    | false =>
      rw [if_neg Bool.false_ne_true, if_neg Bool.false_ne_true]
      exact stdSet_union hFstd hstd

/-- Iterated `perform_fwd_step`/`perform_bwd_step`, with `None` absorbing
(once no step makes progress the result stays `None`, as in
`check_consistency`'s option counts). -/
def perform_steps (E : EncImpl) (fns : Model)
    (F : Nat → (SVal → Bool) → SVal → Bool) :
    Nat → Option (SVal → Bool) → Option (SVal → Bool)
  | 0, o => o
  | k + 1, o =>
    match o with
    | none => none
    | some set =>
      perform_steps E fns F k
        (step_scan E fns F (List.range fns.length).reverse set)

/-- The abstract mirror of `perform_steps`. -/
def abs_steps (fns : Model) (G : Nat → (AbState → Bool) → AbState → Bool) :
    Nat → Option (AbState → Bool) → Option (AbState → Bool)
  | 0, o => o
  | k + 1, o =>
    match o with
    | none => none
    | some A => abs_steps fns G k (abs_scan fns G (List.range fns.length).reverse A)

theorem perform_steps_correspond {E : EncImpl} (hE : GoodEnc E) {fns : Model}
    {G : Nat → (AbState → Bool) → AbState → Bool}
    {F : Nat → (SVal → Bool) → SVal → Bool}
    (hGF : ∀ var, var < fns.length →
      ∀ (A : AbState → Bool) (S : SVal → Bool),
      stdSet E fns A S → stdSet E fns (G var A) (F var S)) :
    ∀ (k : Nat) (oA : Option (AbState → Bool)) (oS : Option (SVal → Bool)),
    optStd E fns oA oS →
    optStd E fns (abs_steps fns G k oA) (perform_steps E fns F k oS) := by
  intro k
  induction k with
  | zero => intro oA oS h; exact h
  | succ n ih =>
    intro oA oS h
    cases oA with
    | none =>
      cases oS with
      | none => exact trivial
      | some S => exact h.elim
    | some A =>
      cases oS with
      | none => exact h.elim
      | some S =>
        exact ih _ _ (step_scan_correspond hE hGF
          (List.range fns.length).reverse
          (fun v hv => by
            rw [List.mem_reverse, List.mem_range] at hv
            exact hv) A S h)

theorem optStd_counts {E : EncImpl} (hE : GoodEnc E) {fns : Model}
    {oA : Option (AbState → Bool)} {oS : Option (SVal → Bool)}
    (h : optStd E fns oA oS) :
    oS.map (count_states_exact E fns) =
      oA.map (fun A => (allAbStates (sys_maxes fns)).countP A) := by
  cases oA with
  | none =>
    cases oS with
    | none => rfl
    | some S => exact h.elim
  | some A =>
    cases oS with
    | none => exact h.elim
    | some S => exact congrArg some (count_states_exact_std hE h)

/-- The abstract mirror of `saturation_scan` (reach loops). -/
def abs_saturation_scan (fns : Model)
    (G : Nat → (AbState → Bool) → AbState → Bool) :
    List Nat → (AbState → Bool) → Option (AbState → Bool)
  | [], _ => none
  | var :: rest, A =>
    if abs_subset fns (G var A) A then abs_saturation_scan fns G rest A
    else some (fun t => A t || G var A t)

theorem saturation_scan_correspond {E : EncImpl} (hE : GoodEnc E)
    {fns : Model} {G : Nat → (AbState → Bool) → AbState → Bool}
    {F : Nat → (SVal → Bool) → SVal → Bool}
    (hGF : ∀ var, var < fns.length →
      ∀ (A : AbState → Bool) (S : SVal → Bool),
      stdSet E fns A S → stdSet E fns (G var A) (F var S)) :
    ∀ (l : List Nat), (∀ var ∈ l, var < fns.length) →
    ∀ (A : AbState → Bool) (S : SVal → Bool), stdSet E fns A S →
    optStd E fns (abs_saturation_scan fns G l A)
      (saturation_scan E fns F l S) := by
  intro l
  induction l with
  | nil => intro _ A S _; exact trivial
  | cons var rest ih =>
    intro hbnd A S hstd
    have hvar : var < fns.length := hbnd var (List.mem_cons_self var rest)
    have hFstd := hGF var hvar A S hstd
    have himp := imp_std_eq hE hFstd hstd
    simp only [saturation_scan, abs_saturation_scan]
    rw [himp]
    cases habs : abs_subset fns (G var A) A with
    | true =>
      rw [if_pos rfl, if_pos rfl]
      exact ih (fun v hv => hbnd v (List.mem_cons_of_mem var hv)) A S hstd
    | false =>
      rw [if_neg Bool.false_ne_true, if_neg Bool.false_ne_true]
      exact stdSet_union hstd hFstd

/-- The abstract mirror of `saturate` (reach loops). -/
def abs_saturate (fns : Model)
    (G : Nat → (AbState → Bool) → AbState → Bool) :
    Nat → (AbState → Bool) → AbState → Bool
  | 0, A => A
  | fuel + 1, A =>
    match abs_saturation_scan fns G (List.range fns.length).reverse A with
    | none => A
    | some next => abs_saturate fns G fuel next

theorem saturate_correspond {E : EncImpl} (hE : GoodEnc E) {fns : Model}
    {G : Nat → (AbState → Bool) → AbState → Bool}
    {F : Nat → (SVal → Bool) → SVal → Bool}
    (hGF : ∀ var, var < fns.length →
      ∀ (A : AbState → Bool) (S : SVal → Bool),
      stdSet E fns A S → stdSet E fns (G var A) (F var S)) :
    ∀ (fuel : Nat) (A : AbState → Bool) (S : SVal → Bool),
    stdSet E fns A S →
    stdSet E fns (abs_saturate fns G fuel A) (saturate E fns F fuel S) := by
  intro fuel
  induction fuel with
  | zero => intro A S h; exact h
  | succ n ih =>
    intro A S hstd
    have hcorr := saturation_scan_correspond hE hGF
      (List.range fns.length).reverse
      (fun v hv => by rw [List.mem_reverse, List.mem_range] at hv; exact hv)
      A S hstd
    unfold saturate abs_saturate
    cases habs : abs_saturation_scan fns G (List.range fns.length).reverse A
      with
    | none =>
      cases hsym : saturation_scan E fns F (List.range fns.length).reverse S
        with
      | none => exact hstd
      | some S2 =>
        rw [habs, hsym] at hcorr
        exact hcorr.elim
    | some A2 =>
      cases hsym : saturation_scan E fns F (List.range fns.length).reverse S
        with
      | none =>
        rw [habs, hsym] at hcorr
        exact hcorr.elim
      | some S2 =>
        rw [habs, hsym] at hcorr
        exact ih A2 S2 hcorr

/-- Abstract forward reachability. -/
def abs_reach_fwd (fns : Model) (fuel : Nat) (A : AbState → Bool) :
    AbState → Bool :=
  abs_saturate fns (absSucc fns) fuel A

/-- Abstract backward reachability. -/
def abs_reach_bwd (fns : Model) (fuel : Nat) (A : AbState → Bool) :
    AbState → Bool :=
  abs_saturate fns (absPred fns) fuel A

theorem reach_fwd_std {E : EncImpl} (hE : GoodEnc E) {fns : Model}
    (hWF : modelWF fns) (fuel : Nat) {A : AbState → Bool} {S : SVal → Bool}
    (hstd : stdSet E fns A S) (univ : SVal → Bool) :
    stdSet E fns (abs_reach_fwd fns fuel A) (reach_fwd E fns fuel S univ) :=
  saturate_correspond hE
    (fun var hvar A' S' h => successors_async_std hE hWF hvar h)
    fuel A S hstd

theorem reach_bwd_std {E : EncImpl} (hE : GoodEnc E) {fns : Model}
    (hWF : modelWF fns) (fuel : Nat) {A : AbState → Bool} {S : SVal → Bool}
    (hstd : stdSet E fns A S) (univ : SVal → Bool) :
    stdSet E fns (abs_reach_bwd fns fuel A) (reach_bwd E fns fuel S univ) :=
  saturate_correspond hE
    (fun var hvar A' S' h => predecessors_async_std hE hWF hvar h)
    fuel A S hstd

/-- One SCC expansion candidate of the benchmark loop:
`reach_fwd(reach_bwd(weak_scc, universe), universe)`. -/
def scc_round (E : EncImpl) (fns : Model) (fuelR : Nat)
    (univS W : SVal → Bool) : SVal → Bool :=
  reach_fwd E fns fuelR (reach_bwd E fns fuelR W univS) univS

/-- The weak-SCC expansion loop of `reachability_benchmark`, bounded by
fuel: expand while the forward-backward closure escapes the current
candidate. -/
def weak_scc_loop (E : EncImpl) (fns : Model) (fuelR : Nat)
    (univS : SVal → Bool) : Nat → (SVal → Bool) → SVal → Bool
  | 0, W => W
  | k + 1, W =>
    if imp_is_true E fns (scc_round E fns fuelR univS W) W then W
    else weak_scc_loop E fns fuelR univS k (scc_round E fns fuelR univS W)

/-- The abstract mirror of `scc_round`. -/
def abs_scc_round (fns : Model) (fuelR : Nat) (A : AbState → Bool) :
    AbState → Bool :=
  abs_reach_fwd fns fuelR (abs_reach_bwd fns fuelR A)

/-- The abstract mirror of `weak_scc_loop`. -/
def abs_weak_scc_loop (fns : Model) (fuelR : Nat) :
    Nat → (AbState → Bool) → AbState → Bool
  | 0, A => A
  | k + 1, A =>
    if abs_subset fns (abs_scc_round fns fuelR A) A then A
    else abs_weak_scc_loop fns fuelR k (abs_scc_round fns fuelR A)

theorem scc_round_std {E : EncImpl} (hE : GoodEnc E) {fns : Model}
    (hWF : modelWF fns) (fuelR : Nat) {A : AbState → Bool} {S : SVal → Bool}
    (hstd : stdSet E fns A S) (univS : SVal → Bool) :
    stdSet E fns (abs_scc_round fns fuelR A) (scc_round E fns fuelR univS S) :=
  reach_fwd_std hE hWF fuelR (reach_bwd_std hE hWF fuelR hstd univS) univS

theorem weak_scc_loop_std {E : EncImpl} (hE : GoodEnc E) {fns : Model}
    (hWF : modelWF fns) (fuelR : Nat) (univS : SVal → Bool) :
    ∀ (k : Nat) {A : AbState → Bool} {W : SVal → Bool},
    stdSet E fns A W →
    stdSet E fns (abs_weak_scc_loop fns fuelR k A)
      (weak_scc_loop E fns fuelR univS k W) := by
  intro k
  induction k with
  | zero => intro A W h; exact h
  | succ n ih =>
    intro A W hstd
    have hround := scc_round_std hE hWF fuelR hstd univS
    have himp := imp_std_eq hE hround hstd
    simp only [weak_scc_loop, abs_weak_scc_loop]
    rw [himp]
    cases habs : abs_subset fns (abs_scc_round fns fuelR A) A with
    | true =>
      rw [if_pos rfl, if_pos rfl]
      exact hstd
    | false =>
      rw [if_neg Bool.false_ne_true, if_neg Bool.false_ne_true]
      exact ih hround

/-- C1: any two good encodings of the same model are equivalent refinements
as observed through `count_states_exact`: starting from standard sets of
the same abstract set (as the shared picked initial state is), the option
state counts agree after every number of `fwd_step`s and of `bwd_step`s
(exactly what `check_consistency` compares), and the weak-SCC expansion
loop yields sets with equal exact counts at every stage, for any shared
pivot and any universes. -/
theorem c1_encoding_equivalence {E₁ E₂ : EncImpl} (hE₁ : GoodEnc E₁)
    (hE₂ : GoodEnc E₂) {fns : Model} (hWF : modelWF fns)
    {A : AbState → Bool} {S₁ S₂ : SVal → Bool}
    (h₁ : stdSet E₁ fns A S₁) (h₂ : stdSet E₂ fns A S₂) :
    (∀ k : Nat,
      (perform_steps E₁ fns (successors_async E₁ fns) k (some S₁)).map
          (count_states_exact E₁ fns) =
        (perform_steps E₂ fns (successors_async E₂ fns) k (some S₂)).map
          (count_states_exact E₂ fns)) ∧
    (∀ k : Nat,
      (perform_steps E₁ fns (predecessors_async E₁ fns) k (some S₁)).map
          (count_states_exact E₁ fns) =
        (perform_steps E₂ fns (predecessors_async E₂ fns) k (some S₂)).map
          (count_states_exact E₂ fns)) ∧
    (∀ (fuelR k : Nat) (univS₁ univS₂ : SVal → Bool),
      count_states_exact E₁ fns (weak_scc_loop E₁ fns fuelR univS₁ k S₁) =
        count_states_exact E₂ fns (weak_scc_loop E₂ fns fuelR univS₂ k S₂)) := by
  refine ⟨?_, ?_, ?_⟩
  · intro k
    have c₁ := perform_steps_correspond hE₁
      (fun var hv A' S' h => successors_async_std hE₁ hWF hv h)
      k (some A) (some S₁) h₁
    have c₂ := perform_steps_correspond hE₂
      (fun var hv A' S' h => successors_async_std hE₂ hWF hv h)
      k (some A) (some S₂) h₂
    rw [optStd_counts hE₁ c₁, optStd_counts hE₂ c₂]
  · intro k
    have c₁ := perform_steps_correspond hE₁
      (fun var hv A' S' h => predecessors_async_std hE₁ hWF hv h)
      k (some A) (some S₁) h₁
    have c₂ := perform_steps_correspond hE₂
      (fun var hv A' S' h => predecessors_async_std hE₂ hWF hv h)
      k (some A) (some S₂) h₂
    rw [optStd_counts hE₁ c₁, optStd_counts hE₂ c₂]
  · intro fuelR k univS₁ univS₂
    have w₁ := weak_scc_loop_std hE₁ hWF fuelR univS₁ k h₁
    have w₂ := weak_scc_loop_std hE₂ hWF fuelR univS₂ k h₂
    rw [count_states_exact_std hE₁ w₁, count_states_exact_std hE₂ w₂]

/-- Witness for C1 on the constant model: after one forward step from the
shared initial state `[0]`, the unary and the binary system report the
same exact state count. -/
theorem c1_encoding_equivalence_witness :
    modelWF c4model ∧
    (perform_steps unaryEnc c4model (successors_async unaryEnc c4model) 1
        (some (singletonS unaryEnc c4model [0]))).map
        (count_states_exact unaryEnc c4model) =
      (perform_steps binaryEnc c4model (successors_async binaryEnc c4model) 1
        (some (singletonS binaryEnc c4model [0]))).map
        (count_states_exact binaryEnc c4model) :=
  ⟨⟨by decide, by decide⟩,
    (c1_encoding_equivalence unaryGood binaryGood ⟨by decide, by decide⟩
      (singletonS_std unaryEnc c4model [0])
      (singletonS_std binaryEnc c4model [0])).1 1⟩
